import Mathlib

/-!
Verification of the choros control core: the navigation graph engine
(`navigation.cpp` / `navigation.hpp`) and the lifecycle task scheduler
(`lifecycle.cpp` / `lifecycle.hpp`, `task.hpp`), shallowly embedded in Lean.

Modelling conventions:
* C++ `float` weights are modelled as exact rationals (`ℚ`); all concrete
  weights appearing in the spec examples are small integers, which `float`
  represents exactly.
* `std::unordered_map` is modelled as an association list in insertion order;
  `operator[]` (which inserts a default value on a missing key) is modelled by
  `findOrInsert` / `aset`, and `map::find` by `alookup`.
* C++ exceptions escaping a function are modelled by `Except Unit` errors /
  an error component in the returned pair; a function that throws before any
  mutation returns the unchanged state, exactly as the C++ object is left
  unchanged by a throw that precedes all writes.
* the `while` loops are written with an explicit fuel parameter; the fuel
  chosen in `find_path` is proved sufficient under the conditions in which the
  C++ loop terminates (non-negative weights).
-/

set_option maxHeartbeats 1600000

deriving instance DecidableEq for Except

namespace Choros

/-- Association-list lookup: the model of `map::find` (first binding wins;
maps built through the API below have distinct keys). -/
def alookup {α : Type} : List (String × α) → String → Option α
  | [], _ => none
  | (k0, v) :: rest, k => if k0 = k then some v else alookup rest k

/-- Association-list assignment: the model of `map::operator[] = v`, updating
the existing binding in place or appending a fresh one. -/
def aset {α : Type} : List (String × α) → String → α → List (String × α)
  | [], k, v => [(k, v)]
  | (k0, v0) :: rest, k, v =>
    if k0 = k then (k, v) :: rest else (k0, v0) :: aset rest k v

/-- Association-list read through `map::operator[]`: returns the stored value,
inserting (and returning) the default when the key is missing. -/
def findOrInsert {α : Type} (l : List (String × α)) (k : String) (d : α) :
    α × List (String × α) :=
  match alookup l k with
  | some v => (v, l)
  | none => (d, l ++ [(k, d)])

/-- Cardinal directions aligned with the Botball field
(`enum class Direction { EAST = 0, NORTH = 90, WEST = 180, SOUTH = 270 }`). -/
inductive Direction
  | EAST
  | NORTH
  | WEST
  | SOUTH
deriving DecidableEq, Repr

/-- The integer value of a `Direction`, as in the C++ enum. -/
def Direction.angle : Direction → Nat
  | .EAST => 0
  | .NORTH => 90
  | .WEST => 180
  | .SOUTH => 270

/-- The `static_cast<Direction>` of an angle that is one of 0/90/180/270. -/
def Direction.ofAngle (n : Nat) : Direction :=
  if n = 0 then .EAST else if n = 90 then .NORTH else if n = 180 then .WEST else .SOUTH

/-- The reverse direction computed in `Navigation::add_edge`:
`static_cast<Direction>((static_cast<int>(direction) + 180) % 360)`. -/
def Direction.reverse (d : Direction) : Direction :=
  Direction.ofAngle ((d.angle + 180) % 360)

/-- Axis alignment of an edge. -/
inductive EdgeOrientation
  | HORIZONTAL
  | VERTICAL
deriving DecidableEq, Repr

/-- Node kinds: full intersection (PRIMARY) or terminal (SECONDARY). -/
inductive NodeType
  | PRIMARY
  | SECONDARY
deriving DecidableEq, Repr

/-- A directed edge of the navigation graph (struct `Edge`); the four
intersection flags default to `false` exactly as in the C++ initializers. -/
structure Edge where
  «to» : String
  weight : ℚ
  direction : Direction
  intersection_east : Bool := false
  intersection_north : Bool := false
  intersection_west : Bool := false
  intersection_south : Bool := false
deriving DecidableEq, Repr

/-- `Edge::orientation()`: EAST/WEST are horizontal, NORTH/SOUTH vertical. -/
def Edge.orientation (e : Edge) : EdgeOrientation :=
  if e.direction = Direction.EAST ∨ e.direction = Direction.WEST then
    EdgeOrientation.HORIZONTAL
  else
    EdgeOrientation.VERTICAL

/-- The state of a `Navigation` object (the `location_map` / `current_location`
members are omitted: no claim mentions locations). -/
structure Navigation where
  adjacency_list : List (String × List Edge) := []
  node_types : List (String × NodeType) := []
  current_node : Option String := none
deriving Repr, DecidableEq

/-- The two exception kinds thrown by the graph-construction API:
`std::invalid_argument` (structural) and `std::logic_error` (constraint). -/
inductive NavError
  | structural
  | constraint
deriving DecidableEq, Repr

/-- `Navigation::add_node`: throws `invalid_argument` when the id exists,
otherwise records the type and an empty adjacency bucket. A thrown error
leaves the object unchanged, hence the returned pair. -/
def Navigation.add_node (g : Navigation) (node : String) (ty : NodeType) :
    Navigation × Option NavError :=
  if (alookup g.node_types node).isSome then
    (g, some NavError.structural)
  else
    ({ g with
        node_types := aset g.node_types node ty,
        adjacency_list := aset g.adjacency_list node [] }, none)

/-- The flag update applied inside the double loop of `Navigation::add_edge`
to an edge terminating at the edge-source node, for a new departing
direction `d`. -/
def updFlag (d : Direction) (e : Edge) : Edge :=
  if e.orientation = EdgeOrientation.HORIZONTAL then
    { e with
        intersection_north := e.intersection_north || decide (d = Direction.NORTH),
        intersection_south := e.intersection_south || decide (d = Direction.SOUTH) }
  else
    { e with
        intersection_west := e.intersection_west || decide (d = Direction.WEST),
        intersection_east := e.intersection_east || decide (d = Direction.EAST) }

/-- `adjacency_list[k].push_back(e)` (the `operator[]` default-inserts an
empty bucket when the key is missing). -/
def bucketPush (adj : List (String × List Edge)) (k : String) (e : Edge) :
    List (String × List Edge) :=
  let p := findOrInsert adj k []
  aset p.2 k (p.1 ++ [e])

/-- The body of the inner flag-update loop of `add_edge`: an edge is updated
when it points back at the edge-source node `a`, and left alone otherwise. -/
def updIfTo (a : String) (d : Direction) (e : Edge) : Edge :=
  if e.to = a then updFlag d e else e

/-- One iteration of the outer flag-update loop of `add_edge`: for the
out-neighbour `x` of `a`, update every edge of `x`'s bucket pointing back
to `a` with the new departing direction `d`. -/
def flagPassAt (a : String) (d : Direction) (adj : List (String × List Edge))
    (x : String) : List (String × List Edge) :=
  let p := findOrInsert adj x []
  aset p.2 x (p.1.map (updIfTo a d))

/-- The mutation part of a successful `add_edge` on the adjacency list
`adj2` left by the two SECONDARY checks: push the forward edge, push the
reverse edge, then run the intersection-flag pass over the out-neighbours
of `a` (read from the post-push bucket of `a`, whose `to` fields the loop
body never changes). -/
def addEdgeCore (adj2 : List (String × List Edge)) (g : Navigation)
    (a b : String) (w : ℚ) (d : Direction) : Navigation × Option NavError :=
  let adj3 := bucketPush adj2 a { «to» := b, weight := w, direction := d }
  let adj4 := bucketPush adj3 b { «to» := a, weight := w, direction := d.reverse }
  let targets := ((alookup adj4 a).getD []).map (fun e => e.to)
  ({ g with adjacency_list := targets.foldl (flagPassAt a d) adj4 }, none)

/-- The SECONDARY-arity test of `add_edge` at one endpoint:
`node_types[k] == NodeType::SECONDARY && !adjacency_list[k].empty()`.
Because of `&&` short-circuiting the bucket `operator[]` (which
default-inserts an empty bucket on a missing key) only runs for a SECONDARY
endpoint; the returned list is the adjacency list after that possible
insertion. -/
def secondaryCheck (types : List (String × NodeType))
    (adj : List (String × List Edge)) (k : String) :
    Bool × List (String × List Edge) :=
  if alookup types k = some NodeType.SECONDARY then
    (decide ((findOrInsert adj k []).1 ≠ []), (findOrInsert adj k []).2)
  else (false, adj)

/-- `Navigation::add_edge`. The checks run in source order (undeclared
endpoints, then the SECONDARY-arity constraint at `from`, then at `to`);
on success the forward edge, the reverse edge (same weight, direction
rotated 180 degrees) and the intersection-flag pass are applied. -/
def Navigation.add_edge (g : Navigation) (a b : String) (w : ℚ) (d : Direction) :
    Navigation × Option NavError :=
  if (alookup g.node_types a).isNone ∨ (alookup g.node_types b).isNone then
    (g, some NavError.structural)
  else if (secondaryCheck g.node_types g.adjacency_list a).1 then
    ({ g with adjacency_list := (secondaryCheck g.node_types g.adjacency_list a).2 },
      some NavError.constraint)
  else if (secondaryCheck g.node_types
      (secondaryCheck g.node_types g.adjacency_list a).2 b).1 then
    ({ g with adjacency_list := (secondaryCheck g.node_types
        (secondaryCheck g.node_types g.adjacency_list a).2 b).2 },
      some NavError.constraint)
  else
    addEdgeCore
      (secondaryCheck g.node_types (secondaryCheck g.node_types g.adjacency_list a).2 b).2
      g a b w d

/-- `Navigation::get_edge`: throws on an undeclared endpoint (or a missing
`at` key), otherwise returns the first matching forward edge. -/
def Navigation.get_edge (g : Navigation) (a b : String) : Except Unit (Option Edge) :=
  if (alookup g.node_types a).isNone ∨ (alookup g.node_types b).isNone then
    Except.error ()
  else
    match alookup g.adjacency_list a with
    | none => Except.error ()
    | some es => Except.ok (es.find? (fun e => e.to = b))

/-- `Navigation::set_node`. -/
def Navigation.set_node (g : Navigation) (id : Option String) : Navigation :=
  { g with current_node := id }

/-- `Navigation::get_node`. -/
def Navigation.get_node (g : Navigation) : Option String :=
  g.current_node

/-- `Navigation::get_node_type`. -/
def Navigation.get_node_type (g : Navigation) (node : String) : Option NodeType :=
  alookup g.node_types node

/-- A `Navigation` value reachable from the default-constructed object through
the public construction API. -/
inductive Built : Navigation → Prop
  | empty : Built {}
  | node {g g' : Navigation} {n : String} {t : NodeType} :
      Built g → g.add_node n t = (g', none) → Built g'
  | edge {g g' : Navigation} {a b : String} {w : ℚ} {d : Direction} :
      Built g → g.add_edge a b w d = (g', none) → Built g'
  | setn {g : Navigation} {s : Option String} :
      Built g → Built (g.set_node s)

/-- Strict order on `(float, string)` pairs as compared by the C++
`std::priority_queue` with `std::greater`: lexicographic, distance first,
then the string. -/
def pairLt (x y : ℚ × String) : Prop :=
  x.1 < y.1 ∨ (x.1 = y.1 ∧ x.2 < y.2)

instance (x y : ℚ × String) : Decidable (pairLt x y) := by
  unfold pairLt
  infer_instance

/-- Pop the minimal entry of the priority-queue model. The queue is kept as
the bag of entries in push order; `popMin` removes one minimal entry, which
is exactly the observable behaviour of the C++ min-heap (entries that compare
equal are identical pairs). -/
def popMin : List (ℚ × String) → Option ((ℚ × String) × List (ℚ × String))
  | [] => none
  | x :: xs =>
    match popMin xs with
    | none => some (x, [])
    | some (m, rest) => if pairLt m x then some (m, x :: rest) else some (x, xs)

/-- The Dijkstra loop state: pending queue, tentative-distance map and
predecessor map (the distance map holds `⊤` for the `float` infinity). -/
structure DState where
  queue : List (ℚ × String)
  dist : List (String × WithTop ℚ)
  prev : List (String × String)
deriving Repr, DecidableEq

/-- Relaxation of one out-edge of the popped node `u` at popped distance `d`,
from the inner `for` loop of `Navigation::find_path`: blacklisted targets are
skipped; `dist[edge.to]` is read through `operator[]` (default `0.0f` on a
missing key, matching value-initialized `float`); on strict improvement the
distance and predecessor are stored and the new pair pushed. -/
def relaxEdge (bl : List String) (u : String) (d : ℚ) (st : DState) (e : Edge) :
    DState :=
  if e.to ∈ bl then st
  else
    let p := findOrInsert st.dist e.to ((0 : ℚ) : WithTop ℚ)
    let alt : ℚ := d + e.weight
    if ((alt : WithTop ℚ) < p.1) then
      { queue := st.queue ++ [(alt, e.to)],
        dist := aset p.2 e.to ((alt : ℚ) : WithTop ℚ),
        prev := aset st.prev e.to u }
    else
      { st with dist := p.2 }

/-- The `while (!queue.empty())` loop of `Navigation::find_path`, with fuel.
Popping the target breaks out of the loop; a popped blacklisted node is
skipped; otherwise `adjacency_list.at` is consulted (`Except.error` models the
`std::out_of_range` throw on a missing key) and every out-edge is relaxed. -/
def dijkstraLoop (adj : List (String × List Edge)) (tgt : String)
    (bl : List String) : Nat → DState → Except Unit DState
  | 0, st => Except.ok st
  | Nat.succ fuel, st =>
    match popMin st.queue with
    | none => Except.ok st
    | some (du, rest) =>
      if du.2 = tgt then Except.ok { st with queue := rest }
      else if du.2 ∈ bl then dijkstraLoop adj tgt bl fuel { st with queue := rest }
      else
        match alookup adj du.2 with
        | none => Except.error ()
        | some es =>
          dijkstraLoop adj tgt bl fuel (es.foldl (relaxEdge bl du.2 du.1)
            { st with queue := rest })

/-- The path-reconstruction loop of `Navigation::find_path`: walk the
predecessor chain from the target back to `src`, collecting at each step the
first adjacency record of the parent that points at the current node
(`std::find_if`), and reverse at the end. `prev[current]` is an `operator[]`
read (default-inserting the empty string), and `adjacency_list.at(parent)`
throws on a missing key; running out of fuel models the infinite loop the C++
`while (current != from)` performs on a predecessor chain that never reaches
`src`. -/
def reconstruct (adj : List (String × List Edge)) (src : String) :
    Nat → String → List (String × String) → List Edge →
    Except Unit (Option (List Edge))
  | 0, _, _, _ => Except.error ()
  | Nat.succ fuel, cur, prev, acc =>
    if cur = src then Except.ok (some acc.reverse)
    else
      let p := findOrInsert prev cur ""
      match alookup adj p.1 with
      | none => Except.error ()
      | some es =>
        match es.find? (fun e => e.to = cur) with
        | none => Except.ok none
        | some e => reconstruct adj src fuel p.1 p.2 (acc ++ [e])

/-- Total number of adjacency-list records of the graph. -/
def totalEdgeCount (adj : List (String × List Edge)) : Nat :=
  (adj.map (fun p => p.2.length)).sum

/-- `Navigation::find_path`. Returns `Except.ok none` for "no path"
(`std::nullopt`), `Except.ok (some p)` for a found path, `Except.error` when
the C++ code would throw or loop forever. The distance map is initialized to
infinity on every node (the unordered-map iteration order is irrelevant for
that), the source distance is set to `0` and the pair `(0, from)` seeded. The
main-loop fuel `totalEdgeCount + |nodes| + 2` is sufficient whenever all edge
weights are non-negative (each adjacency record causes at most one successful
relaxation, so at most `totalEdgeCount + 1` entries are ever popped); the
reconstruction fuel `|prev| + 1` is sufficient for a predecessor chain that
reaches the source, whose looked-up keys are distinct. -/
def Navigation.find_path (g : Navigation) (tgt : String)
    (bl : List String := []) : Except Unit (Option (List Edge)) :=
  match g.current_node with
  | none => Except.ok none
  | some src =>
    let dist0 := g.adjacency_list.map (fun p => (p.1, (⊤ : WithTop ℚ)))
    let dist1 := aset dist0 src ((0 : ℚ) : WithTop ℚ)
    let st0 : DState := ⟨[((0 : ℚ), src)], dist1, []⟩
    match dijkstraLoop g.adjacency_list tgt bl
        (totalEdgeCount g.adjacency_list + g.adjacency_list.length + 2) st0 with
    | Except.error _ => Except.error ()
    | Except.ok st =>
      match alookup st.prev tgt with
      | none => Except.ok none
      | some _ => reconstruct g.adjacency_list src (st.prev.length + 1) tgt st.prev []

/-- Task execution outcomes (`task.hpp`). -/
inductive TaskResult
  | SUCCESS
  | RETRYABLE_FAILURE
  | FATAL_FAILURE
deriving DecidableEq, Repr

/-- The scheduler-relevant state of a `Lifecycle` object. Task objects are
opaque; their `execute` member is modelled by the behaviour function passed
to `execute_tasks`, so the task map is modelled by its insertion-ordered key
list (re-registration overwrites the value and keeps the key). -/
structure Lifecycle where
  tasks : List String := []
  dependencies : List (String × List String) := []
  completed : List String := []
deriving Repr, DecidableEq

/-- `Lifecycle::add_task` (key part: `task_map[id] = task`). -/
def Lifecycle.add_task (L : Lifecycle) (id : String) : Lifecycle :=
  if id ∈ L.tasks then L else { L with tasks := L.tasks ++ [id] }

/-- `Lifecycle::add_dependency`: `dependencies[from].push_back(to)`. -/
def Lifecycle.add_dependency (L : Lifecycle) (a b : String) : Lifecycle :=
  let p := findOrInsert L.dependencies a []
  { L with dependencies := aset p.2 a (p.1 ++ [b]) }

/-- The dependents list of a prerequisite id (`dependencies[current]`; the
`operator[]` insertion of an empty bucket has no observable effect, so the
read is modelled by a default). -/
def depsOf (deps : List (String × List String)) (a : String) : List String :=
  (alookup deps a).getD []

/-- One `in_degree[to]++` of `Lifecycle::build_in_degree`. -/
def bumpInDegree (m : List (String × Int)) (k : String) : List (String × Int) :=
  let p := findOrInsert m k 0
  aset p.2 k (p.1 + 1)

/-- `Lifecycle::build_in_degree`: zero for every registered task, then one
increment per dependency edge occurrence. -/
def build_in_degree (tasks : List String) (deps : List (String × List String)) :
    List (String × Int) :=
  deps.foldl (fun m pr => pr.2.foldl bumpInDegree m) (tasks.map (fun t => (t, 0)))

/-- `Lifecycle::get_ready_tasks`: ids of in-degree zero not already
completed, in in-degree-map order. -/
def get_ready_tasks (indeg : List (String × Int)) (completed : List String) :
    List String :=
  (indeg.filter (fun p => decide (p.2 = 0 ∧ p.1 ∉ completed))).map (fun p => p.1)

/-- `unordered_set::insert` on the completed set. -/
def insertSet (s : List String) (id : String) : List String :=
  if id ∈ s then s else s ++ [id]

/-- The scheduler loop state: FIFO ready queue, in-degree map, completed set,
plus the invocation trace (each `task->execute` call with its result) and a
crash flag recording an escaped `std::out_of_range`. -/
structure SchedState where
  queue : List String
  in_degree : List (String × Int)
  completed : List String
  trace : List (String × TaskResult)
  crashed : Bool
deriving Repr, DecidableEq

/-- One `--in_degree[dependent]` step of `execute_tasks`: decrement the
dependent's in-degree (an `operator[]` read, default 0) and enqueue it the
moment the decremented value is zero. -/
def decStep (s : SchedState) (dep : String) : SchedState :=
  let p := findOrInsert s.in_degree dep 0
  if p.1 - 1 = 0 then
    { s with in_degree := aset p.2 dep (p.1 - 1), queue := s.queue ++ [dep] }
  else
    { s with in_degree := aset p.2 dep (p.1 - 1) }

/-- The state update of `execute_tasks` for a SUCCESS or FATAL_FAILURE
result: insert the id into the completed set, then decrement every
dependent's in-degree in order, enqueuing a dependent at the moment its
in-degree reaches zero. -/
def terminalUpdate (deps : List (String × List String)) (st : SchedState)
    (current : String) : SchedState :=
  (depsOf deps current).foldl decStep
    { st with completed := insertSet st.completed current }

/-- The branch on `task->execute`'s result in `execute_tasks` (the popped
id's trace entry is appended by the loop): SUCCESS and FATAL_FAILURE take
the identical completed/decrement path; RETRYABLE_FAILURE re-enqueues the
same id at the back of the queue and changes nothing else. -/
def applyResult (deps : List (String × List String)) (st : SchedState)
    (current : String) : TaskResult → SchedState
  | TaskResult.SUCCESS => terminalUpdate deps st current
  | TaskResult.FATAL_FAILURE => terminalUpdate deps st current
  | TaskResult.RETRYABLE_FAILURE => { st with queue := st.queue ++ [current] }

/-- The `while (!queue.empty())` loop of `Lifecycle::execute_tasks`, with
fuel. `beh` models the `execute` members of the task objects: it may depend
on the whole invocation history (the trace) and on the task id, which covers
every realizable sequence of task outcomes. A popped id absent from the task
map is a `task_map.at` throw: the pop has already happened, the task is not
invoked, and the loop stops in a crashed state. -/
def schedLoop (beh : List (String × TaskResult) → String → TaskResult)
    (deps : List (String × List String)) (tasks : List String) :
    Nat → SchedState → SchedState
  | 0, st => st
  | Nat.succ fuel, st =>
    if st.crashed then st
    else
      match st.queue with
      | [] => st
      | current :: rest =>
        if current ∈ tasks then
          let r := beh st.trace current
          schedLoop beh deps tasks fuel
            (applyResult deps
              { st with queue := rest, trace := st.trace ++ [(current, r)] }
              current r)
        else { st with queue := rest, crashed := true }

/-- `Lifecycle::execute_tasks`: rebuild the in-degree map from scratch, seed
the FIFO queue with every ready task and run the loop. -/
def Lifecycle.execute_tasks (L : Lifecycle)
    (beh : List (String × TaskResult) → String → TaskResult) (fuel : Nat) :
    SchedState :=
  let indeg := build_in_degree L.tasks L.dependencies
  schedLoop beh L.dependencies L.tasks fuel
    ⟨get_ready_tasks indeg L.completed, indeg, L.completed, [], false⟩

/-- `Lifecycle::is_task_completed`, as a function of the completed set. -/
def is_task_completed (completed : List String) (id : String) : Bool :=
  completed.contains id

/-! Basic lemmas about the association-list primitives. -/

theorem alookup_aset_self {α : Type} (l : List (String × α)) (k : String) (v : α) :
    alookup (aset l k v) k = some v := by
  induction l with
  | nil => simp [aset, alookup]
  | cons p rest ih =>
    obtain ⟨k0, v0⟩ := p
    by_cases h : k0 = k
    · simp [aset, h, alookup]
    · simp [aset, h, alookup, ih]

theorem alookup_aset_ne {α : Type} (l : List (String × α)) (k k' : String) (v : α)
    (h : k' ≠ k) : alookup (aset l k v) k' = alookup l k' := by
  induction l with
  | nil => simp [aset, alookup, Ne.symm h]
  | cons p rest ih =>
    obtain ⟨k0, v0⟩ := p
    by_cases h0 : k0 = k
    · subst h0
      simp [aset, alookup, Ne.symm h]
    · simp only [aset, h0, if_false, alookup]
      by_cases h1 : k0 = k'
      · simp [h1]
      · simp [h1, ih]

theorem alookup_append {α : Type} (l1 l2 : List (String × α)) (k : String) :
    alookup (l1 ++ l2) k =
      match alookup l1 k with
      | some v => some v
      | none => alookup l2 k := by
  induction l1 with
  | nil => simp [alookup]
  | cons p rest ih =>
    obtain ⟨k0, v0⟩ := p
    by_cases h : k0 = k <;> simp [alookup, h, ih]

theorem alookup_isSome_of_mem {α : Type} {l : List (String × α)} {p : String × α}
    (h : p ∈ l) : (alookup l p.1).isSome := by
  induction l with
  | nil => cases h
  | cons q rest ih =>
    obtain ⟨k0, v0⟩ := q
    rcases List.mem_cons.mp h with h | h
    · subst h
      simp [alookup]
    · by_cases hk : k0 = p.1
      · simp [alookup, hk]
      · simp only [alookup, hk, if_false]
        exact ih h

theorem mem_of_alookup_eq_some {α : Type} {l : List (String × α)} {k : String}
    {v : α} (h : alookup l k = some v) : (k, v) ∈ l := by
  induction l with
  | nil => simp [alookup] at h
  | cons p rest ih =>
    obtain ⟨k0, v0⟩ := p
    by_cases hk : k0 = k
    · subst hk
      simp [alookup] at h
      simp [h]
    · simp only [alookup, hk, if_false] at h
      exact List.mem_cons_of_mem _ (ih h)

theorem findOrInsert_of_some {α : Type} {l : List (String × α)} {k : String}
    {v : α} (d : α) (h : alookup l k = some v) : findOrInsert l k d = (v, l) := by
  simp [findOrInsert, h]

theorem findOrInsert_of_none {α : Type} {l : List (String × α)} {k : String}
    (d : α) (h : alookup l k = none) : findOrInsert l k d = (d, l ++ [(k, d)]) := by
  simp [findOrInsert, h]

/-! The spec example graph: nodes A, B, C, D with edges A-B (1), B-D (5),
A-C (1), C-D (1), current node A. The directions are a representative
choice; the spec example fixes only the weights. -/

/-- The concrete test graph of the spec (section 8). -/
def exampleGraph : Navigation :=
  let g := (Navigation.add_node {} "A" NodeType.PRIMARY).1
  let g := (g.add_node "B" NodeType.PRIMARY).1
  let g := (g.add_node "C" NodeType.PRIMARY).1
  let g := (g.add_node "D" NodeType.PRIMARY).1
  let g := (g.add_edge "A" "B" 1 Direction.EAST).1
  let g := (g.add_edge "B" "D" 5 Direction.NORTH).1
  let g := (g.add_edge "A" "C" 1 Direction.NORTH).1
  let g := (g.add_edge "C" "D" 1 Direction.EAST).1
  g.set_node (some "A")

/-- The loop pops a minimal entry carrying the target and breaks at once. -/
theorem dijkstraLoop_break (adj : List (String × List Edge)) (tgt : String)
    (bl : List String) (fuel : Nat) (st : DState) (d : ℚ)
    (rest : List (ℚ × String)) (hpop : popMin st.queue = some ((d, tgt), rest)) :
    dijkstraLoop adj tgt bl (Nat.succ fuel) st = Except.ok { st with queue := rest } := by
  simp [dijkstraLoop, hpop]

/-- C10: with the current node set and the target equal to it, `find_path`
returns "no path" (`std::nullopt`), for every graph and every blacklist: the
single seeded queue entry is the source itself, so the first pop breaks the
loop with an empty predecessor map, and the reconstruction guard fails. -/
theorem claim_C10 (g : Navigation) (bl : List String) (src : String)
    (h : g.current_node = some src) :
    g.find_path src bl = Except.ok none := by
  obtain ⟨adj, types, cur⟩ := g
  have hc : cur = some src := h
  subst hc
  have hfuel : totalEdgeCount adj + adj.length + 2 =
      Nat.succ (totalEdgeCount adj + adj.length + 1) := rfl
  have hrun := dijkstraLoop_break adj src bl (totalEdgeCount adj + adj.length + 1)
    ⟨[((0 : ℚ), src)], aset (adj.map (fun p => (p.1, (⊤ : WithTop ℚ))))
      src ((0 : ℚ) : WithTop ℚ), []⟩ 0 [] (by simp [popMin])
  simp only [Navigation.find_path, hfuel, hrun, alookup]

/-- Witness for C10 at the concrete spec graph with target = current node A. -/
theorem claim_C10_witness :
    exampleGraph.current_node = some "A" ∧
      exampleGraph.find_path "A" [] = Except.ok none :=
  ⟨by with_unfolding_all decide, claim_C10 exampleGraph [] "A" (by with_unfolding_all decide)⟩

/-! Characterization of the adjacency buckets after a successful `add_edge`. -/

/-- The adjacency bucket of a node, empty when the key is absent. -/
def aget (adj : List (String × List Edge)) (x : String) : List Edge :=
  (alookup adj x).getD []

theorem updFlag_to (d : Direction) (e : Edge) : (updFlag d e).to = e.to := by
  unfold updFlag
  split <;> rfl

theorem updFlag_weight (d : Direction) (e : Edge) : (updFlag d e).weight = e.weight := by
  unfold updFlag
  split <;> rfl

theorem updFlag_direction (d : Direction) (e : Edge) :
    (updFlag d e).direction = e.direction := by
  unfold updFlag
  split <;> rfl

theorem updFlag_idem (d : Direction) (e : Edge) :
    updFlag d (updFlag d e) = updFlag d e := by
  obtain ⟨t, w, dir, fe, fn, fw, fs⟩ := e
  cases dir <;> cases d <;> simp [updFlag, Edge.orientation]

theorem updIfTo_to (a : String) (d : Direction) (e : Edge) :
    (updIfTo a d e).to = e.to := by
  unfold updIfTo
  split <;> simp [updFlag_to]

theorem updIfTo_weight (a : String) (d : Direction) (e : Edge) :
    (updIfTo a d e).weight = e.weight := by
  unfold updIfTo
  split <;> simp [updFlag_weight]

theorem updIfTo_direction (a : String) (d : Direction) (e : Edge) :
    (updIfTo a d e).direction = e.direction := by
  unfold updIfTo
  split <;> simp [updFlag_direction]

theorem updIfTo_idem (a : String) (d : Direction) (e : Edge) :
    updIfTo a d (updIfTo a d e) = updIfTo a d e := by
  unfold updIfTo
  by_cases h : e.to = a
  · simp [h, updFlag_to, updFlag_idem]
  · simp [h]

theorem map_updIfTo_idem (a : String) (d : Direction) (l : List Edge) :
    (l.map (updIfTo a d)).map (updIfTo a d) = l.map (updIfTo a d) := by
  rw [List.map_map]
  apply List.map_congr_left
  intro e _
  exact updIfTo_idem a d e

theorem aget_findOrInsert_snd (adj : List (String × List Edge)) (k x : String) :
    aget (findOrInsert adj k []).2 x = aget adj x := by
  unfold findOrInsert aget
  cases h : alookup adj k with
  | some bk => simp
  | none =>
    by_cases hx : x = k
    · subst hx
      simp [alookup_append, h, alookup]
    · simp only [alookup_append]
      cases hx2 : alookup adj x with
      | some v => simp
      | none => simp [alookup, Ne.symm hx]

theorem alookup_bucketPush_self (adj : List (String × List Edge)) (k : String)
    (e : Edge) : alookup (bucketPush adj k e) k = some (aget adj k ++ [e]) := by
  unfold bucketPush aget
  cases h : alookup adj k with
  | some bk => simp [findOrInsert, h, alookup_aset_self]
  | none => simp [findOrInsert, h, alookup_aset_self]

theorem alookup_bucketPush_ne (adj : List (String × List Edge)) (k x : String)
    (e : Edge) (hx : x ≠ k) :
    alookup (bucketPush adj k e) x = alookup adj x := by
  unfold bucketPush
  cases h : alookup adj k with
  | some bk => simp [findOrInsert, h, alookup_aset_ne _ _ _ _ hx]
  | none =>
    simp only [findOrInsert, h]
    rw [alookup_aset_ne _ _ _ _ hx, alookup_append]
    cases hx2 : alookup adj x with
    | some v => simp
    | none => simp [alookup, Ne.symm hx]

theorem aget_bucketPush_self (adj : List (String × List Edge)) (k : String)
    (e : Edge) : aget (bucketPush adj k e) k = aget adj k ++ [e] := by
  unfold aget
  rw [alookup_bucketPush_self]
  rfl

theorem aget_bucketPush_ne (adj : List (String × List Edge)) (k x : String)
    (e : Edge) (hx : x ≠ k) : aget (bucketPush adj k e) x = aget adj x := by
  unfold aget
  rw [alookup_bucketPush_ne _ _ _ _ hx]

theorem alookup_flagPassAt_self (a : String) (d : Direction)
    (adj : List (String × List Edge)) (x : String) :
    alookup (flagPassAt a d adj x) x = some ((aget adj x).map (updIfTo a d)) := by
  unfold flagPassAt aget
  cases h : alookup adj x with
  | some bk => simp [findOrInsert, h, alookup_aset_self]
  | none => simp [findOrInsert, h, alookup_aset_self]

theorem alookup_flagPassAt_ne (a : String) (d : Direction)
    (adj : List (String × List Edge)) (x y : String) (hy : y ≠ x) :
    alookup (flagPassAt a d adj x) y = alookup adj y := by
  unfold flagPassAt
  cases h : alookup adj x with
  | some bk => simp [findOrInsert, h, alookup_aset_ne _ _ _ _ hy]
  | none =>
    simp only [findOrInsert, h]
    rw [alookup_aset_ne _ _ _ _ hy, alookup_append]
    cases hx2 : alookup adj y with
    | some v => simp
    | none => simp [alookup, Ne.symm hy]

theorem aget_flagFold (a : String) (d : Direction) (ts : List String)
    (adj : List (String × List Edge)) (y : String) :
    aget (ts.foldl (flagPassAt a d) adj) y =
      if y ∈ ts then (aget adj y).map (updIfTo a d) else aget adj y := by
  induction ts generalizing adj with
  | nil => simp
  | cons x rest ih =>
    simp only [List.foldl_cons]
    rw [ih]
    by_cases hyx : y = x
    · subst hyx
      have hself : aget (flagPassAt a d adj y) y = (aget adj y).map (updIfTo a d) := by
        unfold aget
        rw [alookup_flagPassAt_self]
        rfl
      by_cases hr : y ∈ rest
      · simp [hr, hself, map_updIfTo_idem, updIfTo_idem]
      · simp [hr, hself]
    · have hne : aget (flagPassAt a d adj x) y = aget adj y := by
        unfold aget
        rw [alookup_flagPassAt_ne _ _ _ _ _ hyx]
      simp [List.mem_cons, hyx, hne]

theorem alookup_flagFold_isSome (a : String) (d : Direction) (ts : List String)
    (adj : List (String × List Edge)) (y : String)
    (h : (alookup adj y).isSome) :
    (alookup (ts.foldl (flagPassAt a d) adj) y).isSome := by
  induction ts generalizing adj with
  | nil => exact h
  | cons x rest ih =>
    simp only [List.foldl_cons]
    apply ih
    by_cases hyx : y = x
    · subst hyx
      rw [alookup_flagPassAt_self]
      rfl
    · rw [alookup_flagPassAt_ne _ _ _ _ _ hyx]
      exact h

/-- Shape of a successful `add_edge`: node types and current node are
untouched, both endpoints were declared, and the adjacency list is obtained
from an intermediate list with identical buckets (`adj2`, possibly with empty
buckets materialized by the SECONDARY checks) by the two pushes followed by
the flag pass over the out-neighbours of `a`. -/
theorem add_edge_ok_shape {g g' : Navigation} {a b : String} {w : ℚ}
    {d : Direction} (hok : g.add_edge a b w d = (g', none)) :
    g'.node_types = g.node_types ∧ g'.current_node = g.current_node ∧
    (alookup g.node_types a).isSome ∧ (alookup g.node_types b).isSome ∧
    ∃ adj2 : List (String × List Edge),
      (∀ x, aget adj2 x = aget g.adjacency_list x) ∧
      g'.adjacency_list =
        (((aget (bucketPush (bucketPush adj2 a { «to» := b, weight := w, direction := d })
              b { «to» := a, weight := w, direction := d.reverse }) a).map (fun e => e.to)).foldl
          (flagPassAt a d)
          (bucketPush (bucketPush adj2 a { «to» := b, weight := w, direction := d })
            b { «to» := a, weight := w, direction := d.reverse })) := by
  unfold Navigation.add_edge at hok
  split_ifs at hok with h1 h2 h3
  · simp at hok
  · simp at hok
  · simp at hok
  · rw [not_or] at h1
    have h1a : (alookup g.node_types a).isSome := by
      cases hx : alookup g.node_types a
      · exact absurd (by simp [hx]) h1.1
      · simp
    have h1b : (alookup g.node_types b).isSome := by
      cases hx : alookup g.node_types b
      · exact absurd (by simp [hx]) h1.2
      · simp
    set adj2 := (secondaryCheck g.node_types
      (secondaryCheck g.node_types g.adjacency_list a).2 b).2 with hadj2
    have hgets : ∀ x, aget adj2 x = aget g.adjacency_list x := by
      intro x
      rw [hadj2]
      unfold secondaryCheck
      split
      · rw [aget_findOrInsert_snd]
        split
        · rw [aget_findOrInsert_snd]
        · rfl
      · split
        · rw [aget_findOrInsert_snd]
        · rfl
    unfold addEdgeCore at hok
    rw [Prod.mk.injEq] at hok
    refine ⟨?_, ?_, h1a, h1b, adj2, hgets, ?_⟩
    · rw [← hok.1]
    · rw [← hok.1]
    · rw [← hok.1]
      rfl

/-- The first matching record of a bucket transformed by a per-record map
that preserves the `to` field. -/
theorem find?_map_to_pres (l : List Edge) (f : Edge → Edge)
    (hf : ∀ e, (f e).to = e.to) (b : String) :
    (l.map f).find? (fun e => e.to = b) = (l.find? (fun e => e.to = b)).map f := by
  induction l with
  | nil => rfl
  | cons e rest ih =>
    by_cases h : e.to = b
    · simp [List.find?, hf, h]
    · simp only [List.map_cons, List.find?]
      rw [show (decide ((f e).to = b)) = false by simp [hf, h],
        show (decide (e.to = b)) = false by simp [h]]
      exact ih

theorem find?_append_none {p : Edge → Bool} {l1 : List Edge}
    (h : l1.find? p = none) (l2 : List Edge) :
    (l1 ++ l2).find? p = l2.find? p := by
  induction l1 with
  | nil => rfl
  | cons e rest ih =>
    rw [List.find?_cons] at h
    cases hp : p e with
    | true => rw [hp] at h; cases h
    | false =>
      rw [hp] at h
      rw [List.cons_append, List.find?_cons, hp]
      exact ih h

theorem find?_eq_none_of_all {p : Edge → Bool} {l : List Edge}
    (h : ∀ e ∈ l, p e = false) : l.find? p = none := by
  induction l with
  | nil => rfl
  | cons e rest ih =>
    rw [List.find?_cons, h e (List.mem_cons_self e rest)]
    exact ih (fun x hx => h x (List.mem_cons_of_mem e hx))

/-- Base graph for the parallel-edge counterexample: nodes A and B with one
edge A-B of weight 1 heading EAST already present. -/
def parallelBase : Navigation :=
  let g := (Navigation.add_node {} "A" NodeType.PRIMARY).1
  let g := (g.add_node "B" NodeType.PRIMARY).1
  (g.add_edge "A" "B" 1 Direction.EAST).1

/-- Counterexample to C7 as stated: inserting a second, parallel edge
A-B with weight 2 heading NORTH succeeds, yet `get_edge(A, B)` afterwards
still returns the first record: weight 1, direction EAST — not the weight
and direction that were just inserted. -/
theorem claim_C7_counterexample :
    (parallelBase.add_edge "A" "B" 2 Direction.NORTH).2 = none ∧
    (parallelBase.add_edge "A" "B" 2 Direction.NORTH).1.get_edge "A" "B" =
      Except.ok (some { «to» := "B", weight := 1, direction := Direction.EAST }) := by
  with_unfolding_all decide

/-- C7 (amended): a successful `add_edge(a, b, w, d)` with `a ≠ b` and no
pre-existing edge between `a` and `b` in either direction inserts the
forward record and the reverse record (same weight, direction rotated 180
degrees), and afterwards `get_edge(a, b)` returns weight `w` and direction
`d` while `get_edge(b, a)` returns weight `w` and the rotated direction. -/
theorem claim_C7 (g g' : Navigation) (a b : String) (w : ℚ) (d : Direction)
    (hab : a ≠ b) (hok : g.add_edge a b w d = (g', none))
    (hnoAB : ∀ e ∈ aget g.adjacency_list a, e.to ≠ b)
    (hnoBA : ∀ e ∈ aget g.adjacency_list b, e.to ≠ a) :
    (∃ e1, g'.get_edge a b = Except.ok (some e1) ∧ e1.weight = w ∧
      e1.direction = d) ∧
    (∃ e2, g'.get_edge b a = Except.ok (some e2) ∧ e2.weight = w ∧
      e2.direction = d.reverse) := by
  obtain ⟨htypes, hcur, hsa, hsb, adj2, hgets, hadj⟩ := add_edge_ok_shape hok
  set fwd : Edge := { «to» := b, weight := w, direction := d } with hfwd
  set bwd : Edge := { «to» := a, weight := w, direction := d.reverse } with hbwd
  set adj4 := bucketPush (bucketPush adj2 a fwd) b bwd with hadj4
  have hagetA4 : aget adj4 a = aget g.adjacency_list a ++ [fwd] := by
    rw [hadj4, aget_bucketPush_ne _ _ _ _ hab, aget_bucketPush_self, hgets]
  have hagetB4 : aget adj4 b = aget g.adjacency_list b ++ [bwd] := by
    rw [hadj4, aget_bucketPush_self, aget_bucketPush_ne _ _ _ _ (Ne.symm hab), hgets]
  have hsomeA4 : (alookup adj4 a).isSome := by
    rw [hadj4, alookup_bucketPush_ne _ _ _ _ hab, alookup_bucketPush_self]
    rfl
  have hsomeB4 : (alookup adj4 b).isSome := by
    rw [hadj4, alookup_bucketPush_self]
    rfl
  have hadjA : aget g'.adjacency_list a =
      (if a ∈ (aget adj4 a).map (fun e => e.to) then
        (aget adj4 a).map (updIfTo a d) else aget adj4 a) := by
    rw [hadj, aget_flagFold]
  have hBmem : b ∈ (aget adj4 a).map (fun e => e.to) := by
    rw [hagetA4]
    simp
  have hadjB : aget g'.adjacency_list b = (aget adj4 b).map (updIfTo a d) := by
    rw [hadj, aget_flagFold]
    rw [if_pos hBmem]
  have hsomeA : (alookup g'.adjacency_list a).isSome := by
    rw [hadj]
    exact alookup_flagFold_isSome _ _ _ _ _ hsomeA4
  have hsomeB : (alookup g'.adjacency_list b).isSome := by
    rw [hadj]
    exact alookup_flagFold_isSome _ _ _ _ _ hsomeB4
  have hfindA : (aget g'.adjacency_list a).find? (fun e => e.to = b) = some fwd := by
    have hbase : (aget g.adjacency_list a ++ [fwd]).find? (fun e => e.to = b)
        = some fwd := by
      rw [find?_append_none (find?_eq_none_of_all (fun e he => by
        simp [hnoAB e he]))]
      simp [hfwd]
    rw [hadjA]
    split
    · rw [hagetA4, find?_map_to_pres _ _ (updIfTo_to a d), hbase]
      have : updIfTo a d fwd = fwd := by
        unfold updIfTo
        rw [hfwd]
        simp [Ne.symm hab]
      simp [this]
    · rw [hagetA4, hbase]
  have hfindB : (aget g'.adjacency_list b).find? (fun e => e.to = a) =
      some (updFlag d bwd) := by
    rw [hadjB, hagetB4, find?_map_to_pres _ _ (updIfTo_to a d)]
    rw [find?_append_none (find?_eq_none_of_all (fun e he => by
      simp [hnoBA e he]))]
    have : updIfTo a d bwd = updFlag d bwd := by
      unfold updIfTo
      rw [hbwd]
      simp
    simp [hbwd, this]
  obtain ⟨bkA, hbkA⟩ := Option.isSome_iff_exists.mp hsomeA
  obtain ⟨bkB, hbkB⟩ := Option.isSome_iff_exists.mp hsomeB
  have hna : (alookup g.node_types a).isNone = false := by
    cases hx : alookup g.node_types a
    · rw [hx] at hsa
      cases hsa
    · rfl
  have hnb : (alookup g.node_types b).isNone = false := by
    cases hx : alookup g.node_types b
    · rw [hx] at hsb
      cases hsb
    · rfl
  have hGE1 : g'.get_edge a b = Except.ok (some fwd) := by
    unfold Navigation.get_edge
    rw [htypes]
    rw [if_neg (by simp [hna, hnb])]
    have hbk : bkA = aget g'.adjacency_list a := by
      unfold aget
      rw [hbkA]
      rfl
    simp only [hbkA]
    rw [hbk, hfindA]
  have hGE2 : g'.get_edge b a = Except.ok (some (updFlag d bwd)) := by
    unfold Navigation.get_edge
    rw [htypes]
    rw [if_neg (by simp [hna, hnb])]
    have hbk : bkB = aget g'.adjacency_list b := by
      unfold aget
      rw [hbkB]
      rfl
    simp only [hbkB]
    rw [hbk, hfindB]
  refine ⟨⟨fwd, hGE1, rfl, rfl⟩, ⟨updFlag d bwd, hGE2, ?_, ?_⟩⟩
  · rw [updFlag_weight]
  · rw [updFlag_direction]

/-- Base graph for the C7 witness: nodes A and B with no edges yet. -/
def pairBase : Navigation :=
  let g := (Navigation.add_node {} "A" NodeType.PRIMARY).1
  (g.add_node "B" NodeType.PRIMARY).1

/-- Witness for the amended C7 on a concrete first insertion. -/
theorem claim_C7_witness :
    (∃ e1, (pairBase.add_edge "A" "B" 3 Direction.NORTH).1.get_edge "A" "B" =
      Except.ok (some e1) ∧ e1.weight = 3 ∧ e1.direction = Direction.NORTH) ∧
    (∃ e2, (pairBase.add_edge "A" "B" 3 Direction.NORTH).1.get_edge "B" "A" =
      Except.ok (some e2) ∧ e2.weight = 3 ∧
      e2.direction = Direction.NORTH.reverse) :=
  claim_C7 pairBase (pairBase.add_edge "A" "B" 3 Direction.NORTH).1 "A" "B" 3
    Direction.NORTH (by decide) (by with_unfolding_all decide)
    (by with_unfolding_all decide) (by with_unfolding_all decide)

/-- When the bucket of `k` is already present, the SECONDARY check mutates
nothing and its boolean is the stated condition. -/
theorem secondaryCheck_of_some (types : List (String × NodeType))
    {adj : List (String × List Edge)} {k : String}
    (h : (alookup adj k).isSome) :
    secondaryCheck types adj k =
      (decide (alookup types k = some NodeType.SECONDARY ∧ aget adj k ≠ []), adj) := by
  obtain ⟨bk, hbk⟩ := Option.isSome_iff_exists.mp h
  unfold secondaryCheck findOrInsert aget
  rw [hbk]
  by_cases ht : alookup types k = some NodeType.SECONDARY
  · simp [ht]
  · simp [ht]

/-- C8: `add_edge` fails with a structural error when either endpoint is
undeclared and with a constraint error when either endpoint is a SECONDARY
node that already has an edge, leaving the graph exactly unchanged in every
failure case; adding a first edge to a SECONDARY node (with a valid other
endpoint) succeeds. The bucket hypothesis (every declared node has an
adjacency bucket) holds for every graph built through the API, where
`add_node` creates both entries together. -/
theorem claim_C8 (g : Navigation) (a b : String) (w : ℚ) (d : Direction)
    (hbuckets : ∀ n, (alookup g.node_types n).isSome →
      (alookup g.adjacency_list n).isSome) :
    (alookup g.node_types a = none ∨ alookup g.node_types b = none →
      g.add_edge a b w d = (g, some NavError.structural)) ∧
    ((alookup g.node_types a).isSome → (alookup g.node_types b).isSome →
      alookup g.node_types a = some NodeType.SECONDARY →
      aget g.adjacency_list a ≠ [] →
      g.add_edge a b w d = (g, some NavError.constraint)) ∧
    ((alookup g.node_types a).isSome → (alookup g.node_types b).isSome →
      ¬(alookup g.node_types a = some NodeType.SECONDARY ∧
        aget g.adjacency_list a ≠ []) →
      alookup g.node_types b = some NodeType.SECONDARY →
      aget g.adjacency_list b ≠ [] →
      g.add_edge a b w d = (g, some NavError.constraint)) ∧
    ((alookup g.node_types a).isSome → (alookup g.node_types b).isSome →
      (alookup g.node_types a = some NodeType.SECONDARY →
        aget g.adjacency_list a = []) →
      (alookup g.node_types b = some NodeType.SECONDARY →
        aget g.adjacency_list b = []) →
      ∃ g', g.add_edge a b w d = (g', none)) := by
  refine ⟨?_, ?_, ?_, ?_⟩
  · intro h
    unfold Navigation.add_edge
    rw [if_pos]
    rcases h with h | h
    · left
      rw [h]
      rfl
    · right
      rw [h]
      rfl
  · intro hsa hsb hsec hne
    unfold Navigation.add_edge
    rw [if_neg (by
      rw [not_or]
      constructor
      · obtain ⟨v, hv⟩ := Option.isSome_iff_exists.mp hsa
        rw [hv]
        simp
      · obtain ⟨v, hv⟩ := Option.isSome_iff_exists.mp hsb
        rw [hv]
        simp)]
    rw [secondaryCheck_of_some _ (hbuckets a hsa)]
    rw [if_pos (by simp [hsec, hne])]
  · intro hsa hsb hpassA hsecB hneB
    unfold Navigation.add_edge
    rw [if_neg (by
      rw [not_or]
      constructor
      · obtain ⟨v, hv⟩ := Option.isSome_iff_exists.mp hsa
        rw [hv]
        simp
      · obtain ⟨v, hv⟩ := Option.isSome_iff_exists.mp hsb
        rw [hv]
        simp)]
    rw [secondaryCheck_of_some _ (hbuckets a hsa)]
    rw [if_neg (by simpa using hpassA)]
    simp only []
    rw [secondaryCheck_of_some _ (hbuckets b hsb)]
    rw [if_pos (by simp [hsecB, hneB])]
  · intro hsa hsb hemptyA hemptyB
    unfold Navigation.add_edge
    rw [if_neg (by
      rw [not_or]
      constructor
      · obtain ⟨v, hv⟩ := Option.isSome_iff_exists.mp hsa
        rw [hv]
        simp
      · obtain ⟨v, hv⟩ := Option.isSome_iff_exists.mp hsb
        rw [hv]
        simp)]
    rw [secondaryCheck_of_some _ (hbuckets a hsa)]
    rw [if_neg (by
      simp only [decide_eq_true_eq, not_and, not_not]
      intro hx
      exact hemptyA hx)]
    simp only []
    rw [secondaryCheck_of_some _ (hbuckets b hsb)]
    rw [if_neg (by
      simp only [decide_eq_true_eq, not_and, not_not]
      intro hx
      exact hemptyB hx)]
    exact ⟨_, rfl⟩

/-- Reduce the bucket hypothesis of C8 to a finite check over the declared
nodes. -/
theorem buckets_of_list {g : Navigation}
    (h : ∀ p ∈ g.node_types, (alookup g.adjacency_list p.1).isSome) :
    ∀ n, (alookup g.node_types n).isSome → (alookup g.adjacency_list n).isSome := by
  intro n hn
  obtain ⟨v, hv⟩ := Option.isSome_iff_exists.mp hn
  exact h (n, v) (mem_of_alookup_eq_some hv)

/-- A SECONDARY node S with one edge already attached, plus primaries P, Q. -/
def secondaryBase : Navigation :=
  let g := (Navigation.add_node {} "S" NodeType.SECONDARY).1
  let g := (g.add_node "P" NodeType.PRIMARY).1
  let g := (g.add_node "Q" NodeType.PRIMARY).1
  (g.add_edge "S" "P" 1 Direction.EAST).1

/-- Witness for C8: on the concrete graph, an edge from the undeclared node
X fails structurally with the state unchanged, a second edge at the
SECONDARY node S fails with a constraint error with the state unchanged,
and the recorded first edge at S succeeded. -/
theorem claim_C8_witness :
    secondaryBase.add_edge "X" "P" 1 Direction.EAST =
      (secondaryBase, some NavError.structural) ∧
    secondaryBase.add_edge "S" "Q" 1 Direction.EAST =
      (secondaryBase, some NavError.constraint) ∧
    (∃ g', ((Navigation.add_node {} "S" NodeType.SECONDARY).1.add_node "P"
        NodeType.PRIMARY).1.add_edge "S" "P" 1 Direction.EAST = (g', none)) :=
  ⟨(claim_C8 secondaryBase "X" "P" 1 Direction.EAST
      (buckets_of_list (by with_unfolding_all decide))).1 (by with_unfolding_all decide),
   (claim_C8 secondaryBase "S" "Q" 1 Direction.EAST
      (buckets_of_list (by with_unfolding_all decide))).2.1 (by with_unfolding_all decide)
      (by with_unfolding_all decide) (by with_unfolding_all decide)
      (by with_unfolding_all decide),
   (claim_C8 ((Navigation.add_node {} "S" NodeType.SECONDARY).1.add_node "P"
        NodeType.PRIMARY).1 "S" "P" 1 Direction.EAST
      (buckets_of_list (by with_unfolding_all decide))).2.2.2 (by with_unfolding_all decide)
      (by with_unfolding_all decide) (by with_unfolding_all decide)
      (by with_unfolding_all decide)⟩

/-- Bucket of `y` after pushing a record onto the bucket of `k`. -/
theorem aget_bucketPush (adj : List (String × List Edge)) (k y : String)
    (e : Edge) :
    aget (bucketPush adj k e) y = aget adj y ++ (if y = k then [e] else []) := by
  by_cases h : y = k
  · subst h
    rw [aget_bucketPush_self, if_pos rfl]
  · rw [aget_bucketPush_ne _ _ _ _ h, if_neg h, List.append_nil]

/-- The symmetry invariant of graphs built through the API: every recorded
edge has a counterpart from its target back to its source (`add_edge` always
inserts both directions together). -/
def EdgeSym (g : Navigation) : Prop :=
  ∀ p ∈ g.adjacency_list, ∀ e ∈ p.2, ∃ e2 ∈ aget g.adjacency_list e.to, e2.to = p.1

instance (g : Navigation) : Decidable (EdgeSym g) := by
  unfold EdgeSym
  infer_instance

/-- Base graph for the C9 counterexample: primaries A, B, C with one edge
C-B of weight 1 heading EAST already present. -/
def flagBase : Navigation :=
  let g := (Navigation.add_node {} "A" NodeType.PRIMARY).1
  let g := (g.add_node "B" NodeType.PRIMARY).1
  let g := (g.add_node "C" NodeType.PRIMARY).1
  (g.add_edge "C" "B" 1 Direction.EAST).1

/-- Counterexample to C9 as stated: adding A-B heading NORTH succeeds and
creates the reverse edge departing `to` = B with direction SOUTH; the edge
C-B is HORIZONTAL and terminates at B, so the claim requires its
south intersection flag to be set, but the record is returned with all four
flags still false: the code only refreshes edges terminating at `from`. -/
theorem claim_C9_counterexample :
    (flagBase.add_edge "A" "B" 1 Direction.NORTH).2 = none ∧
    (flagBase.add_edge "A" "B" 1 Direction.NORTH).1.get_edge "C" "B" =
      Except.ok (some { «to» := "B", weight := 1, direction := Direction.EAST }) := by
  with_unfolding_all decide

/-- C9 (amended): after every successful `add_edge` on a symmetric graph,
every edge terminating at `from` is updated to record the new forward
edge's direction — a HORIZONTAL terminating edge gets its north/south flag
set when the departing direction is NORTH/SOUTH, a VERTICAL one its
west/east flag when the departing direction is WEST/EAST. Edges terminating
at `to` are not refreshed for the reverse edge's direction (see the
counterexample). -/
theorem claim_C9 (g g' : Navigation) (a b : String) (w : ℚ) (d : Direction)
    (hok : g.add_edge a b w d = (g', none)) (hsym : EdgeSym g) :
    (∀ x, ∀ e ∈ aget g.adjacency_list x, e.to = a →
      updFlag d e ∈ aget g'.adjacency_list x) ∧
    (∀ e : Edge,
      (e.orientation = EdgeOrientation.HORIZONTAL →
        (updFlag d e).intersection_north =
          (e.intersection_north || decide (d = Direction.NORTH)) ∧
        (updFlag d e).intersection_south =
          (e.intersection_south || decide (d = Direction.SOUTH))) ∧
      (e.orientation = EdgeOrientation.VERTICAL →
        (updFlag d e).intersection_west =
          (e.intersection_west || decide (d = Direction.WEST)) ∧
        (updFlag d e).intersection_east =
          (e.intersection_east || decide (d = Direction.EAST)))) := by
  obtain ⟨htypes, hcur, hsa, hsb, adj2, hgets, hadj⟩ := add_edge_ok_shape hok
  set fwd : Edge := { «to» := b, weight := w, direction := d } with hfwd
  set bwd : Edge := { «to» := a, weight := w, direction := d.reverse } with hbwd
  set adj4 := bucketPush (bucketPush adj2 a fwd) b bwd with hadj4
  have hsuffix : ∀ y, ∃ suf, aget adj4 y = aget g.adjacency_list y ++ suf := by
    intro y
    refine ⟨(if y = a then [fwd] else []) ++ (if y = b then [bwd] else []), ?_⟩
    rw [hadj4, aget_bucketPush, aget_bucketPush, hgets, List.append_assoc]
  constructor
  · intro x e he heto
    have hbk : ∃ bk, alookup g.adjacency_list x = some bk := by
      cases hx : alookup g.adjacency_list x with
      | none =>
        rw [aget, hx] at he
        cases he
      | some bk => exact ⟨bk, rfl⟩
    obtain ⟨bk, hbkx⟩ := hbk
    have hebk : e ∈ bk := by
      rw [aget, hbkx] at he
      exact he
    obtain ⟨e2, he2, he2to⟩ := hsym (x, bk) (mem_of_alookup_eq_some hbkx) e hebk
    rw [heto] at he2
    have hxt : x ∈ (aget adj4 a).map (fun e => e.to) := by
      obtain ⟨suf, hsuf⟩ := hsuffix a
      rw [hsuf]
      rw [List.map_append]
      exact List.mem_append_left _ (List.mem_map.mpr ⟨e2, he2, he2to⟩)
    have hgx : aget g'.adjacency_list x = (aget adj4 x).map (updIfTo a d) := by
      rw [hadj, aget_flagFold, if_pos hxt]
    rw [hgx]
    have hmem4 : e ∈ aget adj4 x := by
      obtain ⟨suf, hsuf⟩ := hsuffix x
      rw [hsuf]
      exact List.mem_append_left _ he
    have : updIfTo a d e = updFlag d e := by
      unfold updIfTo
      rw [if_pos heto]
    rw [← this]
    exact List.mem_map.mpr ⟨e, hmem4, rfl⟩
  · intro e
    constructor
    · intro hor
      unfold updFlag
      rw [if_pos hor]
      exact ⟨rfl, rfl⟩
    · intro hver
      unfold updFlag
      rw [if_neg (by rw [hver]; intro hx; cases hx)]
      exact ⟨rfl, rfl⟩

/-- Base graph for the C9 witness: primaries A, B, C with one edge A-B of
weight 1 heading EAST; the reverse record B-A (heading WEST) terminates
at A. -/
def crossBase : Navigation :=
  let g := (Navigation.add_node {} "A" NodeType.PRIMARY).1
  let g := (g.add_node "B" NodeType.PRIMARY).1
  let g := (g.add_node "C" NodeType.PRIMARY).1
  (g.add_edge "A" "B" 1 Direction.EAST).1

/-- The expected record for the C9 witness: the reverse edge B-A with its
north intersection flag set by the second insertion. -/
def crossEdgeAfter : Edge := { «to» := "A", weight := 1, direction := Direction.WEST, intersection_north := true }

/-- Witness for the amended C9: after adding A-C heading NORTH, the
horizontal edge B-A terminating at A carries a set north flag. -/
theorem claim_C9_witness :
    crossEdgeAfter ∈
      aget ((crossBase.add_edge "A" "C" 1 Direction.NORTH).1).adjacency_list "B" := by
  have h := (claim_C9 crossBase (crossBase.add_edge "A" "C" 1 Direction.NORTH).1
    "A" "C" 1 Direction.NORTH (by with_unfolding_all decide)
    (by with_unfolding_all decide)).1 "B"
    { «to» := "A", weight := 1, direction := Direction.WEST }
    (by with_unfolding_all decide) (by with_unfolding_all decide)
  have heq : updFlag Direction.NORTH
      ({ «to» := "A", weight := 1, direction := Direction.WEST } : Edge) =
      crossEdgeAfter := by
    with_unfolding_all decide
  rw [heq] at h
  exact h

/-! Lemmas about the scheduler state transformations. -/

/-- Number of invocations of `id` recorded in a trace. -/
def countInv (tr : List (String × TaskResult)) (id : String) : Nat :=
  (tr.filter (fun p => p.1 = id)).length

/-- The in-degree of `x` as the scheduler reads it (`operator[]`, default 0). -/
def indegVal (st : SchedState) (x : String) : Int :=
  (alookup st.in_degree x).getD 0

theorem alookup_findOrInsert_snd' {α : Type} (l : List (String × α)) (k x : String)
    (d : α) :
    alookup (findOrInsert l k d).2 x =
      if x = k then some ((alookup l k).getD d) else alookup l x := by
  unfold findOrInsert
  cases h : alookup l k with
  | some v =>
    by_cases hx : x = k
    · subst hx
      simp [h]
    · simp [hx]
  | none =>
    by_cases hx : x = k
    · subst hx
      simp [h, alookup_append, alookup]
    · simp only [hx, if_false]
      rw [alookup_append]
      cases h2 : alookup l x with
      | some v => simp
      | none => simp [alookup, Ne.symm hx]

theorem decStep_trace (s : SchedState) (dep : String) :
    (decStep s dep).trace = s.trace := by
  by_cases h : (findOrInsert s.in_degree dep 0).1 - 1 = 0 <;> simp [decStep, h]

theorem decStep_completed (s : SchedState) (dep : String) :
    (decStep s dep).completed = s.completed := by
  by_cases h : (findOrInsert s.in_degree dep 0).1 - 1 = 0 <;> simp [decStep, h]

theorem decStep_crashed (s : SchedState) (dep : String) :
    (decStep s dep).crashed = s.crashed := by
  by_cases h : (findOrInsert s.in_degree dep 0).1 - 1 = 0 <;> simp [decStep, h]

theorem decStep_queue (s : SchedState) (dep : String) :
    ∃ added, (decStep s dep).queue = s.queue ++ added := by
  by_cases h : (findOrInsert s.in_degree dep 0).1 - 1 = 0
  · exact ⟨[dep], by simp [decStep, h]⟩
  · exact ⟨[], by simp [decStep, h]⟩

theorem findOrInsert_fst {α : Type} (l : List (String × α)) (k : String) (d : α) :
    (findOrInsert l k d).1 = (alookup l k).getD d := by
  unfold findOrInsert
  cases h : alookup l k <;> simp

theorem decStep_indeg (s : SchedState) (dep x : String) :
    indegVal (decStep s dep) x =
      if x = dep then indegVal s x - 1 else indegVal s x := by
  by_cases h : (findOrInsert s.in_degree dep 0).1 - 1 = 0 <;>
    by_cases hx : x = dep
  · subst hx
    rw [findOrInsert_fst] at h
    simp [decStep, findOrInsert_fst, h, indegVal, alookup_aset_self]
  · rw [findOrInsert_fst] at h
    simp [decStep, findOrInsert_fst, h, indegVal,
      alookup_aset_ne _ _ _ _ hx, alookup_findOrInsert_snd', hx]
  · subst hx
    rw [findOrInsert_fst] at h
    simp [decStep, findOrInsert_fst, h, indegVal, alookup_aset_self]
  · rw [findOrInsert_fst] at h
    simp [decStep, findOrInsert_fst, h, indegVal,
      alookup_aset_ne _ _ _ _ hx, alookup_findOrInsert_snd', hx]

theorem decFold_trace (l : List String) (s : SchedState) :
    (l.foldl decStep s).trace = s.trace := by
  induction l generalizing s with
  | nil => rfl
  | cons dep rest ih => rw [List.foldl_cons, ih, decStep_trace]

theorem decFold_completed (l : List String) (s : SchedState) :
    (l.foldl decStep s).completed = s.completed := by
  induction l generalizing s with
  | nil => rfl
  | cons dep rest ih => rw [List.foldl_cons, ih, decStep_completed]

theorem decFold_crashed (l : List String) (s : SchedState) :
    (l.foldl decStep s).crashed = s.crashed := by
  induction l generalizing s with
  | nil => rfl
  | cons dep rest ih => rw [List.foldl_cons, ih, decStep_crashed]

theorem decFold_queue (l : List String) (s : SchedState) :
    ∃ added, (l.foldl decStep s).queue = s.queue ++ added := by
  induction l generalizing s with
  | nil => exact ⟨[], (List.append_nil _).symm⟩
  | cons dep rest ih =>
    rw [List.foldl_cons]
    obtain ⟨a1, h1⟩ := decStep_queue s dep
    obtain ⟨a2, h2⟩ := ih (decStep s dep)
    exact ⟨a1 ++ a2, by rw [h2, h1, List.append_assoc]⟩

theorem decFold_indeg (l : List String) (s : SchedState) (x : String) :
    indegVal (l.foldl decStep s) x = indegVal s x - (l.count x : Int) := by
  induction l generalizing s with
  | nil => simp
  | cons dep rest ih =>
    rw [List.foldl_cons, ih, decStep_indeg]
    by_cases hx : x = dep
    · subst hx
      rw [List.count_cons_self, if_pos rfl]
      push_cast
      ring
    · rw [List.count_cons_of_ne hx, if_neg hx]

theorem decFold_push_of_zero (l : List String) (s : SchedState) (x : String)
    (hmem : x ∈ l) (hval : indegVal s x = (l.count x : Int)) :
    x ∈ (l.foldl decStep s).queue := by
  induction l generalizing s with
  | nil => cases hmem
  | cons dep rest ih =>
    rw [List.foldl_cons]
    by_cases hx : x = dep
    · subst hx
      rw [List.count_cons_self] at hval
      by_cases hr : x ∈ rest
      · refine ih (decStep s x) hr ?_
        rw [decStep_indeg, if_pos rfl, hval]
        push_cast
        ring
      · have hcr : rest.count x = 0 := List.count_eq_zero.mpr hr
        have hcond : (findOrInsert s.in_degree x 0).1 - 1 = 0 := by
          rw [findOrInsert_fst]
          unfold indegVal at hval
          rw [hval, hcr]
          norm_num
        have hpush : x ∈ (decStep s x).queue := by
          simp [decStep, hcond]
        obtain ⟨added, hq⟩ := decFold_queue rest (decStep s x)
        rw [hq]
        exact List.mem_append_left _ hpush
    · rw [List.count_cons_of_ne hx] at hval
      refine ih (decStep s dep) ((List.mem_cons.mp hmem).resolve_left hx) ?_
      rw [decStep_indeg, if_neg hx]
      exact hval

theorem applyResult_trace (deps : List (String × List String)) (st : SchedState)
    (current : String) (r : TaskResult) :
    (applyResult deps st current r).trace = st.trace := by
  cases r <;> simp [applyResult, terminalUpdate, decFold_trace]

theorem applyResult_crashed (deps : List (String × List String)) (st : SchedState)
    (current : String) (r : TaskResult) :
    (applyResult deps st current r).crashed = st.crashed := by
  cases r <;> simp [applyResult, terminalUpdate, decFold_crashed]

theorem applyResult_queue (deps : List (String × List String)) (st : SchedState)
    (current : String) (r : TaskResult) :
    ∃ added, (applyResult deps st current r).queue = st.queue ++ added := by
  cases r with
  | RETRYABLE_FAILURE => exact ⟨[current], rfl⟩
  | SUCCESS => exact decFold_queue _ _
  | FATAL_FAILURE => exact decFold_queue _ _

theorem terminalUpdate_completed (deps : List (String × List String))
    (st : SchedState) (current : String) :
    (terminalUpdate deps st current).completed = insertSet st.completed current := by
  unfold terminalUpdate
  rw [decFold_completed]

/-- One unfolding of the scheduler loop at a non-empty queue. -/
theorem schedLoop_cons (beh : List (String × TaskResult) → String → TaskResult)
    (deps : List (String × List String)) (tasks : List String) (fuel : Nat)
    (st : SchedState) (current : String) (rest : List String)
    (hq : st.queue = current :: rest) (hc : st.crashed = false)
    (ht : current ∈ tasks) :
    schedLoop beh deps tasks (Nat.succ fuel) st =
      schedLoop beh deps tasks fuel
        (applyResult deps
          { st with
              queue := rest
              trace := st.trace ++ [(current, beh st.trace current)] }
          current (beh st.trace current)) := by
  obtain ⟨q, indeg, comp, tr, cr⟩ := st
  simp only at hq hc
  subst hq hc
  simp [schedLoop, ht]

/-- One unfolding of the scheduler loop at a popped id missing from the task
map: `task_map.at` throws and the loop stops crashed. -/
theorem schedLoop_crash (beh : List (String × TaskResult) → String → TaskResult)
    (deps : List (String × List String)) (tasks : List String) (fuel : Nat)
    (st : SchedState) (current : String) (rest : List String)
    (hq : st.queue = current :: rest) (hc : st.crashed = false)
    (ht : current ∉ tasks) :
    schedLoop beh deps tasks (Nat.succ fuel) st =
      { st with queue := rest, crashed := true } := by
  obtain ⟨q, indeg, comp, tr, cr⟩ := st
  simp only at hq hc
  subst hq hc
  simp [schedLoop, ht]

/-- The loop is the identity on an empty queue. -/
theorem schedLoop_nil (beh : List (String × TaskResult) → String → TaskResult)
    (deps : List (String × List String)) (tasks : List String) (fuel : Nat)
    (st : SchedState) (hq : st.queue = []) :
    schedLoop beh deps tasks fuel st = st := by
  cases fuel with
  | zero => rfl
  | succ n =>
    unfold schedLoop
    rw [hq]
    split <;> rfl

/-- The loop is the identity on a crashed state. -/
theorem schedLoop_crashed_id (beh : List (String × TaskResult) → String → TaskResult)
    (deps : List (String × List String)) (tasks : List String) (fuel : Nat)
    (st : SchedState) (hc : st.crashed = true) :
    schedLoop beh deps tasks fuel st = st := by
  cases fuel with
  | zero => rfl
  | succ n =>
    unfold schedLoop
    rw [hc]
    simp

theorem countInv_snoc (tr : List (String × TaskResult)) (c : String)
    (r : TaskResult) (id : String) :
    countInv (tr ++ [(c, r)]) id =
      countInv tr id + (if c = id then 1 else 0) := by
  unfold countInv
  rw [List.filter_append]
  by_cases h : c = id <;> simp [h]

theorem countInv_snoc_le (tr : List (String × TaskResult)) (c : String)
    (r : TaskResult) (id : String) :
    countInv tr id ≤ countInv (tr ++ [(c, r)]) id := by
  rw [countInv_snoc]
  exact Nat.le_add_right _ _

theorem mem_insertSet_self (s : List String) (id : String) : id ∈ insertSet s id := by
  unfold insertSet
  by_cases h : id ∈ s
  · rw [if_pos h]
    exact h
  · rw [if_neg h]
    exact List.mem_append_right _ (List.mem_singleton.mpr rfl)

theorem is_task_completed_true_iff (completed : List String) (id : String) :
    is_task_completed completed id = true ↔ id ∈ completed := by
  simp [is_task_completed]

/-- C4: a FATAL_FAILURE result takes exactly the SUCCESS path: the state
update is literally the same function of the state; the id is recorded
completed (so `is_task_completed` answers true); every dependent's in-degree
is decremented once per edge occurrence; a dependent whose in-degree reaches
zero is enqueued; and every enqueued id at queue position `p` is invoked
within `p + 1` further loop iterations unless the loop crashes on a missing
task id first — fatal failure never blocks dependents from attempting
execution. -/
theorem claim_C4 :
    (∀ (deps : List (String × List String)) (st : SchedState) (current : String),
      applyResult deps st current TaskResult.FATAL_FAILURE =
        applyResult deps st current TaskResult.SUCCESS) ∧
    (∀ (deps : List (String × List String)) (st : SchedState) (current : String),
      is_task_completed
        (applyResult deps st current TaskResult.FATAL_FAILURE).completed current =
        true) ∧
    (∀ (deps : List (String × List String)) (st : SchedState) (current x : String),
      indegVal (applyResult deps st current TaskResult.FATAL_FAILURE) x =
        indegVal st x - ((depsOf deps current).count x : Int)) ∧
    (∀ (deps : List (String × List String)) (st : SchedState) (current dep : String),
      dep ∈ depsOf deps current →
      indegVal st dep = ((depsOf deps current).count dep : Int) →
      dep ∈ (applyResult deps st current TaskResult.FATAL_FAILURE).queue) ∧
    (∀ (beh : List (String × TaskResult) → String → TaskResult)
      (deps : List (String × List String)) (tasks : List String)
      (st : SchedState) (p : Nat) (id : String),
      st.queue[p]? = some id →
      (schedLoop beh deps tasks (p + 1) st).crashed = false →
      countInv (schedLoop beh deps tasks (p + 1) st).trace id >
        countInv st.trace id) := by
  refine ⟨fun _ _ _ => rfl, ?_, ?_, ?_, ?_⟩
  · intro deps st current
    show is_task_completed (terminalUpdate deps st current).completed current = true
    rw [terminalUpdate_completed, is_task_completed_true_iff]
    exact mem_insertSet_self _ _
  · intro deps st current x
    show indegVal (terminalUpdate deps st current) x = _
    unfold terminalUpdate
    rw [decFold_indeg]
    rfl
  · intro deps st current dep hmem hval
    show dep ∈ (terminalUpdate deps st current).queue
    unfold terminalUpdate
    exact decFold_push_of_zero _ _ _ hmem hval
  · intro beh deps tasks st p id
    induction p generalizing st with
    | zero =>
      intro hget hcrash
      cases hq : st.queue with
      | nil =>
        rw [hq] at hget
        simp at hget
      | cons c rest =>
        rw [hq] at hget
        simp at hget
        subst hget
        cases hc : st.crashed with
        | true =>
          rw [schedLoop_crashed_id _ _ _ _ _ hc] at hcrash
          rw [hc] at hcrash
          cases hcrash
        | false =>
          by_cases ht : c ∈ tasks
          · rw [show (0 + 1 : Nat) = Nat.succ 0 from rfl,
              schedLoop_cons _ _ _ _ _ _ _ hq hc ht]
            show countInv (applyResult _ _ _ _).trace c > _
            rw [applyResult_trace]
            show countInv (st.trace ++ [(c, beh st.trace c)]) c > _
            rw [countInv_snoc, if_pos rfl]
            omega
          · rw [show (0 + 1 : Nat) = Nat.succ 0 from rfl,
              schedLoop_crash _ _ _ _ _ _ _ hq hc ht] at hcrash
            cases hcrash
    | succ p ih =>
      intro hget hcrash
      cases hq : st.queue with
      | nil =>
        rw [hq] at hget
        simp at hget
      | cons c rest =>
        rw [hq] at hget
        rw [List.getElem?_cons_succ] at hget
        cases hc : st.crashed with
        | true =>
          rw [schedLoop_crashed_id _ _ _ _ _ hc] at hcrash
          rw [hc] at hcrash
          cases hcrash
        | false =>
          by_cases ht : c ∈ tasks
          · rw [show (p + 1 + 1 : Nat) = Nat.succ (p + 1) from rfl,
              schedLoop_cons _ _ _ _ _ _ _ hq hc ht] at hcrash ⊢
            set st1 := applyResult deps
              { st with
                  queue := rest
                  trace := st.trace ++ [(c, beh st.trace c)] }
              c (beh st.trace c) with hst1
            have hq1 : st1.queue[p]? = some id := by
              obtain ⟨added, hadd⟩ := applyResult_queue deps
                { st with
                    queue := rest
                    trace := st.trace ++ [(c, beh st.trace c)] }
                c (beh st.trace c)
              rw [hst1, hadd]
              show (rest ++ added)[p]? = some id
              have hlt : p < rest.length := by
                by_contra hge
                rw [List.getElem?_eq_none (Nat.le_of_not_lt hge)] at hget
                cases hget
              rw [List.getElem?_append, if_pos hlt]
              exact hget
            have htr1 : st1.trace = st.trace ++ [(c, beh st.trace c)] := by
              rw [hst1, applyResult_trace]
            have := ih st1 hq1 hcrash
            calc countInv st.trace id
                ≤ countInv st1.trace id := by
                  rw [htr1]
                  exact countInv_snoc_le _ _ _ _
              _ < countInv (schedLoop beh deps tasks (p + 1) st1).trace id := this
          · rw [show (p + 1 + 1 : Nat) = Nat.succ (p + 1) from rfl,
              schedLoop_crash _ _ _ _ _ _ _ hq hc ht] at hcrash
            cases hcrash

/-- Witness for C4 on a concrete two-task graph: FATAL_FAILURE of A still
enqueues its dependent B (conjuncts applied at deps = [(A, [B])]). -/
theorem claim_C4_witness :
    applyResult [("A", ["B"])] ⟨[], [("A", 0), ("B", 1)], [], [], false⟩ "A"
        TaskResult.FATAL_FAILURE =
      applyResult [("A", ["B"])] ⟨[], [("A", 0), ("B", 1)], [], [], false⟩ "A"
        TaskResult.SUCCESS ∧
    "B" ∈ (applyResult [("A", ["B"])] ⟨[], [("A", 0), ("B", 1)], [], [], false⟩
        "A" TaskResult.FATAL_FAILURE).queue :=
  ⟨claim_C4.1 [("A", ["B"])] ⟨[], [("A", 0), ("B", 1)], [], [], false⟩ "A",
   claim_C4.2.2.2.1 [("A", ["B"])] ⟨[], [("A", 0), ("B", 1)], [], [], false⟩ "A"
     "B" (by with_unfolding_all decide) (by with_unfolding_all decide)⟩

/-- A task behaviour that reports RETRYABLE_FAILURE for its first `N`
invocations and SUCCESS afterwards. -/
def retryBeh (N : Nat) : List (String × TaskResult) → String → TaskResult :=
  fun tr id =>
    if countInv tr id < N then TaskResult.RETRYABLE_FAILURE else TaskResult.SUCCESS

theorem countInv_replicate (k : Nat) (id : String) (r : TaskResult) :
    countInv (List.replicate k (id, r)) id = k := by
  induction k with
  | zero => rfl
  | succ n ih =>
    rw [List.replicate_succ]
    unfold countInv at ih ⊢
    rw [List.filter_cons]
    simp only [decide_eq_true_eq, if_true]
    rw [List.length_cons, ih]

/-- Running the single-task lifecycle loop from a state with `k` recorded
retries: with `j + k = N` and fuel `j + 2`, the loop finishes with the full
retry-then-success trace, one completion, and an empty queue. -/
theorem retry_run (N : Nat) : ∀ j k, j + k = N →
    schedLoop (retryBeh N) [] ["t"] (j + 2)
      ⟨["t"], [("t", 0)], [],
        List.replicate k ("t", TaskResult.RETRYABLE_FAILURE), false⟩ =
      ⟨[], [("t", 0)], ["t"],
        List.replicate N ("t", TaskResult.RETRYABLE_FAILURE) ++
          [("t", TaskResult.SUCCESS)], false⟩ := by
  intro j
  induction j with
  | zero =>
    intro k hk
    have hkN : k = N := by omega
    subst hkN
    have hbeh : retryBeh k (List.replicate k ("t", TaskResult.RETRYABLE_FAILURE)) "t" =
        TaskResult.SUCCESS := by
      unfold retryBeh
      rw [countInv_replicate, if_neg (by omega)]
    rw [show (0 + 2 : Nat) = Nat.succ 1 from rfl]
    rw [schedLoop_cons _ _ _ _ _ "t" [] rfl rfl (by simp)]
    rw [hbeh]
    show schedLoop _ _ _ 1 (terminalUpdate [] _ "t") = _
    unfold terminalUpdate depsOf
    rw [show alookup ([] : List (String × List String)) "t" = none from rfl]
    show schedLoop _ _ _ 1
      ⟨[], [("t", 0)], insertSet [] "t",
        List.replicate k ("t", TaskResult.RETRYABLE_FAILURE) ++
          [("t", TaskResult.SUCCESS)], false⟩ = _
    rw [schedLoop_nil _ _ _ _ _ rfl]
    rfl
  | succ j ih =>
    intro k hk
    have hkN : k < N := by omega
    have hbeh : retryBeh N (List.replicate k ("t", TaskResult.RETRYABLE_FAILURE)) "t" =
        TaskResult.RETRYABLE_FAILURE := by
      unfold retryBeh
      rw [countInv_replicate, if_pos hkN]
    rw [show (j + 1 + 2 : Nat) = Nat.succ (j + 2) from rfl]
    rw [schedLoop_cons _ _ _ _ _ "t" [] rfl rfl (by simp)]
    rw [hbeh]
    show schedLoop _ _ _ (j + 2)
      ⟨[] ++ ["t"], [("t", 0)], [],
        List.replicate k ("t", TaskResult.RETRYABLE_FAILURE) ++
          [("t", TaskResult.RETRYABLE_FAILURE)], false⟩ = _
    rw [show ([] ++ ["t"] : List String) = ["t"] from rfl, ← List.replicate_succ']
    exact ih (k + 1) (by omega)

/-- C5: a RETRYABLE_FAILURE result re-enqueues the same id at the back of
the queue and changes nothing else (the in-degree map, the completed set and
the rest of the queue are untouched); consequently, a task that fails
retryably `N` times and then succeeds is invoked exactly `N + 1` times and
completes exactly once. -/
theorem claim_C5 :
    (∀ (deps : List (String × List String)) (st : SchedState) (current : String),
      applyResult deps st current TaskResult.RETRYABLE_FAILURE =
        { st with queue := st.queue ++ [current] }) ∧
    (∀ N : Nat,
      (Lifecycle.execute_tasks ⟨["t"], [], []⟩ (retryBeh N) (N + 2)).trace =
        List.replicate N ("t", TaskResult.RETRYABLE_FAILURE) ++
          [("t", TaskResult.SUCCESS)] ∧
      countInv ((Lifecycle.execute_tasks ⟨["t"], [], []⟩ (retryBeh N)
        (N + 2)).trace) "t" = N + 1 ∧
      (Lifecycle.execute_tasks ⟨["t"], [], []⟩ (retryBeh N) (N + 2)).completed =
        ["t"] ∧
      (Lifecycle.execute_tasks ⟨["t"], [], []⟩ (retryBeh N) (N + 2)).queue = []) := by
  constructor
  · intro deps st current
    rfl
  · intro N
    have hrun := retry_run N N 0 (by omega)
    rw [show List.replicate 0 ("t", TaskResult.RETRYABLE_FAILURE) = [] from rfl]
      at hrun
    have hinit : Lifecycle.execute_tasks ⟨["t"], [], []⟩ (retryBeh N) (N + 2) =
        schedLoop (retryBeh N) [] ["t"] (N + 2)
          ⟨["t"], [("t", 0)], [], [], false⟩ := by
      rfl
    rw [hinit, hrun]
    refine ⟨rfl, ?_, rfl, rfl⟩
    show countInv (List.replicate N ("t", TaskResult.RETRYABLE_FAILURE) ++
      [("t", TaskResult.SUCCESS)]) "t" = N + 1
    rw [countInv_snoc, countInv_replicate, if_pos rfl]

/-! The scheduler invariant used for the dependency-ordering and
termination claims. -/

/-- Number of dependency-edge occurrences into `x` whose prerequisite is not
yet completed (the quantity `in_degree[x]` tracks). -/
def pendingIn (deps : List (String × List String)) (comp : List String)
    (x : String) : Int :=
  match deps with
  | [] => 0
  | (k, tos) :: rest =>
    (if k ∈ comp then 0 else (tos.count x : Int)) + pendingIn rest comp x

/-- Number of terminal (SUCCESS or FATAL_FAILURE) trace entries for `id`. -/
def countTerm (tr : List (String × TaskResult)) (id : String) : Nat :=
  (tr.filter (fun p =>
    decide (p.1 = id ∧ p.2 ≠ TaskResult.RETRYABLE_FAILURE))).length

theorem countTerm_snoc (tr : List (String × TaskResult)) (c : String)
    (r : TaskResult) (id : String) :
    countTerm (tr ++ [(c, r)]) id =
      countTerm tr id +
        (if c = id ∧ r ≠ TaskResult.RETRYABLE_FAILURE then 1 else 0) := by
  unfold countTerm
  rw [List.filter_append]
  by_cases h : c = id ∧ r ≠ TaskResult.RETRYABLE_FAILURE <;> simp [h]

theorem pendingIn_nonneg (deps : List (String × List String))
    (comp : List String) (x : String) : 0 ≤ pendingIn deps comp x := by
  induction deps with
  | nil => simp [pendingIn]
  | cons p rest ih =>
    obtain ⟨k, tos⟩ := p
    unfold pendingIn
    by_cases h : k ∈ comp
    · simp only [h, if_true]
      omega
    · simp only [h, if_false]
      have : (0 : Int) ≤ (tos.count x : Int) := Int.ofNat_nonneg _
      omega

theorem pendingIn_congr_mem (deps : List (String × List String))
    (c1 c2 : List String) (x : String)
    (h : ∀ p ∈ deps, (p.1 ∈ c1 ↔ p.1 ∈ c2)) :
    pendingIn deps c1 x = pendingIn deps c2 x := by
  induction deps with
  | nil => rfl
  | cons p rest ih =>
    obtain ⟨k, tos⟩ := p
    unfold pendingIn
    rw [ih (fun q hq => h q (List.mem_cons_of_mem _ hq))]
    have hk := h (k, tos) (List.mem_cons_self _ _)
    by_cases h1 : k ∈ c1
    · rw [if_pos h1, if_pos (hk.mp h1)]
    · rw [if_neg h1, if_neg (fun h2 => h1 (hk.mpr h2))]

theorem mem_insertSet_iff (s : List String) (a x : String) :
    x ∈ insertSet s a ↔ x ∈ s ∨ x = a := by
  unfold insertSet
  by_cases h : a ∈ s
  · rw [if_pos h]
    constructor
    · exact Or.inl
    · rintro (hx | hx)
      · exact hx
      · rw [hx]
        exact h
  · rw [if_neg h]
    simp

theorem pendingIn_insert (deps : List (String × List String))
    (hnd : (deps.map Prod.fst).Nodup) (comp : List String) (cur : String)
    (hcur : cur ∉ comp) (x : String) :
    pendingIn deps (insertSet comp cur) x =
      pendingIn deps comp x - ((depsOf deps cur).count x : Int) := by
  induction deps with
  | nil => simp [pendingIn, depsOf, alookup]
  | cons p rest ih =>
    obtain ⟨k, tos⟩ := p
    rw [List.map_cons, List.nodup_cons] at hnd
    by_cases hk : k = cur
    · subst hk
      have hrest : pendingIn rest (insertSet comp k) x = pendingIn rest comp x := by
        apply pendingIn_congr_mem
        intro q hq
        rw [mem_insertSet_iff]
        constructor
        · rintro (hx | hx)
          · exact hx
          · exfalso
            apply hnd.1
            have hmm : q.1 ∈ rest.map Prod.fst := List.mem_map_of_mem Prod.fst hq
            rwa [hx] at hmm
        · exact Or.inl
      unfold pendingIn
      rw [hrest]
      rw [if_pos ((mem_insertSet_iff _ _ _).mpr (Or.inr rfl)), if_neg hcur]
      rw [show depsOf ((k, tos) :: rest) k = tos by simp [depsOf, alookup]]
      ring
    · unfold pendingIn
      rw [ih hnd.2]
      rw [show depsOf ((k, tos) :: rest) cur = depsOf rest cur by
        simp [depsOf, alookup, hk]]
      have hkk : (k ∈ insertSet comp cur) ↔ k ∈ comp := by
        rw [mem_insertSet_iff]
        constructor
        · rintro (hx | hx)
          · exact hx
          · exact absurd hx hk
        · exact Or.inl
      by_cases h1 : k ∈ comp
      · rw [if_pos h1, if_pos (hkk.mpr h1)]
        ring
      · rw [if_neg h1, if_neg (fun h2 => h1 (hkk.mp h2))]
        ring

theorem pendingIn_zero (deps : List (String × List String)) (comp : List String)
    (x : String) (h0 : pendingIn deps comp x = 0) (a : String) (ha : a ∉ comp) :
    x ∉ depsOf deps a := by
  induction deps with
  | nil => simp [depsOf, alookup]
  | cons p rest ih =>
    obtain ⟨k, tos⟩ := p
    unfold pendingIn at h0
    have h1 : (if k ∈ comp then 0 else (tos.count x : Int)) = 0 ∧
        pendingIn rest comp x = 0 := by
      have hterm : (0 : Int) ≤ (if k ∈ comp then 0 else (tos.count x : Int)) := by
        by_cases h : k ∈ comp
        · simp [h]
        · simp [h]
      have hrest := pendingIn_nonneg rest comp x
      omega
    by_cases hk : k = a
    · subst hk
      rw [show depsOf ((k, tos) :: rest) k = tos by simp [depsOf, alookup]]
      rw [if_neg ha] at h1
      intro hmem
      have := List.count_pos_iff.mpr hmem
      omega
    · rw [show depsOf ((k, tos) :: rest) a = depsOf rest a by
        simp [depsOf, alookup, hk]]
      exact ih h1.2

theorem pendingIn_zero_of_closed (deps : List (String × List String))
    (hnd : (deps.map Prod.fst).Nodup) (comp : List String) (x : String)
    (hcl : ∀ a, x ∈ depsOf deps a → a ∈ comp) :
    pendingIn deps comp x = 0 := by
  induction deps with
  | nil => rfl
  | cons p rest ih =>
    obtain ⟨k, tos⟩ := p
    rw [List.map_cons, List.nodup_cons] at hnd
    unfold pendingIn
    have hrest : pendingIn rest comp x = 0 := by
      apply ih hnd.2
      intro a ha
      by_cases hk : a = k
      · subst hk
        exfalso
        have : (alookup rest a).isSome := by
          unfold depsOf at ha
          cases h : alookup rest a
          · rw [h] at ha
            cases ha
          · simp
        obtain ⟨v, hv⟩ := Option.isSome_iff_exists.mp this
        have hvmem : (a, v) ∈ rest := mem_of_alookup_eq_some hv
        have hfst : a ∈ List.map Prod.fst rest := List.mem_map_of_mem Prod.fst hvmem
        exact hnd.1 hfst
      · apply hcl
        rw [show depsOf ((k, tos) :: rest) a = depsOf rest a by
          simp [depsOf, alookup, Ne.symm hk]]
        exact ha
    rw [hrest]
    by_cases h1 : k ∈ comp
    · rw [if_pos h1]
      simp
    · rw [if_neg h1]
      have : x ∉ tos := by
        intro hmem
        apply h1
        apply hcl
        rw [show depsOf ((k, tos) :: rest) k = tos by simp [depsOf, alookup]]
        exact hmem
      rw [List.count_eq_zero.mpr this]
      simp

theorem decFold_queue_count (l : List String) (s : SchedState) (x : String) :
    (l.foldl decStep s).queue.count x =
      s.queue.count x +
        (if 1 ≤ indegVal s x ∧ indegVal s x ≤ (l.count x : Int) then 1 else 0) := by
  induction l generalizing s with
  | nil =>
    rw [List.foldl_nil, if_neg]
    · rfl
    · rintro ⟨h1, h2⟩
      simp at h2
      omega
  | cons dep rest ih =>
    rw [List.foldl_cons, ih]
    by_cases hx : x = dep
    · subst hx
      have hind : indegVal (decStep s x) x = indegVal s x - 1 := by
        rw [decStep_indeg, if_pos rfl]
      have hcc : ((x :: rest).count x : Int) = (rest.count x : Int) + 1 := by
        rw [List.count_cons_self]
        push_cast
        ring
      by_cases h1 : indegVal s x = 1
      · have hcond : (findOrInsert s.in_degree x 0).1 - 1 = 0 := by
          rw [findOrInsert_fst]
          unfold indegVal at h1
          omega
        have hq : (decStep s x).queue = s.queue ++ [x] := by
          simp [decStep, hcond]
        have hiteL : (if 1 ≤ indegVal (decStep s x) x ∧
            indegVal (decStep s x) x ≤ (rest.count x : Int) then 1 else 0) = 0 := by
          rw [if_neg]
          rintro ⟨ha, _⟩
          rw [hind, h1] at ha
          omega
        have hiteR : (if 1 ≤ indegVal s x ∧
            indegVal s x ≤ ((x :: rest).count x : Int) then 1 else 0) = 1 := by
          rw [if_pos]
          refine ⟨by omega, ?_⟩
          rw [h1, hcc]
          have : (0 : Int) ≤ (rest.count x : Int) := Int.ofNat_nonneg _
          omega
        rw [hq, hiteL, hiteR, List.count_append]
        simp
      · have hcond : ¬((findOrInsert s.in_degree x 0).1 - 1 = 0) := by
          rw [findOrInsert_fst]
          unfold indegVal at h1
          omega
        have hq : (decStep s x).queue = s.queue := by
          simp [decStep, hcond]
        rw [hq, hind]
        by_cases h2 : 1 ≤ indegVal s x - 1 ∧ indegVal s x - 1 ≤ (rest.count x : Int)
        · rw [if_pos h2, if_pos (by rw [hcc]; omega)]
        · rw [if_neg h2, if_neg (by rw [hcc]; omega)]
    · have hind : indegVal (decStep s dep) x = indegVal s x := by
        rw [decStep_indeg, if_neg hx]
      have hq : (decStep s dep).queue.count x = s.queue.count x := by
        by_cases hc : (findOrInsert s.in_degree dep 0).1 - 1 = 0
        · have h : (decStep s dep).queue = s.queue ++ [dep] := by
            simp [decStep, hc]
          rw [h, List.count_append]
          have hz : List.count x [dep] = 0 := by
            rw [List.count_eq_zero]
            simp [hx]
          rw [hz]
          omega
        · have h : (decStep s dep).queue = s.queue := by
            simp [decStep, hc]
          rw [h]
      rw [hq, hind, List.count_cons_of_ne hx]

/-! Key-set lemmas for the in-degree map construction. -/

theorem mem_keys_aset {α : Type} (l : List (String × α)) (k : String) (v : α)
    (x : String) (hx : x ∈ (aset l k v).map Prod.fst) :
    x ∈ l.map Prod.fst ∨ x = k := by
  induction l with
  | nil =>
    rw [show aset ([] : List (String × α)) k v = [(k, v)] from rfl] at hx
    rw [List.map_cons] at hx
    rcases List.mem_cons.mp hx with h1 | h1
    · exact Or.inr h1
    · cases h1
  | cons p rest ih =>
    obtain ⟨k0, v0⟩ := p
    by_cases h : k0 = k
    · rw [show aset ((k0, v0) :: rest) k v = (k, v) :: rest by simp [aset, h]] at hx
      rw [List.map_cons] at hx
      rcases List.mem_cons.mp hx with h1 | h1
      · exact Or.inr h1
      · exact Or.inl (by rw [List.map_cons]; exact List.mem_cons.mpr (Or.inr h1))
    · rw [show aset ((k0, v0) :: rest) k v = (k0, v0) :: aset rest k v by
        simp [aset, h]] at hx
      rw [List.map_cons] at hx
      rcases List.mem_cons.mp hx with h1 | h1
      · exact Or.inl (by rw [List.map_cons]; exact List.mem_cons.mpr (Or.inl h1))
      · rcases ih h1 with h2 | h2
        · exact Or.inl (by rw [List.map_cons]; exact List.mem_cons.mpr (Or.inr h2))
        · exact Or.inr h2

theorem nodup_keys_aset {α : Type} (l : List (String × α)) (k : String) (v : α)
    (hnd : (l.map Prod.fst).Nodup) : ((aset l k v).map Prod.fst).Nodup := by
  induction l with
  | nil => simp [aset]
  | cons p rest ih =>
    obtain ⟨k0, v0⟩ := p
    rw [List.map_cons, List.nodup_cons] at hnd
    by_cases h : k0 = k
    · rw [show aset ((k0, v0) :: rest) k v = (k, v) :: rest by simp [aset, h]]
      rw [List.map_cons, List.nodup_cons]
      exact ⟨h ▸ hnd.1, hnd.2⟩
    · rw [show aset ((k0, v0) :: rest) k v = (k0, v0) :: aset rest k v by
        simp [aset, h]]
      rw [List.map_cons, List.nodup_cons]
      refine ⟨?_, ih hnd.2⟩
      intro hmem
      rcases mem_keys_aset rest k v k0 hmem with h1 | h1
      · exact hnd.1 h1
      · exact h h1

theorem not_mem_keys_of_alookup_none {α : Type} (l : List (String × α))
    (k : String) (h : alookup l k = none) : k ∉ l.map Prod.fst := by
  intro hmem
  obtain ⟨p, hp, hfst⟩ := List.mem_map.mp hmem
  have hs := alookup_isSome_of_mem hp
  rw [hfst, h] at hs
  cases hs

theorem nodup_keys_findOrInsert {α : Type} (l : List (String × α)) (k : String)
    (d : α) (hnd : (l.map Prod.fst).Nodup) :
    ((findOrInsert l k d).2.map Prod.fst).Nodup := by
  unfold findOrInsert
  cases h : alookup l k with
  | some v => exact hnd
  | none =>
    have hk : k ∉ l.map Prod.fst := not_mem_keys_of_alookup_none l k h
    simp only [List.map_append]
    rw [List.nodup_append]
    refine ⟨hnd, by simp, ?_⟩
    intro x hx hmem
    have hxk : x = k := by simpa using hmem
    exact hk (hxk ▸ hx)

theorem nodup_keys_bumpInDegree (m : List (String × Int)) (k : String)
    (hnd : (m.map Prod.fst).Nodup) :
    ((bumpInDegree m k).map Prod.fst).Nodup :=
  nodup_keys_aset _ _ _ (nodup_keys_findOrInsert m k 0 hnd)

theorem nodup_keys_bumpFold (tos : List String) (m : List (String × Int))
    (hnd : (m.map Prod.fst).Nodup) :
    ((tos.foldl bumpInDegree m).map Prod.fst).Nodup := by
  induction tos generalizing m with
  | nil => exact hnd
  | cons t rest ih => exact ih _ (nodup_keys_bumpInDegree m t hnd)

theorem nodup_keys_depsFold (deps : List (String × List String))
    (m : List (String × Int)) (hnd : (m.map Prod.fst).Nodup) :
    ((deps.foldl (fun m2 pr => pr.2.foldl bumpInDegree m2) m).map Prod.fst).Nodup := by
  induction deps generalizing m with
  | nil => exact hnd
  | cons p rest ih => exact ih _ (nodup_keys_bumpFold p.2 m hnd)

theorem nodup_keys_build_in_degree (tasks : List String)
    (deps : List (String × List String)) (htn : tasks.Nodup) :
    ((build_in_degree tasks deps).map Prod.fst).Nodup := by
  unfold build_in_degree
  apply nodup_keys_depsFold
  rw [List.map_map]
  have hmap : ∀ ts : List String,
      List.map (Prod.fst ∘ fun t => ((t, 0) : String × Int)) ts = ts := by
    intro ts
    induction ts with
    | nil => rfl
    | cons t rest2 ih =>
      rw [List.map_cons, ih]
      rfl
  rw [hmap]
  exact htn

/-! Value lemmas relating `build_in_degree` to `pendingIn`. -/

theorem bumpInDegree_val (m : List (String × Int)) (k x : String) :
    (alookup (bumpInDegree m k) x).getD 0 =
      (alookup m x).getD 0 + (if x = k then 1 else 0) := by
  have hb : bumpInDegree m k =
      aset (findOrInsert m k 0).2 k ((findOrInsert m k 0).1 + 1) := rfl
  rw [hb]
  by_cases hx : x = k
  · subst hx
    rw [alookup_aset_self, findOrInsert_fst]
    simp
  · rw [alookup_aset_ne _ _ _ _ hx, alookup_findOrInsert_snd', if_neg hx, if_neg hx]
    ring

theorem bumpFold_val (tos : List String) (m : List (String × Int)) (x : String) :
    (alookup (tos.foldl bumpInDegree m) x).getD 0 =
      (alookup m x).getD 0 + (tos.count x : Int) := by
  induction tos generalizing m with
  | nil => simp
  | cons t rest ih =>
    rw [List.foldl_cons, ih, bumpInDegree_val]
    by_cases hx : x = t
    · subst hx
      rw [List.count_cons_self, if_pos rfl]
      push_cast
      ring
    · rw [List.count_cons_of_ne hx, if_neg hx]
      ring

theorem depsFold_val (deps : List (String × List String))
    (m : List (String × Int)) (x : String) :
    (alookup (deps.foldl (fun m2 pr => pr.2.foldl bumpInDegree m2) m) x).getD 0 =
      (alookup m x).getD 0 + pendingIn deps [] x := by
  induction deps generalizing m with
  | nil => simp [pendingIn]
  | cons p rest ih =>
    obtain ⟨k, tos⟩ := p
    have hpe : pendingIn ((k, tos) :: rest) ([] : List String) x =
        (if k ∈ ([] : List String) then 0 else (tos.count x : Int)) +
          pendingIn rest [] x := rfl
    rw [List.foldl_cons, ih, bumpFold_val, hpe, if_neg (List.not_mem_nil k)]
    ring

theorem alookup_map_zero (tasks : List String) (x : String) :
    (alookup (tasks.map (fun t => ((t, 0) : String × Int))) x).getD 0 = 0 := by
  induction tasks with
  | nil => rfl
  | cons t rest ih =>
    rw [List.map_cons]
    unfold alookup
    by_cases h : t = x
    · rw [if_pos h]
      rfl
    · rw [if_neg h]
      exact ih

theorem build_in_degree_val (tasks : List String)
    (deps : List (String × List String)) (x : String) :
    (alookup (build_in_degree tasks deps) x).getD 0 = pendingIn deps [] x := by
  unfold build_in_degree
  rw [depsFold_val, alookup_map_zero]
  ring

theorem alookup_of_mem_nodup {α : Type} (l : List (String × α)) (k : String)
    (v : α) :
    (l.map Prod.fst).Nodup → (k, v) ∈ l → alookup l k = some v := by
  induction l with
  | nil =>
    intro _ hmem
    cases hmem
  | cons p rest ih =>
    intro hnd hmem
    obtain ⟨k0, v0⟩ := p
    rw [List.map_cons, List.nodup_cons] at hnd
    rcases List.mem_cons.mp hmem with h | h
    · injection h with h1 h2
      subst h1
      subst h2
      unfold alookup
      rw [if_pos rfl]
    · unfold alookup
      by_cases hk : k0 = k
      · exfalso
        apply hnd.1
        rw [hk]
        have hf : ((k, v) : String × α).1 ∈ List.map Prod.fst rest :=
          List.mem_map_of_mem Prod.fst h
        exact hf
      · rw [if_neg hk]
        exact ih hnd.2 h

theorem mem_get_ready (indeg : List (String × Int)) (comp : List String)
    (x : String) (hx : x ∈ get_ready_tasks indeg comp)
    (hnd : (indeg.map Prod.fst).Nodup) :
    (alookup indeg x).getD 0 = 0 ∧ x ∉ comp := by
  unfold get_ready_tasks at hx
  obtain ⟨p, hp, hfst⟩ := List.mem_map.mp hx
  obtain ⟨a, b⟩ := p
  obtain ⟨hpm, hcond⟩ := List.mem_filter.mp hp
  simp only [decide_eq_true_eq] at hcond
  have hfst2 : a = x := hfst
  subst hfst2
  refine ⟨?_, hcond.2⟩
  rw [alookup_of_mem_nodup indeg a b hnd hpm, hcond.1]
  rfl

theorem nodup_get_ready (indeg : List (String × Int)) (comp : List String)
    (hnd : (indeg.map Prod.fst).Nodup) :
    (get_ready_tasks indeg comp).Nodup := by
  unfold get_ready_tasks
  exact hnd.sublist (List.Sublist.map Prod.fst (List.filter_sublist indeg))

/-! The scheduler safety invariant. -/

/-- The scheduler loop invariant: the in-degree map tracks the pending
(uncompleted-prerequisite) edge count of every id, queued ids have no pending
prerequisites and are not yet completed, the queue has no duplicates,
completed ids have a terminal trace entry, and every invocation recorded in
the trace was preceded by a terminal entry for each of its prerequisites. -/
structure SchedInv (deps : List (String × List String)) (s : SchedState) : Prop where
  indeg_eq : ∀ x, indegVal s x = pendingIn deps s.completed x
  queue_zero : ∀ x ∈ s.queue, pendingIn deps s.completed x = 0
  queue_nodup : s.queue.Nodup
  queue_ncomp : ∀ x ∈ s.queue, x ∉ s.completed
  comp_zero : ∀ x ∈ s.completed, pendingIn deps s.completed x = 0
  comp_term : ∀ x ∈ s.completed, 1 ≤ countTerm s.trace x
  trace_dep : ∀ pre b r suf, s.trace = pre ++ (b, r) :: suf →
    ∀ a, b ∈ depsOf deps a → 1 ≤ countTerm pre a

theorem snoc_decomp {α : Type} (l : List α) (e : α) (pre suf : List α) (x : α)
    (h : l ++ [e] = pre ++ x :: suf) :
    (∃ suf2, l = pre ++ x :: suf2) ∨ (pre = l ∧ x = e) := by
  rcases List.eq_nil_or_concat suf with hs | ⟨s2, y, hs⟩
  · subst hs
    obtain ⟨h1, h2⟩ := List.append_inj' h rfl
    right
    refine ⟨h1.symm, ?_⟩
    injection h2 with h3 _
    exact h3.symm
  · subst hs
    rw [List.concat_eq_append] at h
    rw [show pre ++ x :: (s2 ++ [y]) = (pre ++ x :: s2) ++ [y] by simp] at h
    obtain ⟨h1, _⟩ := List.append_inj' h rfl
    exact Or.inl ⟨s2, h1⟩

theorem schedInv_terminal_core (deps : List (String × List String))
    (hnd : (deps.map Prod.fst).Nodup) (s : SchedState) (s2 : SchedState)
    (inv : SchedInv deps s) (current : String) (rest : List String)
    (hq : s.queue = current :: rest) (r : TaskResult)
    (hterm : r ≠ TaskResult.RETRYABLE_FAILURE)
    (h2q : s2.queue = rest) (h2i : s2.in_degree = s.in_degree)
    (h2c : s2.completed = insertSet s.completed current)
    (h2t : s2.trace = s.trace ++ [(current, r)]) :
    SchedInv deps ((depsOf deps current).foldl decStep s2) := by
  have hqmem : current ∈ s.queue := by
    rw [hq]
    exact List.mem_cons_self _ _
  have hcur0 : pendingIn deps s.completed current = 0 :=
    inv.queue_zero current hqmem
  have hnc : current ∉ s.completed := inv.queue_ncomp current hqmem
  have hqd : current ∉ rest ∧ rest.Nodup := by
    have h := inv.queue_nodup
    rw [hq, List.nodup_cons] at h
    exact h
  have hdepterm : ∀ a, current ∈ depsOf deps a → 1 ≤ countTerm s.trace a := by
    intro a ha
    have hac : a ∈ s.completed := by
      by_contra hcontra
      exact pendingIn_zero deps s.completed current hcur0 a hcontra ha
    exact inv.comp_term a hac
  have hind2 : ∀ x, indegVal s2 x = indegVal s x := by
    intro x
    unfold indegVal
    rw [h2i]
  have hc : ((depsOf deps current).foldl decStep s2).completed =
      insertSet s.completed current := by
    rw [decFold_completed, h2c]
  have ht : ((depsOf deps current).foldl decStep s2).trace =
      s.trace ++ [(current, r)] := by
    rw [decFold_trace, h2t]
  have hins : ∀ x, pendingIn deps (insertSet s.completed current) x =
      pendingIn deps s.completed x - ((depsOf deps current).count x : Int) :=
    fun x => pendingIn_insert deps hnd s.completed current hnc x
  have hi : ∀ x, indegVal ((depsOf deps current).foldl decStep s2) x =
      indegVal s x - ((depsOf deps current).count x : Int) := by
    intro x
    rw [decFold_indeg, hind2 x]
  have hqc : ∀ x, ((depsOf deps current).foldl decStep s2).queue.count x =
      rest.count x +
        (if 1 ≤ indegVal s x ∧
            indegVal s x ≤ ((depsOf deps current).count x : Int) then 1 else 0) := by
    intro x
    rw [decFold_queue_count, h2q, hind2 x]
  refine ⟨?_, ?_, ?_, ?_, ?_, ?_, ?_⟩
  · intro x
    rw [hi x, hc, hins x, ← inv.indeg_eq x]
  · intro x hx
    have hcount : 0 < ((depsOf deps current).foldl decStep s2).queue.count x :=
      List.count_pos_iff.mpr hx
    rw [hqc x] at hcount
    have hnn : 0 ≤ pendingIn deps s.completed x -
        ((depsOf deps current).count x : Int) := by
      rw [← hins x]
      exact pendingIn_nonneg _ _ _
    rw [hc, hins x]
    by_cases hP : 1 ≤ indegVal s x ∧
        indegVal s x ≤ ((depsOf deps current).count x : Int)
    · have he := inv.indeg_eq x
      omega
    · rw [if_neg hP] at hcount
      have hxr : x ∈ rest := List.count_pos_iff.mp (by omega)
      have h0 : pendingIn deps s.completed x = 0 :=
        inv.queue_zero x (by rw [hq]; exact List.mem_cons_of_mem _ hxr)
      omega
  · rw [List.nodup_iff_count_le_one]
    intro x
    rw [hqc x]
    have hr1 : rest.count x ≤ 1 := List.nodup_iff_count_le_one.mp hqd.2 x
    by_cases hP : 1 ≤ indegVal s x ∧
        indegVal s x ≤ ((depsOf deps current).count x : Int)
    · rw [if_pos hP]
      have hr0 : rest.count x = 0 := by
        rw [List.count_eq_zero]
        intro hxr
        have h0 : pendingIn deps s.completed x = 0 :=
          inv.queue_zero x (by rw [hq]; exact List.mem_cons_of_mem _ hxr)
        have he := inv.indeg_eq x
        omega
      omega
    · rw [if_neg hP]
      omega
  · intro x hx
    have hcount : 0 < ((depsOf deps current).foldl decStep s2).queue.count x :=
      List.count_pos_iff.mpr hx
    rw [hqc x] at hcount
    rw [hc, mem_insertSet_iff]
    rintro (hxc | hxc)
    · by_cases hP : 1 ≤ indegVal s x ∧
          indegVal s x ≤ ((depsOf deps current).count x : Int)
      · have h0 := inv.comp_zero x hxc
        have he := inv.indeg_eq x
        omega
      · rw [if_neg hP] at hcount
        have hxr : x ∈ rest := List.count_pos_iff.mp (by omega)
        exact inv.queue_ncomp x (by rw [hq]; exact List.mem_cons_of_mem _ hxr) hxc
    · by_cases hP : 1 ≤ indegVal s x ∧
          indegVal s x ≤ ((depsOf deps current).count x : Int)
      · have he := inv.indeg_eq x
        rw [hxc] at he hP
        omega
      · rw [if_neg hP] at hcount
        have hxr : x ∈ rest := List.count_pos_iff.mp (by omega)
        rw [hxc] at hxr
        exact hqd.1 hxr
  · intro x hx
    rw [hc] at hx
    rw [hc, hins x]
    have hnn : 0 ≤ pendingIn deps s.completed x -
        ((depsOf deps current).count x : Int) := by
      rw [← hins x]
      exact pendingIn_nonneg _ _ _
    rcases (mem_insertSet_iff _ _ _).mp hx with hxc | hxc
    · have h0 := inv.comp_zero x hxc
      omega
    · rw [hxc] at hnn ⊢
      omega
  · intro x hx
    rw [hc] at hx
    rw [ht, countTerm_snoc]
    rcases (mem_insertSet_iff _ _ _).mp hx with hxc | hxc
    · exact le_trans (inv.comp_term x hxc) (Nat.le_add_right _ _)
    · rw [if_pos ⟨hxc.symm, hterm⟩]
      omega
  · intro pre b r2 suf htr a ha
    rw [ht] at htr
    rcases snoc_decomp s.trace (current, r) pre suf (b, r2) htr with
      ⟨suf2, hdec⟩ | ⟨hpre, hbe⟩
    · exact inv.trace_dep pre b r2 suf2 hdec a ha
    · have hb : b = current := congrArg Prod.fst hbe
      subst hpre
      exact hdepterm a (hb ▸ ha)

theorem schedInv_applyResult (deps : List (String × List String))
    (hnd : (deps.map Prod.fst).Nodup) (s : SchedState)
    (inv : SchedInv deps s) (current : String) (rest : List String)
    (hq : s.queue = current :: rest) (r : TaskResult) :
    SchedInv deps
      (applyResult deps
        { s with
            queue := rest
            trace := s.trace ++ [(current, r)] }
        current r) := by
  have hqmem : current ∈ s.queue := by
    rw [hq]
    exact List.mem_cons_self _ _
  have hcur0 : pendingIn deps s.completed current = 0 :=
    inv.queue_zero current hqmem
  have hnc : current ∉ s.completed := inv.queue_ncomp current hqmem
  have hqd : current ∉ rest ∧ rest.Nodup := by
    have h := inv.queue_nodup
    rw [hq, List.nodup_cons] at h
    exact h
  have hdepterm : ∀ a, current ∈ depsOf deps a → 1 ≤ countTerm s.trace a := by
    intro a ha
    have hac : a ∈ s.completed := by
      by_contra hcontra
      exact pendingIn_zero deps s.completed current hcur0 a hcontra ha
    exact inv.comp_term a hac
  cases r with
  | SUCCESS =>
    show SchedInv deps
      ((depsOf deps current).foldl decStep
        { s with
            queue := rest
            trace := s.trace ++ [(current, TaskResult.SUCCESS)]
            completed := insertSet s.completed current })
    exact schedInv_terminal_core deps hnd s _ inv current rest hq
      TaskResult.SUCCESS (by decide) rfl rfl rfl rfl
  | FATAL_FAILURE =>
    show SchedInv deps
      ((depsOf deps current).foldl decStep
        { s with
            queue := rest
            trace := s.trace ++ [(current, TaskResult.FATAL_FAILURE)]
            completed := insertSet s.completed current })
    exact schedInv_terminal_core deps hnd s _ inv current rest hq
      TaskResult.FATAL_FAILURE (by decide) rfl rfl rfl rfl
  | RETRYABLE_FAILURE =>
    refine ⟨inv.indeg_eq, ?_, ?_, ?_, inv.comp_zero, ?_, ?_⟩
    · intro x hx
      have hx2 : x ∈ rest ++ [current] := hx
      show pendingIn deps s.completed x = 0
      rcases List.mem_append.mp hx2 with h | h
      · exact inv.queue_zero x (by rw [hq]; exact List.mem_cons_of_mem _ h)
      · have hxc : x = current := by simpa using h
        rw [hxc]
        exact hcur0
    · show (rest ++ [current]).Nodup
      rw [List.nodup_append]
      refine ⟨hqd.2, by simp, ?_⟩
      intro x hx hmem
      have hxc : x = current := by simpa using hmem
      exact hqd.1 (hxc ▸ hx)
    · intro x hx
      have hx2 : x ∈ rest ++ [current] := hx
      show x ∉ s.completed
      rcases List.mem_append.mp hx2 with h | h
      · exact inv.queue_ncomp x (by rw [hq]; exact List.mem_cons_of_mem _ h)
      · have hxc : x = current := by simpa using h
        rw [hxc]
        exact hnc
    · intro x hx
      show 1 ≤ countTerm (s.trace ++ [(current, TaskResult.RETRYABLE_FAILURE)]) x
      rw [countTerm_snoc]
      exact le_trans (inv.comp_term x hx) (Nat.le_add_right _ _)
    · intro pre b r2 suf htr a ha
      have htr2 : s.trace ++ [(current, TaskResult.RETRYABLE_FAILURE)] =
          pre ++ (b, r2) :: suf := htr
      rcases snoc_decomp s.trace (current, TaskResult.RETRYABLE_FAILURE)
          pre suf (b, r2) htr2 with ⟨suf2, hdec⟩ | ⟨hpre, hbe⟩
      · exact inv.trace_dep pre b r2 suf2 hdec a ha
      · have hb : b = current := congrArg Prod.fst hbe
        subst hpre
        exact hdepterm a (hb ▸ ha)

theorem schedInv_crashStep (deps : List (String × List String)) (s : SchedState)
    (inv : SchedInv deps s) (current : String) (rest : List String)
    (hq : s.queue = current :: rest) :
    SchedInv deps { s with queue := rest, crashed := true } := by
  have hqd : rest.Nodup := by
    have h := inv.queue_nodup
    rw [hq, List.nodup_cons] at h
    exact h.2
  refine ⟨inv.indeg_eq, ?_, hqd, ?_, inv.comp_zero, inv.comp_term, inv.trace_dep⟩
  · intro x hx
    exact inv.queue_zero x (by rw [hq]; exact List.mem_cons_of_mem _ hx)
  · intro x hx
    exact inv.queue_ncomp x (by rw [hq]; exact List.mem_cons_of_mem _ hx)

theorem schedLoop_inv (beh : List (String × TaskResult) → String → TaskResult)
    (deps : List (String × List String)) (hnd : (deps.map Prod.fst).Nodup)
    (tasks : List String) (fuel : Nat) (s : SchedState) (inv : SchedInv deps s) :
    SchedInv deps (schedLoop beh deps tasks fuel s) := by
  induction fuel generalizing s with
  | zero => exact inv
  | succ fuel ih =>
    cases hcr : s.crashed with
    | true =>
      rw [schedLoop_crashed_id beh deps tasks (Nat.succ fuel) s hcr]
      exact inv
    | false =>
      cases hqe : s.queue with
      | nil =>
        rw [schedLoop_nil beh deps tasks (Nat.succ fuel) s hqe]
        exact inv
      | cons current rest =>
        by_cases ht : current ∈ tasks
        · rw [schedLoop_cons beh deps tasks fuel s current rest hqe hcr ht]
          exact ih _ (schedInv_applyResult deps hnd s inv current rest hqe
            (beh s.trace current))
        · rw [schedLoop_crash beh deps tasks fuel s current rest hqe hcr ht]
          exact schedInv_crashStep deps s inv current rest hqe

theorem schedInv_init (tasks : List String) (deps : List (String × List String))
    (hnd : (deps.map Prod.fst).Nodup) (htn : tasks.Nodup) :
    SchedInv deps
      ⟨get_ready_tasks (build_in_degree tasks deps) [],
        build_in_degree tasks deps, [], [], false⟩ := by
  have hknd : ((build_in_degree tasks deps).map Prod.fst).Nodup :=
    nodup_keys_build_in_degree tasks deps htn
  refine ⟨?_, ?_, ?_, ?_, ?_, ?_, ?_⟩
  · intro x
    show (alookup (build_in_degree tasks deps) x).getD 0 = pendingIn deps [] x
    exact build_in_degree_val tasks deps x
  · intro x hx
    show pendingIn deps [] x = 0
    rw [← build_in_degree_val tasks deps x]
    exact (mem_get_ready _ _ x hx hknd).1
  · exact nodup_get_ready _ _ hknd
  · intro x hx
    exact List.not_mem_nil x
  · intro x hx
    exact absurd hx (List.not_mem_nil x)
  · intro x hx
    exact absurd hx (List.not_mem_nil x)
  · intro pre b r suf htr a ha
    exfalso
    have h2 : pre ++ (b, r) :: suf = [] := htr.symm
    rw [List.append_eq_nil] at h2
    exact List.cons_ne_nil _ _ h2.2

/-- C2: during `execute_tasks` on a freshly constructed lifecycle (distinct
registered ids, dependency buckets with distinct keys, nothing completed
yet), a task is never invoked before every prerequisite declared for it via
`add_dependency` has reached a terminal outcome: ahead of every trace entry
`(b, r)` there is, for each dependency edge `(a, b)`, an earlier SUCCESS or
FATAL_FAILURE entry for `a`. -/
theorem claim_C2 (L : Lifecycle)
    (beh : List (String × TaskResult) → String → TaskResult) (fuel : Nat)
    (hnd : (L.dependencies.map Prod.fst).Nodup) (htn : L.tasks.Nodup)
    (hc0 : L.completed = [])
    (pre suf : List (String × TaskResult)) (b : String) (r : TaskResult)
    (htr : (L.execute_tasks beh fuel).trace = pre ++ (b, r) :: suf)
    (a : String) (hdep : b ∈ depsOf L.dependencies a) :
    1 ≤ countTerm pre a := by
  have hinv : SchedInv L.dependencies (L.execute_tasks beh fuel) := by
    show SchedInv L.dependencies
      (schedLoop beh L.dependencies L.tasks fuel
        ⟨get_ready_tasks (build_in_degree L.tasks L.dependencies) L.completed,
          build_in_degree L.tasks L.dependencies, L.completed, [], false⟩)
    apply schedLoop_inv beh L.dependencies hnd L.tasks fuel
    rw [hc0]
    exact schedInv_init L.tasks L.dependencies hnd htn
  exact hinv.trace_dep pre b r suf htr a hdep

/-- Witness for C2: registering t1, t2 with the dependency t1 → t2 and
running both to SUCCESS puts t2's invocation strictly after t1's terminal
entry. -/
theorem claim_C2_witness :
    (Lifecycle.execute_tasks ⟨["t1", "t2"], [("t1", ["t2"])], []⟩
        (fun _ _ => TaskResult.SUCCESS) 3).trace =
      [("t1", TaskResult.SUCCESS)] ++ ("t2", TaskResult.SUCCESS) :: [] ∧
    "t2" ∈ depsOf [("t1", ["t2"])] "t1" ∧
    1 ≤ countTerm [("t1", TaskResult.SUCCESS)] "t1" := by
  refine ⟨?_, ?_, ?_⟩
  · with_unfolding_all decide
  · with_unfolding_all decide
  · exact claim_C2 ⟨["t1", "t2"], [("t1", ["t2"])], []⟩
      (fun _ _ => TaskResult.SUCCESS) 3
      (by with_unfolding_all decide) (by with_unfolding_all decide) rfl
      [("t1", TaskResult.SUCCESS)] [] "t2" TaskResult.SUCCESS
      (by with_unfolding_all decide) "t1" (by with_unfolding_all decide)

/-! Counting and key lemmas supporting the termination claim. -/

theorem map_add_sum (l : List String) (f g : String → Nat) :
    (l.map (fun x => f x + g x)).sum = (l.map f).sum + (l.map g).sum := by
  induction l with
  | nil => rfl
  | cons a l ih =>
    rw [List.map_cons, List.map_cons, List.map_cons, List.sum_cons, List.sum_cons,
      List.sum_cons, ih]
    omega

theorem sum_indicator_zero (l : List String) (a : String) (ha : a ∉ l) :
    (l.map (fun x => if x = a then 1 else 0)).sum = 0 := by
  induction l with
  | nil => rfl
  | cons t rest ih =>
    rw [List.map_cons, List.sum_cons,
      ih (fun h => ha (List.mem_cons_of_mem _ h)),
      if_neg (fun h => ha (by rw [h]; exact List.mem_cons_self a rest))]

theorem sum_indicator_one (l : List String) (a : String) (hnd : l.Nodup)
    (ha : a ∈ l) :
    (l.map (fun x => if x = a then 1 else 0)).sum = 1 := by
  induction l with
  | nil => cases ha
  | cons t rest ih =>
    rw [List.nodup_cons] at hnd
    rw [List.map_cons, List.sum_cons]
    rcases List.mem_cons.mp ha with h | h
    · rw [if_pos h.symm, sum_indicator_zero rest a (by rw [h]; exact hnd.1)]
    · rw [if_neg (fun he => hnd.1 (by rw [he]; exact h)), ih hnd.2 h]

theorem count_sum_eq_length (tasks : List String) (htn : tasks.Nodup) :
    ∀ l : List String, (∀ x ∈ l, x ∈ tasks) →
      (tasks.map (fun x => l.count x)).sum = l.length := by
  intro l
  induction l with
  | nil =>
    intro _
    have h : (tasks.map fun x => ([] : List String).count x) =
        tasks.map (fun _ => 0) := by
      simp
    rw [h]
    simp
  | cons a l ih =>
    intro hl
    have hcnt : (tasks.map fun x => (a :: l).count x) =
        tasks.map (fun x => l.count x + (if x = a then 1 else 0)) := by
      apply List.map_congr_left
      intro x _
      by_cases h : x = a
      · subst h
        rw [List.count_cons_self, if_pos rfl]
      · rw [List.count_cons_of_ne h, if_neg h]
        omega
    rw [hcnt, map_add_sum, ih (fun x hx => hl x (List.mem_cons_of_mem _ hx)),
      sum_indicator_one tasks a htn (hl a (List.mem_cons_self _ _)),
      List.length_cons]

theorem countInv_sum (tasks : List String) (htn : tasks.Nodup) :
    ∀ tr : List (String × TaskResult), (∀ p ∈ tr, p.1 ∈ tasks) →
      (tasks.map (fun x => countInv tr x)).sum = tr.length := by
  intro tr
  induction tr with
  | nil =>
    intro _
    have h : (tasks.map fun x => countInv [] x) = tasks.map (fun _ => 0) := by
      simp [countInv]
    rw [h]
    simp
  | cons p tr ih =>
    intro hl
    obtain ⟨c, r⟩ := p
    have hcnt : (tasks.map fun x => countInv ((c, r) :: tr) x) =
        tasks.map (fun x => countInv tr x + (if x = c then 1 else 0)) := by
      apply List.map_congr_left
      intro x _
      by_cases h : c = x
      · simp [countInv, List.filter_cons, h]
      · simp [countInv, List.filter_cons, h, Ne.symm h]
    rw [hcnt, map_add_sum, ih (fun q hq => hl q (List.mem_cons_of_mem _ hq)),
      sum_indicator_one tasks c htn (hl (c, r) (List.mem_cons_self _ _)),
      List.length_cons]

theorem insertSet_nodup (s : List String) (a : String) (h : s.Nodup) :
    (insertSet s a).Nodup := by
  unfold insertSet
  by_cases ha : a ∈ s
  · rw [if_pos ha]
    exact h
  · rw [if_neg ha]
    rw [List.nodup_append]
    refine ⟨h, by simp, ?_⟩
    intro x hx hm
    have hxa : x = a := by simpa using hm
    exact ha (hxa ▸ hx)

theorem map_fst_pairs (ts : List String) :
    (ts.map (fun t => ((t, 0) : String × Int))).map Prod.fst = ts := by
  rw [List.map_map]
  induction ts with
  | nil => rfl
  | cons t rest ih =>
    rw [List.map_cons, ih]
    rfl

theorem mem_keys_findOrInsert {α : Type} (l : List (String × α)) (k : String)
    (d : α) (x : String) (hx : x ∈ (findOrInsert l k d).2.map Prod.fst) :
    x ∈ l.map Prod.fst ∨ x = k := by
  unfold findOrInsert at hx
  cases h : alookup l k with
  | some v =>
    rw [h] at hx
    exact Or.inl hx
  | none =>
    rw [h] at hx
    rw [List.map_append] at hx
    rcases List.mem_append.mp hx with h1 | h1
    · exact Or.inl h1
    · exact Or.inr (by simpa using h1)

theorem mem_keys_bumpInDegree (m : List (String × Int)) (k x : String)
    (hx : x ∈ (bumpInDegree m k).map Prod.fst) : x ∈ m.map Prod.fst ∨ x = k := by
  have hb : bumpInDegree m k =
      aset (findOrInsert m k 0).2 k ((findOrInsert m k 0).1 + 1) := rfl
  rw [hb] at hx
  rcases mem_keys_aset _ _ _ _ hx with h | h
  · exact mem_keys_findOrInsert m k 0 x h
  · exact Or.inr h

theorem mem_keys_bumpFold (tos : List String) (m : List (String × Int))
    (x : String) (hx : x ∈ (tos.foldl bumpInDegree m).map Prod.fst) :
    x ∈ m.map Prod.fst ∨ x ∈ tos := by
  induction tos generalizing m with
  | nil => exact Or.inl hx
  | cons t rest ih =>
    rw [List.foldl_cons] at hx
    rcases ih _ hx with h | h
    · rcases mem_keys_bumpInDegree m t x h with h2 | h2
      · exact Or.inl h2
      · exact Or.inr (by rw [h2]; exact List.mem_cons_self _ _)
    · exact Or.inr (List.mem_cons_of_mem _ h)

theorem mem_keys_depsFold (deps : List (String × List String))
    (m : List (String × Int)) (x : String)
    (hx : x ∈ (deps.foldl (fun m2 pr => pr.2.foldl bumpInDegree m2) m).map Prod.fst) :
    x ∈ m.map Prod.fst ∨ ∃ p ∈ deps, x ∈ p.2 := by
  induction deps generalizing m with
  | nil => exact Or.inl hx
  | cons p rest ih =>
    rw [List.foldl_cons] at hx
    rcases ih _ hx with h | ⟨q, hq, hb⟩
    · rcases mem_keys_bumpFold p.2 m x h with h2 | h2
      · exact Or.inl h2
      · exact Or.inr ⟨p, List.mem_cons_self _ _, h2⟩
    · exact Or.inr ⟨q, List.mem_cons_of_mem _ hq, hb⟩

theorem keys_build_subset (tasks : List String) (deps : List (String × List String))
    (hreg : ∀ p ∈ deps, ∀ b ∈ p.2, b ∈ tasks) (x : String)
    (hx : x ∈ (build_in_degree tasks deps).map Prod.fst) : x ∈ tasks := by
  unfold build_in_degree at hx
  rcases mem_keys_depsFold deps _ x hx with h | ⟨p, hp, hb⟩
  · rw [map_fst_pairs] at h
    exact h
  · exact hreg p hp x hb

theorem get_ready_subset_keys (indeg : List (String × Int)) (comp : List String)
    (x : String) (hx : x ∈ get_ready_tasks indeg comp) :
    x ∈ indeg.map Prod.fst := by
  unfold get_ready_tasks at hx
  obtain ⟨p, hp, hfst⟩ := List.mem_map.mp hx
  have hpm := (List.mem_filter.mp hp).1
  exact hfst ▸ List.mem_map_of_mem Prod.fst hpm

theorem alookup_base_pairs (ts : List String) (x : String) (hx : x ∈ ts) :
    alookup (ts.map (fun t => ((t, 0) : String × Int))) x = some 0 := by
  induction ts with
  | nil => cases hx
  | cons t rest ih =>
    rw [List.map_cons]
    unfold alookup
    by_cases h : t = x
    · rw [if_pos h]
    · rw [if_neg h]
      exact ih ((List.mem_cons.mp hx).resolve_left (fun he => h he.symm))

theorem alookup_bump_isSome (m : List (String × Int)) (k x : String)
    (h : (alookup m x).isSome) : (alookup (bumpInDegree m k) x).isSome := by
  have hb : bumpInDegree m k =
      aset (findOrInsert m k 0).2 k ((findOrInsert m k 0).1 + 1) := rfl
  rw [hb]
  by_cases hx : x = k
  · subst hx
    rw [alookup_aset_self]
    rfl
  · rw [alookup_aset_ne _ _ _ _ hx, alookup_findOrInsert_snd', if_neg hx]
    exact h

theorem alookup_bumpFold_isSome (tos : List String) (m : List (String × Int))
    (x : String) (h : (alookup m x).isSome) :
    (alookup (tos.foldl bumpInDegree m) x).isSome := by
  induction tos generalizing m with
  | nil => exact h
  | cons t rest ih => exact ih _ (alookup_bump_isSome m t x h)

theorem alookup_depsFold_isSome (deps : List (String × List String))
    (m : List (String × Int)) (x : String) (h : (alookup m x).isSome) :
    (alookup (deps.foldl (fun m2 pr => pr.2.foldl bumpInDegree m2) m) x).isSome := by
  induction deps generalizing m with
  | nil => exact h
  | cons p rest ih => exact ih _ (alookup_bumpFold_isSome p.2 m x h)

theorem alookup_build_isSome (tasks : List String)
    (deps : List (String × List String)) (x : String) (hx : x ∈ tasks) :
    (alookup (build_in_degree tasks deps) x).isSome := by
  unfold build_in_degree
  apply alookup_depsFold_isSome
  rw [alookup_base_pairs tasks x hx]
  rfl

theorem mem_get_ready_of (indeg : List (String × Int)) (comp : List String)
    (x : String) (hs : (alookup indeg x).isSome)
    (hv : (alookup indeg x).getD 0 = 0) (hc : x ∉ comp) :
    x ∈ get_ready_tasks indeg comp := by
  obtain ⟨v, hv2⟩ := Option.isSome_iff_exists.mp hs
  have hv0 : v = 0 := by
    rw [hv2] at hv
    simpa using hv
  subst hv0
  have hmem : (x, (0 : Int)) ∈ indeg := mem_of_alookup_eq_some hv2
  unfold get_ready_tasks
  apply List.mem_map.mpr
  refine ⟨(x, 0), ?_, rfl⟩
  apply List.mem_filter.mpr
  refine ⟨hmem, ?_⟩
  simp [hc]

theorem depsOf_reg (deps : List (String × List String)) (tasks : List String)
    (hreg : ∀ p ∈ deps, p.1 ∈ tasks ∧ ∀ b ∈ p.2, b ∈ tasks) (a b : String)
    (hb : b ∈ depsOf deps a) : b ∈ tasks := by
  unfold depsOf at hb
  cases h : alookup deps a with
  | none =>
    rw [h] at hb
    cases hb
  | some tos =>
    rw [h] at hb
    exact (hreg (a, tos) (mem_of_alookup_eq_some h)).2 b hb

/-- The dependency edge relation of a lifecycle: `DepRel deps a b` holds when
`b` was declared dependent on `a` (a directed edge `a → b`). -/
def DepRel (deps : List (String × List String)) (a b : String) : Prop :=
  b ∈ depsOf deps a

/-- A rank function that strictly increases along every dependency edge
certifies acyclicity (used to discharge the acyclicity hypothesis on concrete
graphs). -/
theorem rank_acyclic (deps : List (String × List String)) (rank : String → Nat)
    (h : ∀ a b, DepRel deps a b → rank a < rank b) :
    ∀ a, ¬ Relation.TransGen (DepRel deps) a a := by
  have hmono : ∀ x y, Relation.TransGen (DepRel deps) x y → rank x < rank y := by
    intro x y hT
    induction hT with
    | single hr => exact h _ _ hr
    | tail hT2 hr ih => exact lt_trans ih (h _ _ hr)
  intro a hT
  exact lt_irrefl _ (hmono a a hT)

theorem pendingIn_pos_elim (deps : List (String × List String))
    (comp : List String) (x : String) (hpos : 1 ≤ pendingIn deps comp x) :
    ∃ k tos, (k, tos) ∈ deps ∧ k ∉ comp ∧ x ∈ tos := by
  induction deps with
  | nil => simp [pendingIn] at hpos
  | cons p rest ih =>
    obtain ⟨k, tos⟩ := p
    unfold pendingIn at hpos
    by_cases hk : k ∈ comp
    · rw [if_pos hk] at hpos
      obtain ⟨k2, tos2, h1, h2, h3⟩ := ih (by omega)
      exact ⟨k2, tos2, List.mem_cons_of_mem _ h1, h2, h3⟩
    · rw [if_neg hk] at hpos
      by_cases hcnt : x ∈ tos
      · exact ⟨k, tos, List.mem_cons_self _ _, hk, hcnt⟩
      · have h0 : tos.count x = 0 := List.count_eq_zero.mpr hcnt
        rw [h0] at hpos
        obtain ⟨k2, tos2, h1, h2, h3⟩ := ih (by
          simp only [Int.ofNat_zero] at hpos
          omega)
        exact ⟨k2, tos2, List.mem_cons_of_mem _ h1, h2, h3⟩

/-- The extended scheduler invariant for the termination claim: on top of
`SchedInv`, every queued and invoked id is registered, invoked ids have no
pending prerequisites, the invocation count of each id (plus its queue
multiplicity) stays below its retry budget `R` plus one, every registered id
that becomes unblocked is queued, terminal invocations happen at most once,
and the completed set is duplicate-free. -/
structure DrainInv (deps : List (String × List String)) (tasks : List String)
    (R : String → Nat) (s : SchedState) : Prop where
  base : SchedInv deps s
  queue_reg : ∀ x ∈ s.queue, x ∈ tasks
  trace_reg : ∀ p ∈ s.trace, p.1 ∈ tasks
  invoked_zero : ∀ x, 1 ≤ countInv s.trace x → pendingIn deps s.completed x = 0
  invoke_bound : ∀ x, countInv s.trace x + s.queue.count x ≤ R x + 1
  ready_queued : ∀ x ∈ tasks, pendingIn deps s.completed x = 0 →
    x ∉ s.completed → x ∈ s.queue
  term_once : ∀ x, countTerm s.trace x ≤ 1
  term_comp2 : ∀ x, 1 ≤ countTerm s.trace x → x ∈ s.completed
  comp_nodup : s.completed.Nodup

theorem drainInv_terminal_core (deps : List (String × List String))
    (tasks : List String) (R : String → Nat)
    (hnd : (deps.map Prod.fst).Nodup)
    (hreg : ∀ p ∈ deps, p.1 ∈ tasks ∧ ∀ b ∈ p.2, b ∈ tasks)
    (s : SchedState) (s2 : SchedState)
    (dinv : DrainInv deps tasks R s) (current : String) (rest : List String)
    (hq : s.queue = current :: rest) (hct : current ∈ tasks) (r : TaskResult)
    (hterm : r ≠ TaskResult.RETRYABLE_FAILURE)
    (h2q : s2.queue = rest) (h2i : s2.in_degree = s.in_degree)
    (h2c : s2.completed = insertSet s.completed current)
    (h2t : s2.trace = s.trace ++ [(current, r)]) :
    DrainInv deps tasks R ((depsOf deps current).foldl decStep s2) := by
  have hqmem : current ∈ s.queue := by
    rw [hq]
    exact List.mem_cons_self _ _
  have hcur0 : pendingIn deps s.completed current = 0 :=
    dinv.base.queue_zero current hqmem
  have hnc : current ∉ s.completed := dinv.base.queue_ncomp current hqmem
  have hqd : current ∉ rest ∧ rest.Nodup := by
    have h := dinv.base.queue_nodup
    rw [hq, List.nodup_cons] at h
    exact h
  have hind2 : ∀ x, indegVal s2 x = indegVal s x := by
    intro x
    unfold indegVal
    rw [h2i]
  have hc : ((depsOf deps current).foldl decStep s2).completed =
      insertSet s.completed current := by
    rw [decFold_completed, h2c]
  have ht : ((depsOf deps current).foldl decStep s2).trace =
      s.trace ++ [(current, r)] := by
    rw [decFold_trace, h2t]
  have hins : ∀ x, pendingIn deps (insertSet s.completed current) x =
      pendingIn deps s.completed x - ((depsOf deps current).count x : Int) :=
    fun x => pendingIn_insert deps hnd s.completed current hnc x
  have hqc : ∀ x, ((depsOf deps current).foldl decStep s2).queue.count x =
      rest.count x +
        (if 1 ≤ indegVal s x ∧
            indegVal s x ≤ ((depsOf deps current).count x : Int) then 1 else 0) := by
    intro x
    rw [decFold_queue_count, h2q, hind2 x]
  refine ⟨schedInv_terminal_core deps hnd s s2 dinv.base current rest hq r hterm
    h2q h2i h2c h2t, ?_, ?_, ?_, ?_, ?_, ?_, ?_, ?_⟩
  · intro x hx
    have hcount : 0 < ((depsOf deps current).foldl decStep s2).queue.count x :=
      List.count_pos_iff.mpr hx
    rw [hqc x] at hcount
    by_cases hP : 1 ≤ indegVal s x ∧
        indegVal s x ≤ ((depsOf deps current).count x : Int)
    · have hxl : x ∈ depsOf deps current := by
        apply List.count_pos_iff.mp
        have h1 := hP.1
        have h2 := hP.2
        omega
      exact depsOf_reg deps tasks hreg current x hxl
    · rw [if_neg hP] at hcount
      have hxr : x ∈ rest := List.count_pos_iff.mp (by omega)
      exact dinv.queue_reg x (by rw [hq]; exact List.mem_cons_of_mem _ hxr)
  · intro p hp
    rw [ht] at hp
    rcases List.mem_append.mp hp with h | h
    · exact dinv.trace_reg p h
    · have hpe : p = (current, r) := by simpa using h
      rw [hpe]
      exact hct
  · intro x hx1
    rw [ht, countInv_snoc] at hx1
    rw [hc, hins x]
    have hnn : 0 ≤ pendingIn deps s.completed x -
        ((depsOf deps current).count x : Int) := by
      rw [← hins x]
      exact pendingIn_nonneg _ _ _
    by_cases hxc : current = x
    · have h0 : pendingIn deps s.completed x = 0 := by
        rw [← hxc]
        exact hcur0
      omega
    · rw [if_neg hxc] at hx1
      have h0 := dinv.invoked_zero x (by omega)
      omega
  · intro x
    rw [ht, countInv_snoc, hqc x]
    have hb := dinv.invoke_bound x
    rw [hq] at hb
    by_cases hxc : x = current
    · subst hxc
      rw [List.count_cons_self] at hb
      rw [if_pos rfl]
      have hr0 : rest.count x = 0 := List.count_eq_zero.mpr hqd.1
      have hP0 : ¬(1 ≤ indegVal s x ∧
          indegVal s x ≤ ((depsOf deps x).count x : Int)) := by
        rintro ⟨h1, _⟩
        have he := dinv.base.indeg_eq x
        omega
      rw [if_neg hP0]
      omega
    · rw [if_neg (fun he => hxc he.symm)]
      rw [List.count_cons_of_ne hxc] at hb
      by_cases hP : 1 ≤ indegVal s x ∧
          indegVal s x ≤ ((depsOf deps current).count x : Int)
      · rw [if_pos hP]
        have he := dinv.base.indeg_eq x
        have hci0 : countInv s.trace x = 0 := by
          by_contra hc2
          have := dinv.invoked_zero x (by omega)
          have h1 := hP.1
          omega
        have hr0 : rest.count x = 0 := by
          rw [List.count_eq_zero]
          intro hxr
          have h0 : pendingIn deps s.completed x = 0 :=
            dinv.base.queue_zero x (by rw [hq]; exact List.mem_cons_of_mem _ hxr)
          have h1 := hP.1
          omega
        omega
      · rw [if_neg hP]
        omega
  · intro x hx hp0 hncomp
    rw [hc] at hp0 hncomp
    have hxc : x ≠ current := by
      intro he
      exact hncomp (he ▸ mem_insertSet_self s.completed current)
    have hx_nc : x ∉ s.completed := by
      intro hin
      exact hncomp ((mem_insertSet_iff _ _ _).mpr (Or.inl hin))
    rw [hins x] at hp0
    by_cases hp : pendingIn deps s.completed x = 0
    · have hq2 := dinv.ready_queued x hx hp hx_nc
      rw [hq] at hq2
      have hxr : x ∈ rest := (List.mem_cons.mp hq2).resolve_left hxc
      obtain ⟨added, hadd⟩ := decFold_queue (depsOf deps current) s2
      rw [hadd, h2q]
      exact List.mem_append_left _ hxr
    · have hp1 : 1 ≤ pendingIn deps s.completed x := by
        have := pendingIn_nonneg deps s.completed x
        omega
      have hxl : x ∈ depsOf deps current := by
        apply List.count_pos_iff.mp
        omega
      apply decFold_push_of_zero (depsOf deps current) s2 x hxl
      rw [hind2 x, dinv.base.indeg_eq x]
      omega
  · intro x
    rw [ht, countTerm_snoc]
    by_cases hcx : current = x ∧ r ≠ TaskResult.RETRYABLE_FAILURE
    · rw [if_pos hcx]
      have h0 : countTerm s.trace x = 0 := by
        by_contra hc2
        have hx2 := dinv.term_comp2 x (by omega)
        rw [← hcx.1] at hx2
        exact hnc hx2
      omega
    · rw [if_neg hcx]
      have := dinv.term_once x
      omega
  · intro x hx1
    rw [ht, countTerm_snoc] at hx1
    rw [hc, mem_insertSet_iff]
    by_cases hcx : current = x ∧ r ≠ TaskResult.RETRYABLE_FAILURE
    · exact Or.inr hcx.1.symm
    · rw [if_neg hcx] at hx1
      exact Or.inl (dinv.term_comp2 x (by omega))
  · rw [hc]
    exact insertSet_nodup _ _ dinv.comp_nodup

theorem drainInv_applyResult (deps : List (String × List String))
    (tasks : List String) (R : String → Nat)
    (hnd : (deps.map Prod.fst).Nodup)
    (hreg : ∀ p ∈ deps, p.1 ∈ tasks ∧ ∀ b ∈ p.2, b ∈ tasks)
    (s : SchedState) (dinv : DrainInv deps tasks R s)
    (current : String) (rest : List String)
    (hq : s.queue = current :: rest) (hct : current ∈ tasks) (r : TaskResult)
    (hretry : r = TaskResult.RETRYABLE_FAILURE →
      countInv s.trace current < R current) :
    DrainInv deps tasks R
      (applyResult deps
        { s with
            queue := rest
            trace := s.trace ++ [(current, r)] }
        current r) := by
  have hqmem : current ∈ s.queue := by
    rw [hq]
    exact List.mem_cons_self _ _
  have hcur0 : pendingIn deps s.completed current = 0 :=
    dinv.base.queue_zero current hqmem
  have hnc : current ∉ s.completed := dinv.base.queue_ncomp current hqmem
  have hqd : current ∉ rest ∧ rest.Nodup := by
    have h := dinv.base.queue_nodup
    rw [hq, List.nodup_cons] at h
    exact h
  cases r with
  | SUCCESS =>
    show DrainInv deps tasks R
      ((depsOf deps current).foldl decStep
        { s with
            queue := rest
            trace := s.trace ++ [(current, TaskResult.SUCCESS)]
            completed := insertSet s.completed current })
    exact drainInv_terminal_core deps tasks R hnd hreg s _ dinv current rest hq
      hct TaskResult.SUCCESS (by decide) rfl rfl rfl rfl
  | FATAL_FAILURE =>
    show DrainInv deps tasks R
      ((depsOf deps current).foldl decStep
        { s with
            queue := rest
            trace := s.trace ++ [(current, TaskResult.FATAL_FAILURE)]
            completed := insertSet s.completed current })
    exact drainInv_terminal_core deps tasks R hnd hreg s _ dinv current rest hq
      hct TaskResult.FATAL_FAILURE (by decide) rfl rfl rfl rfl
  | RETRYABLE_FAILURE =>
    have hrlt : countInv s.trace current < R current := hretry rfl
    refine ⟨schedInv_applyResult deps hnd s dinv.base current rest hq
      TaskResult.RETRYABLE_FAILURE, ?_, ?_, ?_, ?_, ?_, ?_, ?_, ?_⟩
    · intro x hx
      have hx2 : x ∈ rest ++ [current] := hx
      rcases List.mem_append.mp hx2 with h | h
      · exact dinv.queue_reg x (by rw [hq]; exact List.mem_cons_of_mem _ h)
      · have hxc : x = current := by simpa using h
        rw [hxc]
        exact hct
    · intro p hp
      have hp2 : p ∈ s.trace ++ [(current, TaskResult.RETRYABLE_FAILURE)] := hp
      rcases List.mem_append.mp hp2 with h | h
      · exact dinv.trace_reg p h
      · have hpe : p = (current, TaskResult.RETRYABLE_FAILURE) := by simpa using h
        rw [hpe]
        exact hct
    · intro x hx1
      have hx2 : 1 ≤ countInv (s.trace ++
          [(current, TaskResult.RETRYABLE_FAILURE)]) x := hx1
      rw [countInv_snoc] at hx2
      show pendingIn deps s.completed x = 0
      by_cases hxc : current = x
      · rw [← hxc]
        exact hcur0
      · rw [if_neg hxc] at hx2
        exact dinv.invoked_zero x (by omega)
    · intro x
      show countInv (s.trace ++ [(current, TaskResult.RETRYABLE_FAILURE)]) x +
        (rest ++ [current]).count x ≤ R x + 1
      rw [countInv_snoc, List.count_append]
      have hb := dinv.invoke_bound x
      rw [hq] at hb
      by_cases hxc : x = current
      · subst hxc
        rw [List.count_cons_self] at hb
        rw [if_pos rfl]
        have hr0 : rest.count x = 0 := List.count_eq_zero.mpr hqd.1
        have hone : List.count x [x] = 1 := by simp
        omega
      · rw [if_neg (fun he => hxc he.symm)]
        rw [List.count_cons_of_ne hxc] at hb
        have hzero : List.count x [current] = 0 := by
          rw [List.count_eq_zero]
          simp [hxc]
        omega
    · intro x hx hp0 hncomp
      have hq2 := dinv.ready_queued x hx hp0 hncomp
      rw [hq] at hq2
      show x ∈ rest ++ [current]
      rcases List.mem_cons.mp hq2 with h | h
      · exact List.mem_append_right _ (by simp [h])
      · exact List.mem_append_left _ h
    · intro x
      show countTerm (s.trace ++ [(current, TaskResult.RETRYABLE_FAILURE)]) x ≤ 1
      rw [countTerm_snoc]
      have h0 : ¬(current = x ∧
          TaskResult.RETRYABLE_FAILURE ≠ TaskResult.RETRYABLE_FAILURE) := by
        rintro ⟨_, h2⟩
        exact h2 rfl
      rw [if_neg h0]
      have := dinv.term_once x
      omega
    · intro x hx1
      have hx2 : 1 ≤ countTerm (s.trace ++
          [(current, TaskResult.RETRYABLE_FAILURE)]) x := hx1
      rw [countTerm_snoc] at hx2
      have h0 : ¬(current = x ∧
          TaskResult.RETRYABLE_FAILURE ≠ TaskResult.RETRYABLE_FAILURE) := by
        rintro ⟨_, h2⟩
        exact h2 rfl
      rw [if_neg h0] at hx2
      exact dinv.term_comp2 x (by omega)
    · exact dinv.comp_nodup

theorem trace_len_bound (deps : List (String × List String)) (tasks : List String)
    (R : String → Nat) (htn : tasks.Nodup) (s : SchedState)
    (dinv : DrainInv deps tasks R s) :
    s.trace.length + s.queue.length ≤ (tasks.map (fun x => R x + 1)).sum := by
  have h1 := countInv_sum tasks htn s.trace dinv.trace_reg
  have h2 := count_sum_eq_length tasks htn s.queue dinv.queue_reg
  have h3 : (tasks.map (fun x => countInv s.trace x + s.queue.count x)).sum ≤
      (tasks.map (fun x => R x + 1)).sum :=
    List.sum_le_sum (fun i _ => dinv.invoke_bound i)
  rw [map_add_sum, h1, h2] at h3
  exact h3

theorem drainInv_init (tasks : List String) (deps : List (String × List String))
    (R : String → Nat) (hnd : (deps.map Prod.fst).Nodup) (htn : tasks.Nodup)
    (hreg : ∀ p ∈ deps, p.1 ∈ tasks ∧ ∀ b ∈ p.2, b ∈ tasks) :
    DrainInv deps tasks R
      ⟨get_ready_tasks (build_in_degree tasks deps) [],
        build_in_degree tasks deps, [], [], false⟩ := by
  have hknd : ((build_in_degree tasks deps).map Prod.fst).Nodup :=
    nodup_keys_build_in_degree tasks deps htn
  refine ⟨schedInv_init tasks deps hnd htn, ?_, ?_, ?_, ?_, ?_, ?_, ?_, ?_⟩
  · intro x hx
    exact keys_build_subset tasks deps (fun p hp => (hreg p hp).2) x
      (get_ready_subset_keys _ _ x hx)
  · intro p hp
    exact absurd hp (List.not_mem_nil p)
  · intro x hx1
    exfalso
    have hx2 : 1 ≤ countInv ([] : List (String × TaskResult)) x := hx1
    have h0 : countInv ([] : List (String × TaskResult)) x = 0 := rfl
    omega
  · intro x
    show countInv ([] : List (String × TaskResult)) x +
      (get_ready_tasks (build_in_degree tasks deps) []).count x ≤ R x + 1
    have h0 : countInv ([] : List (String × TaskResult)) x = 0 := rfl
    have h1 := List.nodup_iff_count_le_one.mp
      (nodup_get_ready (build_in_degree tasks deps) [] hknd) x
    omega
  · intro x hx hp0 hncomp
    show x ∈ get_ready_tasks (build_in_degree tasks deps) []
    apply mem_get_ready_of
    · exact alookup_build_isSome tasks deps x hx
    · rw [build_in_degree_val]
      exact hp0
    · exact List.not_mem_nil x
  · intro x
    show countTerm ([] : List (String × TaskResult)) x ≤ 1
    have h0 : countTerm ([] : List (String × TaskResult)) x = 0 := rfl
    omega
  · intro x hx1
    exfalso
    have hx2 : 1 ≤ countTerm ([] : List (String × TaskResult)) x := hx1
    have h0 : countTerm ([] : List (String × TaskResult)) x = 0 := rfl
    omega
  · exact List.nodup_nil

theorem schedLoop_drain (beh : List (String × TaskResult) → String → TaskResult)
    (deps : List (String × List String)) (tasks : List String) (R : String → Nat)
    (hnd : (deps.map Prod.fst).Nodup) (htn : tasks.Nodup)
    (hreg : ∀ p ∈ deps, p.1 ∈ tasks ∧ ∀ b ∈ p.2, b ∈ tasks)
    (hbeh : ∀ tr id, beh tr id = TaskResult.RETRYABLE_FAILURE →
      countInv tr id < R id) :
    ∀ fuel : Nat, ∀ s : SchedState, DrainInv deps tasks R s → s.crashed = false →
      (tasks.map (fun x => R x + 1)).sum + 1 ≤ s.trace.length + fuel →
      ((schedLoop beh deps tasks fuel s).queue = [] ∧
        (schedLoop beh deps tasks fuel s).crashed = false ∧
        DrainInv deps tasks R (schedLoop beh deps tasks fuel s)) := by
  intro fuel
  induction fuel with
  | zero =>
    intro s dinv hcr hf
    exfalso
    have hb := trace_len_bound deps tasks R htn s dinv
    omega
  | succ fuel ih =>
    intro s dinv hcr hf
    cases hqe : s.queue with
    | nil =>
      rw [schedLoop_nil beh deps tasks (Nat.succ fuel) s hqe]
      exact ⟨hqe, hcr, dinv⟩
    | cons current rest =>
      have hct : current ∈ tasks :=
        dinv.queue_reg current (by rw [hqe]; exact List.mem_cons_self _ _)
      rw [schedLoop_cons beh deps tasks fuel s current rest hqe hcr hct]
      apply ih
      · exact drainInv_applyResult deps tasks R hnd hreg s dinv current rest hqe
          hct (beh s.trace current) (fun hr => hbeh s.trace current hr)
      · rw [applyResult_crashed]
        exact hcr
      · have htl : (applyResult deps
            { s with
                queue := rest
                trace := s.trace ++ [(current, beh s.trace current)] }
            current (beh s.trace current)).trace =
            s.trace ++ [(current, beh s.trace current)] :=
          applyResult_trace deps _ current (beh s.trace current)
        rw [htl, List.length_append, List.length_singleton]
        omega

theorem drained_all_completed (deps : List (String × List String))
    (tasks : List String) (R : String → Nat)
    (hnd : (deps.map Prod.fst).Nodup)
    (hreg : ∀ p ∈ deps, p.1 ∈ tasks ∧ ∀ b ∈ p.2, b ∈ tasks)
    (hacyc : ∀ a, ¬ Relation.TransGen (DepRel deps) a a)
    (s : SchedState) (dinv : DrainInv deps tasks R s) (hqe : s.queue = []) :
    ∀ id ∈ tasks, id ∈ s.completed := by
  intro id0 hid0
  by_contra hnc0
  have hstep : ∀ x, x ∈ tasks → x ∉ s.completed →
      ∃ y, (y ∈ tasks ∧ y ∉ s.completed) ∧ DepRel deps y x := by
    intro x hx hxc
    have hpos : 1 ≤ pendingIn deps s.completed x := by
      by_contra hnp
      have hge := pendingIn_nonneg deps s.completed x
      have h0 : pendingIn deps s.completed x = 0 := by omega
      have hmem := dinv.ready_queued x hx h0 hxc
      rw [hqe] at hmem
      exact absurd hmem (List.not_mem_nil x)
    obtain ⟨k, tos, hkm, hknc, hxin⟩ := pendingIn_pos_elim deps s.completed x hpos
    have hlk : alookup deps k = some tos := alookup_of_mem_nodup deps k tos hnd hkm
    refine ⟨k, ⟨(hreg (k, tos) hkm).1, hknc⟩, ?_⟩
    show x ∈ depsOf deps k
    unfold depsOf
    rw [hlk]
    exact hxin
  have hch : ∀ x : {y : String // y ∈ tasks ∧ y ∉ s.completed},
      ∃ y : String, (y ∈ tasks ∧ y ∉ s.completed) ∧ DepRel deps y x.1 :=
    fun x => hstep x.1 x.2.1 x.2.2
  choose g hg using hch
  let g2 : {y : String // y ∈ tasks ∧ y ∉ s.completed} →
      {y : String // y ∈ tasks ∧ y ∉ s.completed} := fun x => ⟨g x, (hg x).1⟩
  let x0 : {y : String // y ∈ tasks ∧ y ∉ s.completed} := ⟨id0, hid0, hnc0⟩
  let f : Nat → {y : String // y ∈ tasks ∧ y ∉ s.completed} := fun n => g2^[n] x0
  have hedge : ∀ n, DepRel deps (f (n + 1)).1 (f n).1 := by
    intro n
    have hs : f (n + 1) = g2 (f n) := Function.iterate_succ_apply' g2 n x0
    rw [hs]
    exact (hg (f n)).2
  have hchain : ∀ j, ∀ i, i < j →
      Relation.TransGen (DepRel deps) (f j).1 (f i).1 := by
    intro j
    induction j with
    | zero =>
      intro i hi
      exact absurd hi (Nat.not_lt_zero i)
    | succ j ihj =>
      intro i hi
      rcases Nat.lt_succ_iff_lt_or_eq.mp hi with h | h
      · exact Relation.TransGen.head (hedge j) (ihj i h)
      · subst h
        exact Relation.TransGen.single (hedge i)
  have hmemf : ∀ n : Nat, (f n).1 ∈ tasks.toFinset :=
    fun n => List.mem_toFinset.mpr (f n).2.1
  have hcard : tasks.toFinset.card < (Finset.range (tasks.toFinset.card + 1)).card := by
    rw [Finset.card_range]
    omega
  obtain ⟨i, hi, j, hj, hij, hfeq⟩ :=
    Finset.exists_ne_map_eq_of_card_lt_of_maps_to hcard (fun n _ => hmemf n)
  rcases Nat.lt_or_ge i j with h | h
  · have hT := hchain j i h
    rw [← hfeq] at hT
    exact hacyc _ hT
  · have hlt : j < i := by omega
    have hT := hchain i j hlt
    rw [hfeq] at hT
    exact hacyc _ hT

theorem schedLoop_add (beh : List (String × TaskResult) → String → TaskResult)
    (deps : List (String × List String)) (tasks : List String) (f1 f2 : Nat) :
    ∀ s, schedLoop beh deps tasks (f1 + f2) s =
      schedLoop beh deps tasks f2 (schedLoop beh deps tasks f1 s) := by
  induction f1 with
  | zero =>
    intro s
    rw [Nat.zero_add]
    rfl
  | succ f1 ih =>
    intro s
    rw [Nat.succ_add]
    cases hcr : s.crashed with
    | true =>
      rw [schedLoop_crashed_id beh deps tasks (Nat.succ (f1 + f2)) s hcr,
        schedLoop_crashed_id beh deps tasks (Nat.succ f1) s hcr,
        schedLoop_crashed_id beh deps tasks f2 s hcr]
    | false =>
      cases hqe : s.queue with
      | nil =>
        rw [schedLoop_nil beh deps tasks (Nat.succ (f1 + f2)) s hqe,
          schedLoop_nil beh deps tasks (Nat.succ f1) s hqe,
          schedLoop_nil beh deps tasks f2 s hqe]
      | cons current rest =>
        by_cases hct : current ∈ tasks
        · rw [schedLoop_cons beh deps tasks (f1 + f2) s current rest hqe hcr hct,
            schedLoop_cons beh deps tasks f1 s current rest hqe hcr hct]
          exact ih _
        · rw [schedLoop_crash beh deps tasks (f1 + f2) s current rest hqe hcr hct,
            schedLoop_crash beh deps tasks f1 s current rest hqe hcr hct,
            schedLoop_crashed_id beh deps tasks f2 _ rfl]

/-- C3: on a freshly constructed lifecycle whose dependency edges are acyclic
and reference only registered ids, and whose tasks each stop returning
RETRYABLE_FAILURE within a per-task retry budget `R`, `execute_tasks` drains
its queue within `Σ (R id + 1) + 1` iterations (more fuel gives the identical
state, i.e. the C++ while-loop terminates), every registered id ends up in
the completed set exactly once — with exactly one terminal invocation — and
an id reaches the completed set only on a terminal outcome: every completed
id has a SUCCESS/FATAL_FAILURE trace entry, and the RETRYABLE_FAILURE branch
never touches the completed set. -/
theorem claim_C3 (L : Lifecycle)
    (beh : List (String × TaskResult) → String → TaskResult) (R : String → Nat)
    (hnd : (L.dependencies.map Prod.fst).Nodup) (htn : L.tasks.Nodup)
    (hc0 : L.completed = [])
    (hreg : ∀ p ∈ L.dependencies, p.1 ∈ L.tasks ∧ ∀ b ∈ p.2, b ∈ L.tasks)
    (hacyc : ∀ a, ¬ Relation.TransGen (DepRel L.dependencies) a a)
    (hbeh : ∀ tr id, beh tr id = TaskResult.RETRYABLE_FAILURE →
      countInv tr id < R id)
    (fuel : Nat)
    (hfuel : (L.tasks.map (fun x => R x + 1)).sum + 1 ≤ fuel) :
    (L.execute_tasks beh fuel).queue = [] ∧
    (L.execute_tasks beh fuel).crashed = false ∧
    (∀ fuel2, fuel ≤ fuel2 →
      L.execute_tasks beh fuel2 = L.execute_tasks beh fuel) ∧
    (∀ id ∈ L.tasks, (L.execute_tasks beh fuel).completed.count id = 1 ∧
      countTerm (L.execute_tasks beh fuel).trace id = 1) ∧
    (∀ id ∈ (L.execute_tasks beh fuel).completed,
      1 ≤ countTerm (L.execute_tasks beh fuel).trace id) ∧
    (∀ (st : SchedState) (cur : String),
      (applyResult L.dependencies st cur TaskResult.RETRYABLE_FAILURE).completed =
        st.completed) := by
  have hinit : DrainInv L.dependencies L.tasks R
      ⟨get_ready_tasks (build_in_degree L.tasks L.dependencies) L.completed,
        build_in_degree L.tasks L.dependencies, L.completed, [], false⟩ := by
    rw [hc0]
    exact drainInv_init L.tasks L.dependencies R hnd htn hreg
  have hdrain := schedLoop_drain beh L.dependencies L.tasks R hnd htn hreg hbeh
    fuel
    ⟨get_ready_tasks (build_in_degree L.tasks L.dependencies) L.completed,
      build_in_degree L.tasks L.dependencies, L.completed, [], false⟩
    hinit rfl
    (by
      show (L.tasks.map (fun x => R x + 1)).sum + 1 ≤
        ([] : List (String × TaskResult)).length + fuel
      simpa using hfuel)
  obtain ⟨hqe, hcrf, hdinv⟩ := hdrain
  have hEq : L.execute_tasks beh fuel =
      schedLoop beh L.dependencies L.tasks fuel
        ⟨get_ready_tasks (build_in_degree L.tasks L.dependencies) L.completed,
          build_in_degree L.tasks L.dependencies, L.completed, [], false⟩ := rfl
  rw [hEq]
  refine ⟨hqe, hcrf, ?_, ?_, ?_, ?_⟩
  · intro fuel2 hle
    have hEq2 : L.execute_tasks beh fuel2 =
        schedLoop beh L.dependencies L.tasks fuel2
          ⟨get_ready_tasks (build_in_degree L.tasks L.dependencies) L.completed,
            build_in_degree L.tasks L.dependencies, L.completed, [], false⟩ := rfl
    rw [hEq2]
    have hsplit : fuel + (fuel2 - fuel) = fuel2 := by omega
    rw [← hsplit, schedLoop_add]
    exact schedLoop_nil _ _ _ _ _ hqe
  · intro id hid
    have hmem := drained_all_completed L.dependencies L.tasks R hnd hreg hacyc
      _ hdinv hqe id hid
    refine ⟨?_, ?_⟩
    · have h1 : 0 < (schedLoop beh L.dependencies L.tasks fuel
          ⟨get_ready_tasks (build_in_degree L.tasks L.dependencies) L.completed,
            build_in_degree L.tasks L.dependencies, L.completed, [], false⟩
          ).completed.count id :=
        List.count_pos_iff.mpr hmem
      have h2 := List.nodup_iff_count_le_one.mp hdinv.comp_nodup id
      omega
    · have h1 := hdinv.base.comp_term id hmem
      have h2 := hdinv.term_once id
      omega
  · intro id hid
    exact hdinv.base.comp_term id hid
  · intro st cur
    rfl

/-- Witness for C3: the two-task graph t1 → t2 with unconditional SUCCESS,
zero retry budget and fuel 3 drains the queue and completes both tasks
exactly once. -/
theorem claim_C3_witness :
    (Lifecycle.execute_tasks ⟨["t1", "t2"], [("t1", ["t2"])], []⟩
        (fun _ _ => TaskResult.SUCCESS) 3).queue = [] ∧
    (∀ id ∈ ["t1", "t2"],
      (Lifecycle.execute_tasks ⟨["t1", "t2"], [("t1", ["t2"])], []⟩
          (fun _ _ => TaskResult.SUCCESS) 3).completed.count id = 1 ∧
      countTerm (Lifecycle.execute_tasks ⟨["t1", "t2"], [("t1", ["t2"])], []⟩
          (fun _ _ => TaskResult.SUCCESS) 3).trace id = 1) := by
  obtain ⟨h1, h2, h3, h4, h5, h6⟩ :=
    claim_C3 ⟨["t1", "t2"], [("t1", ["t2"])], []⟩
      (fun _ _ => TaskResult.SUCCESS) (fun _ => 0)
      (by with_unfolding_all decide) (by with_unfolding_all decide) rfl
      (by with_unfolding_all decide)
      (rank_acyclic [("t1", ["t2"])] (fun s => if s = "t2" then 1 else 0)
        (by
          intro a b hb
          have hb2 : b ∈ depsOf [("t1", ["t2"])] a := hb
          unfold depsOf alookup at hb2
          by_cases h : "t1" = a
          · rw [if_pos h] at hb2
            have hb3 : b = "t2" := by simpa using hb2
            rw [hb3, ← h]
            with_unfolding_all decide
          · rw [if_neg h] at hb2
            simp [alookup] at hb2))
      (fun tr id h => TaskResult.noConfusion h)
      3 (by with_unfolding_all decide)
  exact ⟨h1, h4⟩

/-! Blacklist and reachability analysis of `find_path`. -/

/-- A walk in the adjacency structure from `a` to `b` through the node list
`ns` (each listed node is stepped onto through an adjacency record and is not
blacklisted). -/
def WalkTo (adj : List (String × List Edge)) (bl : List String) :
    String → String → List String → Prop
  | a, b, [] => a = b
  | a, b, c :: rest =>
    c ∉ bl ∧ (∃ es, alookup adj a = some es ∧ ∃ e ∈ es, e.to = c) ∧
      WalkTo adj bl c b rest

theorem walk_snoc (adj : List (String × List Edge)) (bl : List String)
    (src a c : String) (ws : List String) (hw : WalkTo adj bl src a ws)
    (es : List Edge) (hes : alookup adj a = some es) (e : Edge) (he : e ∈ es)
    (hc : e.to = c) (hbc : c ∉ bl) : WalkTo adj bl src c (ws ++ [c]) := by
  induction ws generalizing src with
  | nil =>
    have hsa : src = a := hw
    refine ⟨hbc, ⟨es, ?_, e, he, hc⟩, rfl⟩
    rw [hsa]
    exact hes
  | cons x ws ih =>
    obtain ⟨h1, h2, h3⟩ := hw
    exact ⟨h1, h2, ih x h3⟩

theorem popMin_mem : ∀ (l : List (ℚ × String)) (m : ℚ × String)
    (rest : List (ℚ × String)), popMin l = some (m, rest) →
    m ∈ l ∧ ∀ x ∈ rest, x ∈ l := by
  intro l
  induction l with
  | nil =>
    intro m rest h
    exact Option.noConfusion h
  | cons x xs ih =>
    intro m rest h
    unfold popMin at h
    cases hp : popMin xs with
    | none =>
      simp only [hp] at h
      injection h with h1
      have hm : x = m := congrArg Prod.fst h1
      have hr : ([] : List (ℚ × String)) = rest := congrArg Prod.snd h1
      constructor
      · rw [← hm]
        exact List.mem_cons_self _ _
      · intro y hy
        rw [← hr] at hy
        exact absurd hy (List.not_mem_nil y)
    | some mr =>
      obtain ⟨m0, rest0⟩ := mr
      simp only [hp] at h
      by_cases hlt : pairLt m0 x
      · rw [if_pos hlt] at h
        injection h with h1
        have hm : m0 = m := congrArg Prod.fst h1
        have hr : x :: rest0 = rest := congrArg Prod.snd h1
        obtain ⟨hm0, hsub0⟩ := ih m0 rest0 hp
        constructor
        · rw [← hm]
          exact List.mem_cons_of_mem _ hm0
        · intro y hy
          rw [← hr] at hy
          rcases List.mem_cons.mp hy with h2 | h2
          · rw [h2]
            exact List.mem_cons_self _ _
          · exact List.mem_cons_of_mem _ (hsub0 y h2)
      · rw [if_neg hlt] at h
        injection h with h1
        have hm : x = m := congrArg Prod.fst h1
        have hr : xs = rest := congrArg Prod.snd h1
        constructor
        · rw [← hm]
          exact List.mem_cons_self _ _
        · intro y hy
          rw [← hr] at hy
          exact List.mem_cons_of_mem _ hy

theorem mem_aset_elim {α : Type} (l : List (String × α)) (k : String) (v : α)
    (kv : String × α) (h : kv ∈ aset l k v) : kv ∈ l ∨ kv = (k, v) := by
  induction l with
  | nil =>
    simp [aset] at h
    exact Or.inr h
  | cons p rest ih =>
    obtain ⟨k0, v0⟩ := p
    by_cases hk : k0 = k
    · rw [show aset ((k0, v0) :: rest) k v = (k, v) :: rest by simp [aset, hk]] at h
      rcases List.mem_cons.mp h with h1 | h1
      · exact Or.inr h1
      · exact Or.inl (List.mem_cons_of_mem _ h1)
    · rw [show aset ((k0, v0) :: rest) k v = (k0, v0) :: aset rest k v by
        simp [aset, hk]] at h
      rcases List.mem_cons.mp h with h1 | h1
      · exact Or.inl (by rw [h1]; exact List.mem_cons_self _ _)
      · rcases ih h1 with h2 | h2
        · exact Or.inl (List.mem_cons_of_mem _ h2)
        · exact Or.inr h2

theorem relaxEdge_prev (bl : List String) (u : String) (d : ℚ) (st : DState)
    (e : Edge) :
    (relaxEdge bl u d st e).prev = st.prev ∨
      (e.to ∉ bl ∧ (relaxEdge bl u d st e).prev = aset st.prev e.to u) := by
  simp only [relaxEdge]
  split
  next hbl => exact Or.inl rfl
  next hbl =>
    split
    next himp => exact Or.inr ⟨hbl, rfl⟩
    next himp => exact Or.inl rfl

theorem relaxEdge_queue (bl : List String) (u : String) (d : ℚ) (st : DState)
    (e : Edge) :
    (relaxEdge bl u d st e).queue = st.queue ∨
      (e.to ∉ bl ∧
        (relaxEdge bl u d st e).queue = st.queue ++ [(d + e.weight, e.to)]) := by
  simp only [relaxEdge]
  split
  next hbl => exact Or.inl rfl
  next hbl =>
    split
    next himp => exact Or.inr ⟨hbl, rfl⟩
    next himp => exact Or.inl rfl

theorem relaxFold_prevOk (bl : List String) (u : String) (d : ℚ)
    (l : List Edge) :
    ∀ st : DState, (∀ kv ∈ st.prev, kv.1 ∉ bl ∧ kv.2 ∉ bl) → u ∉ bl →
      ∀ kv ∈ (l.foldl (relaxEdge bl u d) st).prev, kv.1 ∉ bl ∧ kv.2 ∉ bl := by
  induction l with
  | nil =>
    intro st hst _
    exact hst
  | cons e l ih =>
    intro st hst hu
    apply ih _ ?_ hu
    rcases relaxEdge_prev bl u d st e with h | ⟨hto, h⟩
    · rw [h]
      exact hst
    · rw [h]
      intro kv hkv
      rcases mem_aset_elim st.prev e.to u kv hkv with h1 | h1
      · exact hst kv h1
      · rw [h1]
        exact ⟨hto, hu⟩

/-- One unfolding of the main loop at positive fuel. -/
theorem dijkstraLoop_succ (adj : List (String × List Edge)) (tgt : String)
    (bl : List String) (fuel : Nat) (st : DState) :
    dijkstraLoop adj tgt bl (Nat.succ fuel) st =
      match popMin st.queue with
      | none => Except.ok st
      | some (du, rest) =>
        if du.2 = tgt then Except.ok { st with queue := rest }
        else if du.2 ∈ bl then
          dijkstraLoop adj tgt bl fuel { st with queue := rest }
        else
          match alookup adj du.2 with
          | none => Except.error ()
          | some es =>
            dijkstraLoop adj tgt bl fuel
              (es.foldl (relaxEdge bl du.2 du.1) { st with queue := rest }) := rfl

theorem dijkstraLoop_prevOk (adj : List (String × List Edge)) (tgt : String)
    (bl : List String) :
    ∀ (fuel : Nat) (st st' : DState),
      dijkstraLoop adj tgt bl fuel st = Except.ok st' →
      (∀ kv ∈ st.prev, kv.1 ∉ bl ∧ kv.2 ∉ bl) →
      ∀ kv ∈ st'.prev, kv.1 ∉ bl ∧ kv.2 ∉ bl := by
  intro fuel
  induction fuel with
  | zero =>
    intro st st' heq hst
    injection heq with h1
    rw [← h1]
    exact hst
  | succ fuel ih =>
    intro st st' heq hst
    rw [dijkstraLoop_succ] at heq
    cases hpop : popMin st.queue with
    | none =>
      simp only [hpop] at heq
      injection heq with h1
      rw [← h1]
      exact hst
    | some p =>
      obtain ⟨du, rest⟩ := p
      simp only [hpop] at heq
      by_cases htgt : du.2 = tgt
      · rw [if_pos htgt] at heq
        injection heq with h1
        rw [← h1]
        exact hst
      · rw [if_neg htgt] at heq
        by_cases hbl : du.2 ∈ bl
        · rw [if_pos hbl] at heq
          exact ih _ _ heq hst
        · rw [if_neg hbl] at heq
          cases hadj : alookup adj du.2 with
          | none =>
            simp only [hadj] at heq
            exact Except.noConfusion heq
          | some es =>
            simp only [hadj] at heq
            exact ih _ _ heq (relaxFold_prevOk bl du.2 du.1 es
              { st with queue := rest } hst hbl)

theorem relaxFold_dinv (adj : List (String × List Edge)) (bl : List String)
    (src u : String) (d : ℚ) (es0 : List Edge)
    (hadj : ∀ p ∈ adj, ∀ e ∈ p.2, (alookup adj e.to).isSome)
    (hu_adj : alookup adj u = some es0) (hu : u ∉ bl)
    (huw : ∃ ws, WalkTo adj bl src u ws) :
    ∀ l : List Edge, (∀ e ∈ l, e ∈ es0) → ∀ st : DState,
      (∀ kv ∈ st.prev, ∃ ws, WalkTo adj bl src kv.1 ws) →
      (∀ x ∈ st.queue, (∃ ws, WalkTo adj bl src x.2 ws) ∧
        (alookup adj x.2).isSome) →
      ((∀ kv ∈ (l.foldl (relaxEdge bl u d) st).prev,
          ∃ ws, WalkTo adj bl src kv.1 ws) ∧
        (∀ x ∈ (l.foldl (relaxEdge bl u d) st).queue,
          (∃ ws, WalkTo adj bl src x.2 ws) ∧ (alookup adj x.2).isSome)) := by
  intro l
  induction l with
  | nil =>
    intro _ st h1 h2
    exact ⟨h1, h2⟩
  | cons e l ih =>
    intro hsub st h1 h2
    have he0 : e ∈ es0 := hsub e (List.mem_cons_self _ _)
    have hwalk_eto : e.to ∉ bl → ∃ ws, WalkTo adj bl src e.to ws := by
      intro hnb
      obtain ⟨ws, hws⟩ := huw
      exact ⟨ws ++ [e.to], walk_snoc adj bl src u e.to ws hws es0 hu_adj e he0
        rfl hnb⟩
    have hbucket : (alookup adj e.to).isSome :=
      hadj (u, es0) (mem_of_alookup_eq_some hu_adj) e he0
    apply ih (fun e2 h => hsub e2 (List.mem_cons_of_mem _ h))
    · rcases relaxEdge_prev bl u d st e with h | ⟨hto, h⟩
      · rw [h]
        exact h1
      · rw [h]
        intro kv hkv
        rcases mem_aset_elim st.prev e.to u kv hkv with hk | hk
        · exact h1 kv hk
        · rw [hk]
          exact hwalk_eto hto
    · rcases relaxEdge_queue bl u d st e with h | ⟨hto, h⟩
      · rw [h]
        exact h2
      · rw [h]
        intro x hx
        rcases List.mem_append.mp hx with hx1 | hx1
        · exact h2 x hx1
        · have hxe : x = (d + e.weight, e.to) := by simpa using hx1
          rw [hxe]
          exact ⟨hwalk_eto hto, hbucket⟩

theorem dijkstraLoop_reach (adj : List (String × List Edge)) (tgt : String)
    (bl : List String) (src : String)
    (hadj : ∀ p ∈ adj, ∀ e ∈ p.2, (alookup adj e.to).isSome) :
    ∀ (fuel : Nat) (st : DState),
      (∀ kv ∈ st.prev, ∃ ws, WalkTo adj bl src kv.1 ws) →
      (∀ x ∈ st.queue, (∃ ws, WalkTo adj bl src x.2 ws) ∧
        (alookup adj x.2).isSome) →
      ∃ st', dijkstraLoop adj tgt bl fuel st = Except.ok st' ∧
        ∀ kv ∈ st'.prev, ∃ ws, WalkTo adj bl src kv.1 ws := by
  intro fuel
  induction fuel with
  | zero =>
    intro st h1 h2
    exact ⟨st, rfl, h1⟩
  | succ fuel ih =>
    intro st h1 h2
    rw [dijkstraLoop_succ]
    cases hpop : popMin st.queue with
    | none =>
      simp only [hpop]
      exact ⟨st, rfl, h1⟩
    | some p =>
      obtain ⟨du, rest⟩ := p
      have hmem := popMin_mem st.queue du rest hpop
      simp only [hpop]
      by_cases htgt : du.2 = tgt
      · rw [if_pos htgt]
        exact ⟨_, rfl, h1⟩
      · rw [if_neg htgt]
        by_cases hbl : du.2 ∈ bl
        · rw [if_pos hbl]
          exact ih _ h1 (fun x hx => h2 x (hmem.2 x hx))
        · rw [if_neg hbl]
          have hdu := h2 du hmem.1
          obtain ⟨es, hes⟩ := Option.isSome_iff_exists.mp hdu.2
          simp only [hes]
          obtain ⟨hp', hq'⟩ := relaxFold_dinv adj bl src du.2 du.1 es hadj hes
            hbl hdu.1 es (fun e h => h) { st with queue := rest } h1
            (fun x hx => h2 x (hmem.2 x hx))
          exact ih _ hp' hq'

/-- One unfolding of the reconstruction loop away from the source. -/
theorem reconstruct_step (adj : List (String × List Edge)) (src : String)
    (fuel : Nat) (cur : String) (prev : List (String × String))
    (acc : List Edge) (hne : cur ≠ src) :
    reconstruct adj src (Nat.succ fuel) cur prev acc =
      match alookup adj (findOrInsert prev cur "").1 with
      | none => Except.error ()
      | some es =>
        match es.find? (fun e => e.to = cur) with
        | none => Except.ok none
        | some e => reconstruct adj src fuel (findOrInsert prev cur "").1
            (findOrInsert prev cur "").2 (acc ++ [e]) := by
  conv_lhs => rw [reconstruct]
  rw [if_neg hne]

theorem alookup_none_of_keys (bl : List String)
    (prev : List (String × String)) (c : String)
    (hk : ∀ kv ∈ prev, kv.1 ∉ bl) (hc : c ∈ bl) : alookup prev c = none := by
  cases h : alookup prev c with
  | none => rfl
  | some v =>
    exfalso
    exact hk (c, v) (mem_of_alookup_eq_some h) hc

theorem reconstruct_stuck (adj : List (String × List Edge)) (src c : String)
    (hcs : c ≠ src) :
    ∀ (fuel : Nat) (prev : List (String × String)) (acc : List Edge),
      (alookup prev c).getD "" = c →
      ∀ path, reconstruct adj src fuel c prev acc ≠ Except.ok (some path) := by
  intro fuel
  induction fuel with
  | zero =>
    intro prev acc h path hcon
    exact Except.noConfusion hcon
  | succ fuel ih =>
    intro prev acc h path hcon
    rw [reconstruct_step adj src fuel c prev acc hcs] at hcon
    have hp1 : (findOrInsert prev c "").1 = c := by
      rw [findOrInsert_fst]
      exact h
    rw [hp1] at hcon
    cases hadj : alookup adj c with
    | none =>
      simp only [hadj] at hcon
      exact Except.noConfusion hcon
    | some es =>
      simp only [hadj] at hcon
      cases hfind : es.find? (fun e => e.to = c) with
      | none =>
        simp only [hfind] at hcon
        injection hcon with h1
        exact Option.noConfusion h1
      | some e =>
        simp only [hfind] at hcon
        refine ih _ _ ?_ path hcon
        rw [alookup_findOrInsert_snd', if_pos rfl]
        simp [h]

theorem reconstruct_black (adj : List (String × List Edge)) (src : String)
    (bl : List String) :
    ∀ (fuel : Nat) (cur : String) (prev : List (String × String))
      (acc : List Edge),
      (∀ kv ∈ prev, kv.1 ∉ bl) →
      (∀ kv ∈ prev, kv.2 ∉ bl ∨ kv.2 = src) →
      (cur ∉ bl ∨ cur = src) →
      (∀ e ∈ acc, e.to ∉ bl) →
      ∀ path, reconstruct adj src fuel cur prev acc = Except.ok (some path) →
        ∀ e ∈ path, e.to ∉ bl := by
  intro fuel
  induction fuel with
  | zero =>
    intro cur prev acc _ _ _ _ path hcon
    exact absurd hcon (fun hcon2 => Except.noConfusion hcon2)
  | succ fuel ih =>
    intro cur prev acc hk hv hcur hacc path hcon e he
    by_cases hsrc : cur = src
    · have hthis : reconstruct adj src (Nat.succ fuel) cur prev acc =
          Except.ok (some acc.reverse) := by
        unfold reconstruct
        rw [if_pos hsrc]
      rw [hthis] at hcon
      injection hcon with h1
      injection h1 with h2
      rw [← h2] at he
      exact hacc e (List.mem_reverse.mp he)
    · have hcur2 : cur ∉ bl := hcur.resolve_right hsrc
      rw [reconstruct_step adj src fuel cur prev acc hsrc] at hcon
      cases hadjl : alookup adj (findOrInsert prev cur "").1 with
      | none =>
        simp only [hadjl] at hcon
        exact Except.noConfusion hcon
      | some es =>
        simp only [hadjl] at hcon
        cases hfind : es.find? (fun e2 => e2.to = cur) with
        | none =>
          simp only [hfind] at hcon
          injection hcon with h1
          exact Option.noConfusion h1
        | some e2 =>
          simp only [hfind] at hcon
          have he2 : e2.to = cur := by
            have hfs := List.find?_some hfind
            simpa using hfs
          have hk' : ∀ kv ∈ (findOrInsert prev cur "").2, kv.1 ∉ bl := by
            intro kv hkv
            unfold findOrInsert at hkv
            cases hl : alookup prev cur with
            | some v =>
              rw [hl] at hkv
              exact hk kv hkv
            | none =>
              rw [hl] at hkv
              rcases List.mem_append.mp hkv with h1 | h1
              · exact hk kv h1
              · have hkvE : kv = (cur, "") := by simpa using h1
                rw [hkvE]
                exact hcur2
          have hacc' : ∀ e3 ∈ acc ++ [e2], e3.to ∉ bl := by
            intro e3 h3
            rcases List.mem_append.mp h3 with h1 | h1
            · exact hacc e3 h1
            · have h2 : e3 = e2 := by simpa using h1
              rw [h2, he2]
              exact hcur2
          cases hl : alookup prev cur with
          | some v =>
            have hp1 : (findOrInsert prev cur "").1 = v := by
              rw [findOrInsert_fst, hl]
              rfl
            have hp2 : (findOrInsert prev cur "").2 = prev := by
              unfold findOrInsert
              rw [hl]
            have hvin : (cur, v) ∈ prev := mem_of_alookup_eq_some hl
            have hcv : v ∉ bl ∨ v = src := hv (cur, v) hvin
            refine ih (findOrInsert prev cur "").1 (findOrInsert prev cur "").2
              (acc ++ [e2]) hk' ?_ ?_ hacc' path hcon e he
            · rw [hp2]
              exact hv
            · rw [hp1]
              exact hcv
          | none =>
            have hp1 : (findOrInsert prev cur "").1 = "" := by
              rw [findOrInsert_fst, hl]
              rfl
            by_cases hempty : ("" : String) ∉ bl ∨ ("" : String) = src
            · have hv' : ∀ kv ∈ (findOrInsert prev cur "").2,
                  kv.2 ∉ bl ∨ kv.2 = src := by
                intro kv hkv
                unfold findOrInsert at hkv
                rw [hl] at hkv
                rcases List.mem_append.mp hkv with h1 | h1
                · exact hv kv h1
                · have hkvE : kv = (cur, "") := by simpa using h1
                  rw [hkvE]
                  exact hempty
              refine ih (findOrInsert prev cur "").1 (findOrInsert prev cur "").2
                (acc ++ [e2]) hk' hv' ?_ hacc' path hcon e he
              rw [hp1]
              exact hempty
            · push_neg at hempty
              exfalso
              have hene : ("" : String) ≠ cur := by
                intro h0
                rw [← h0] at hcur2
                exact hcur2 hempty.1
              have halo : (alookup (findOrInsert prev cur "").2 "").getD "" =
                  "" := by
                rw [alookup_findOrInsert_snd', if_neg hene]
                rw [alookup_none_of_keys bl prev "" hk hempty.1]
                rfl
              have hcon2 : reconstruct adj src fuel ""
                  (findOrInsert prev cur "").2 (acc ++ [e2]) =
                  Except.ok (some path) := by
                rw [hp1] at hcon
                exact hcon
              exact reconstruct_stuck adj src "" hempty.2 fuel
                (findOrInsert prev cur "").2 (acc ++ [e2]) halo path hcon2

theorem find_path_blacklist (g : Navigation) (tgt : String) (bl : List String)
    (path : List Edge) (h : g.find_path tgt bl = Except.ok (some path)) :
    tgt ∉ bl ∧ ∀ e ∈ path, e.to ∉ bl := by
  obtain ⟨adj, types, cur⟩ := g
  cases cur with
  | none =>
    have h2 : Navigation.find_path ⟨adj, types, none⟩ tgt bl =
        Except.ok none := rfl
    rw [h2] at h
    injection h with h1
    exact Option.noConfusion h1
  | some src =>
    have hun : Navigation.find_path ⟨adj, types, some src⟩ tgt bl =
        (match dijkstraLoop adj tgt bl (totalEdgeCount adj + adj.length + 2)
            ⟨[((0 : ℚ), src)],
              aset (adj.map (fun p => (p.1, (⊤ : WithTop ℚ)))) src
                ((0 : ℚ) : WithTop ℚ), []⟩ with
        | Except.error _ => Except.error ()
        | Except.ok st =>
          match alookup st.prev tgt with
          | none => Except.ok none
          | some _ =>
            reconstruct adj src (st.prev.length + 1) tgt st.prev []) := rfl
    rw [hun] at h
    cases hloop : dijkstraLoop adj tgt bl (totalEdgeCount adj + adj.length + 2)
        ⟨[((0 : ℚ), src)],
          aset (adj.map (fun p => (p.1, (⊤ : WithTop ℚ)))) src
            ((0 : ℚ) : WithTop ℚ), []⟩ with
    | error u =>
      simp only [hloop] at h
      exact Except.noConfusion h
    | ok st' =>
      simp only [hloop] at h
      have hPO : ∀ kv ∈ st'.prev, kv.1 ∉ bl ∧ kv.2 ∉ bl :=
        dijkstraLoop_prevOk adj tgt bl _ _ _ hloop
          (fun kv hkv => absurd hkv (List.not_mem_nil kv))
      cases hlp : alookup st'.prev tgt with
      | none =>
        simp only [hlp] at h
        injection h with h1
        exact Option.noConfusion h1
      | some v =>
        simp only [hlp] at h
        have htgtbl : tgt ∉ bl := (hPO (tgt, v) (mem_of_alookup_eq_some hlp)).1
        refine ⟨htgtbl, ?_⟩
        intro e he
        exact reconstruct_black adj src bl (st'.prev.length + 1) tgt st'.prev []
          (fun kv hkv => (hPO kv hkv).1)
          (fun kv hkv => Or.inl (hPO kv hkv).2)
          (Or.inl htgtbl)
          (fun e2 h2 => absurd h2 (List.not_mem_nil e2))
          path h e he

theorem find_path_unreachable (g : Navigation) (tgt : String) (bl : List String)
    (src : String) (hsrc : g.current_node = some src)
    (hadj : ∀ p ∈ g.adjacency_list, ∀ e ∈ p.2,
      (alookup g.adjacency_list e.to).isSome)
    (hsb : (alookup g.adjacency_list src).isSome)
    (hnow : ¬ ∃ ws, WalkTo g.adjacency_list bl src tgt ws) :
    g.find_path tgt bl = Except.ok none := by
  obtain ⟨adj, types, cur⟩ := g
  have hc : cur = some src := hsrc
  subst hc
  obtain ⟨st', heq, hreach⟩ := dijkstraLoop_reach adj tgt bl src hadj
    (totalEdgeCount adj + adj.length + 2)
    ⟨[((0 : ℚ), src)],
      aset (adj.map (fun p => (p.1, (⊤ : WithTop ℚ)))) src
        ((0 : ℚ) : WithTop ℚ), []⟩
    (fun kv hkv => absurd hkv (List.not_mem_nil kv))
    (by
      intro x hx
      have hxe : x = ((0 : ℚ), src) := by simpa using hx
      rw [hxe]
      exact ⟨⟨[], rfl⟩, hsb⟩)
  cases hlp : alookup st'.prev tgt with
  | some v =>
    exfalso
    exact hnow (hreach (tgt, v) (mem_of_alookup_eq_some hlp))
  | none =>
    simp only [Navigation.find_path, heq, hlp]

/-- C6: `find_path` returns "no path" unconditionally when the current node
is unset; every returned path avoids the blacklist entirely (the target
itself included); an unreachable target under the blacklist exclusion yields
"no path" (on a graph whose edge targets and source all have adjacency
buckets, as the construction API guarantees); and on the spec example graph,
blacklisting C reroutes A → D to [A→B, B→D] with total weight 1 + 5 = 6. -/
theorem claim_C6 :
    (∀ (g : Navigation) (tgt : String) (bl : List String),
      g.current_node = none → g.find_path tgt bl = Except.ok none) ∧
    (∀ (g : Navigation) (tgt : String) (bl : List String) (path : List Edge),
      g.find_path tgt bl = Except.ok (some path) →
        tgt ∉ bl ∧ ∀ e ∈ path, e.to ∉ bl) ∧
    (∀ (g : Navigation) (tgt src : String) (bl : List String),
      g.current_node = some src →
      (∀ p ∈ g.adjacency_list, ∀ e ∈ p.2,
        (alookup g.adjacency_list e.to).isSome) →
      (alookup g.adjacency_list src).isSome →
      (¬ ∃ ws, WalkTo g.adjacency_list bl src tgt ws) →
      g.find_path tgt bl = Except.ok none) ∧
    exampleGraph.find_path "D" ["C"] =
      Except.ok (some
        [⟨"B", 1, Direction.EAST, false, true, false, false⟩,
          ⟨"D", 5, Direction.NORTH, false, false, false, false⟩]) ∧
    ((1 : ℚ) + 5 = 6) := by
  refine ⟨?_, ?_, ?_, ?_, by norm_num⟩
  · intro g tgt bl hcur
    obtain ⟨adj, types, cur⟩ := g
    have hc : cur = none := hcur
    subst hc
    rfl
  · intro g tgt bl path h
    exact find_path_blacklist g tgt bl path h
  · intro g tgt src bl hsrc hadj hsb hnow
    exact find_path_unreachable g tgt bl src hsrc hadj hsb hnow
  · with_unfolding_all decide

/-- Witness for C6: the default-constructed graph has no current node, so
`find_path` reports "no path". -/
theorem claim_C6_witness :
    Navigation.find_path {} "D" ["C"] = Except.ok none :=
  claim_C6.1 {} "D" ["C"] rfl

/-! Shortest-path analysis of `find_path` with an empty blacklist. -/

/-- The tentative distance of a node as `find_path` reads it (`⊤` models the
`float` infinity stored for unreached nodes, and also a missing key). -/
def distVal (st : DState) (x : String) : WithTop ℚ :=
  (alookup st.dist x).getD ⊤

/-- Total weight of an edge sequence. -/
def pathWeight (P : List Edge) : ℚ :=
  (P.map Edge.weight).sum

/-- `IsPath adj a b P`: the edge sequence `P` leads from `a` to `b`, each
edge taken from the adjacency bucket of the node it leaves. -/
def IsPath (adj : List (String × List Edge)) : String → String → List Edge → Prop
  | a, b, [] => a = b
  | a, b, e :: rest => e ∈ aget adj a ∧ IsPath adj e.to b rest

instance IsPath.instDecidable (adj : List (String × List Edge)) :
    ∀ (a b : String) (P : List Edge), Decidable (IsPath adj a b P)
  | a, b, [] => decidable_of_iff (a = b) Iff.rfl
  | a, b, e :: rest =>
    have : Decidable (IsPath adj e.to b rest) := IsPath.instDecidable adj e.to b rest
    decidable_of_iff (e ∈ aget adj a ∧ IsPath adj e.to b rest) Iff.rfl

theorem mem_aget_elim (adj : List (String × List Edge)) (x : String) (e : Edge)
    (h : e ∈ aget adj x) : ∃ es, alookup adj x = some es ∧ e ∈ es := by
  unfold aget at h
  cases hl : alookup adj x with
  | none =>
    rw [hl] at h
    exact absurd h (List.not_mem_nil e)
  | some es =>
    rw [hl] at h
    exact ⟨es, rfl, h⟩

theorem aget_of_alookup (adj : List (String × List Edge)) (x : String)
    (es : List Edge) (h : alookup adj x = some es) : aget adj x = es := by
  unfold aget
  rw [h]
  rfl

theorem pathWeight_nil : pathWeight [] = 0 := rfl

theorem pathWeight_cons (e : Edge) (P : List Edge) :
    pathWeight (e :: P) = e.weight + pathWeight P := by
  unfold pathWeight
  rw [List.map_cons, List.sum_cons]

theorem pathWeight_snoc (P : List Edge) (e : Edge) :
    pathWeight (P ++ [e]) = pathWeight P + e.weight := by
  unfold pathWeight
  rw [List.map_append, List.sum_append]
  simp

theorem pathWeight_nonneg (adj : List (String × List Edge))
    (hw : ∀ p ∈ adj, ∀ e ∈ p.2, 0 ≤ e.weight) :
    ∀ (P : List Edge) (a b : String), IsPath adj a b P → 0 ≤ pathWeight P := by
  intro P
  induction P with
  | nil =>
    intro a b _
    rw [pathWeight_nil]
  | cons e rest ih =>
    intro a b hP
    obtain ⟨he, hrest⟩ := hP
    obtain ⟨es, hes, hein⟩ := mem_aget_elim adj a e he
    have hw0 : 0 ≤ e.weight := hw (a, es) (mem_of_alookup_eq_some hes) e hein
    rw [pathWeight_cons]
    have := ih e.to b hrest
    linarith

theorem IsPath_snoc_mk (adj : List (String × List Edge)) :
    ∀ (P : List Edge) (a x : String), IsPath adj a x P → ∀ e ∈ aget adj x,
      IsPath adj a e.to (P ++ [e]) := by
  intro P
  induction P with
  | nil =>
    intro a x hP e he
    have hax : a = x := hP
    rw [List.nil_append]
    exact ⟨hax ▸ he, rfl⟩
  | cons e0 rest ih =>
    intro a x hP e he
    obtain ⟨h1, h2⟩ := hP
    exact ⟨h1, ih e0.to x h2 e he⟩

theorem IsPath_snoc_elim (adj : List (String × List Edge)) :
    ∀ (P : List Edge) (a y : String) (e : Edge),
      IsPath adj a y (P ++ [e]) →
      ∃ x, IsPath adj a x P ∧ e ∈ aget adj x ∧ e.to = y := by
  intro P
  induction P with
  | nil =>
    intro a y e hP
    rw [List.nil_append] at hP
    obtain ⟨h1, h2⟩ := hP
    exact ⟨a, rfl, h1, h2⟩
  | cons e0 rest ih =>
    intro a y e hP
    obtain ⟨h1, h2⟩ := hP
    obtain ⟨x, hx1, hx2, hx3⟩ := ih e0.to y e h2
    exact ⟨x, ⟨h1, hx1⟩, hx2, hx3⟩

theorem popMin_none : ∀ (l : List (ℚ × String)), popMin l = none → l = [] := by
  intro l
  cases l with
  | nil =>
    intro _
    rfl
  | cons x xs =>
    intro h
    unfold popMin at h
    cases hp : popMin xs with
    | none => simp [hp] at h
    | some mr =>
      obtain ⟨a, b⟩ := mr
      simp only [hp] at h
      split at h <;> exact Option.noConfusion h

theorem popMin_perm : ∀ (l : List (ℚ × String)) (m : ℚ × String)
    (rest : List (ℚ × String)), popMin l = some (m, rest) →
    l.Perm (m :: rest) := by
  intro l
  induction l with
  | nil =>
    intro m rest h
    exact Option.noConfusion h
  | cons x xs ih =>
    intro m rest h
    unfold popMin at h
    cases hp : popMin xs with
    | none =>
      simp only [hp] at h
      injection h with h1
      have hm : x = m := congrArg Prod.fst h1
      have hr : ([] : List (ℚ × String)) = rest := congrArg Prod.snd h1
      have hxs : xs = [] := popMin_none xs hp
      rw [← hm, ← hr, hxs]
    | some mr =>
      obtain ⟨m0, rest0⟩ := mr
      simp only [hp] at h
      by_cases hlt : pairLt m0 x
      · rw [if_pos hlt] at h
        injection h with h1
        have hm : m0 = m := congrArg Prod.fst h1
        have hr : x :: rest0 = rest := congrArg Prod.snd h1
        have hperm := ih m0 rest0 hp
        rw [← hm, ← hr]
        exact (hperm.cons x).trans (List.Perm.swap m0 x rest0)
      · rw [if_neg hlt] at h
        injection h with h1
        have hm : x = m := congrArg Prod.fst h1
        have hr : xs = rest := congrArg Prod.snd h1
        rw [← hm, ← hr]


theorem popMin_min : ∀ (l : List (ℚ × String)) (m : ℚ × String)
    (rest : List (ℚ × String)), popMin l = some (m, rest) →
    ∀ x ∈ l, m.1 ≤ x.1 := by
  intro l
  induction l with
  | nil =>
    intro m rest h
    exact Option.noConfusion h
  | cons x xs ih =>
    intro m rest h y hy
    unfold popMin at h
    cases hp : popMin xs with
    | none =>
      simp only [hp] at h
      injection h with h1
      have hm : x = m := congrArg Prod.fst h1
      have hxs : xs = [] := popMin_none xs hp
      rw [hxs] at hy
      have hyx : y = x := by simpa using hy
      rw [hyx, ← hm]
    | some mr =>
      obtain ⟨m0, rest0⟩ := mr
      simp only [hp] at h
      by_cases hlt : pairLt m0 x
      · rw [if_pos hlt] at h
        injection h with h1
        have hm : m0 = m := congrArg Prod.fst h1
        rcases List.mem_cons.mp hy with h2 | h2
        · have hle : m0.1 ≤ x.1 := by
            rcases hlt with h3 | h3
            · exact le_of_lt h3
            · exact le_of_eq h3.1
          rw [← hm, h2]
          exact hle
        · rw [← hm]
          exact ih m0 rest0 hp y h2
      · rw [if_neg hlt] at h
        injection h with h1
        have hm : x = m := congrArg Prod.fst h1
        unfold pairLt at hlt
        push_neg at hlt
        have hxm : x.1 ≤ m0.1 := hlt.1
        rcases List.mem_cons.mp hy with h2 | h2
        · rw [← hm, h2]
        · have := ih m0 rest0 hp y h2
          rw [← hm]
          exact le_trans hxm this

theorem distVal_le_coe_elim (st : DState) (x : String) (w : ℚ)
    (h : distVal st x ≤ ((w : ℚ) : WithTop ℚ)) :
    ∃ v : ℚ, alookup st.dist x = some ((v : ℚ) : WithTop ℚ) ∧ v ≤ w := by
  unfold distVal at h
  cases hl : alookup st.dist x with
  | none =>
    rw [hl] at h
    simp at h
  | some t =>
    rw [hl] at h
    induction t using WithTop.recTopCoe with
    | top => simp at h
    | coe v =>
      refine ⟨v, rfl, ?_⟩
      simpa using h

/-- The graph of the C1 counterexample: two parallel edges A → B with weights
5 (inserted first) and 1, current node A. -/
def parallelNav : Navigation :=
  let g := (Navigation.add_node {} "A" NodeType.PRIMARY).1
  let g := (g.add_node "B" NodeType.PRIMARY).1
  let g := (g.add_edge "A" "B" 5 Direction.EAST).1
  ((g.add_edge "A" "B" 1 Direction.NORTH).1).set_node (some "A")

/-- Counterexample to C1 as stated: on the graph with two parallel edges
A → B of weights 5 and 1 (both inserted by successful `add_edge` calls, with
the current node set and B reachable), `find_path(B)` returns the single
weight-5 record, although a one-edge path of weight 1 exists — the
reconstruction picks the first adjacency record pointing at each node, not
the one the distance relaxation used. -/
theorem claim_C1_counterexample :
    parallelNav.current_node = some "A" ∧
    parallelNav.find_path "B" [] =
      Except.ok (some [⟨"B", 5, Direction.EAST, false, false, false, false⟩]) ∧
    IsPath parallelNav.adjacency_list "A" "B"
      [⟨"B", 1, Direction.NORTH, false, false, false, false⟩] ∧
    pathWeight [(⟨"B", 1, Direction.NORTH, false, false, false, false⟩ : Edge)] <
      pathWeight [(⟨"B", 5, Direction.EAST, false, false, false, false⟩ : Edge)] := by
  refine ⟨?_, ?_, ?_, ?_⟩
  · with_unfolding_all decide
  · with_unfolding_all decide
  · with_unfolding_all decide
  · with_unfolding_all decide

theorem relaxEdge_eq_of_key (u : String) (d : ℚ) (st : DState) (e : Edge)
    (hkey : (alookup st.dist e.to).isSome) :
    relaxEdge [] u d st e =
      if ((d + e.weight : ℚ) : WithTop ℚ) < distVal st e.to then
        ⟨st.queue ++ [(d + e.weight, e.to)],
          aset st.dist e.to ((d + e.weight : ℚ) : WithTop ℚ),
          aset st.prev e.to u⟩
      else st := by
  obtain ⟨t, ht⟩ := Option.isSome_iff_exists.mp hkey
  have hfi : findOrInsert st.dist e.to ((0 : ℚ) : WithTop ℚ) = (t, st.dist) :=
    findOrInsert_of_some _ ht
  have hdv : distVal st e.to = t := by
    unfold distVal
    rw [ht]
    rfl
  simp only [relaxEdge, hfi]
  rw [if_neg (List.not_mem_nil e.to), hdv]

theorem mem_aset_elim_nodup {α : Type} (l : List (String × α)) (k : String)
    (v : α) (hnd : (l.map Prod.fst).Nodup) (kv : String × α)
    (h : kv ∈ aset l k v) : (kv ∈ l ∧ kv.1 ≠ k) ∨ kv = (k, v) := by
  induction l with
  | nil =>
    simp [aset] at h
    exact Or.inr h
  | cons p rest ih =>
    obtain ⟨k0, v0⟩ := p
    rw [List.map_cons, List.nodup_cons] at hnd
    by_cases hk : k0 = k
    · rw [show aset ((k0, v0) :: rest) k v = (k, v) :: rest by simp [aset, hk]] at h
      rcases List.mem_cons.mp h with h1 | h1
      · exact Or.inr h1
      · left
        refine ⟨List.mem_cons_of_mem _ h1, ?_⟩
        intro hq
        apply hnd.1
        rw [hk, ← hq]
        have hf := List.mem_map_of_mem Prod.fst h1
        exact hf
    · rw [show aset ((k0, v0) :: rest) k v = (k0, v0) :: aset rest k v by
        simp [aset, hk]] at h
      rcases List.mem_cons.mp h with h1 | h1
      · left
        refine ⟨by rw [h1]; exact List.mem_cons_self _ _, ?_⟩
        rw [h1]
        exact hk
      · rcases ih hnd.2 h1 with ⟨h2, h3⟩ | h2
        · exact Or.inl ⟨List.mem_cons_of_mem _ h2, h3⟩
        · exact Or.inr h2

/-- Number of adjacency records in the bucket not yet "used" at lower bound
`lb`: their relaxation at a pop of value `lb` would still improve the stored
distance. The loop's termination measure. -/
def unusedCount (lb : ℚ) (st : DState) (es : List Edge) : Nat :=
  es.countP (fun e =>
    decide (¬ distVal st e.to ≤ ((lb + e.weight : ℚ) : WithTop ℚ)))

def countUnused (adj : List (String × List Edge)) (lb : ℚ) (st : DState) : Nat :=
  (adj.map (fun p => unusedCount lb st p.2)).sum

theorem unusedCount_mono (lb : ℚ) (s s' : DState) (es : List Edge)
    (h : ∀ y, distVal s' y ≤ distVal s y) :
    unusedCount lb s' es ≤ unusedCount lb s es := by
  unfold unusedCount
  apply List.countP_mono_left
  intro e _
  simp only [decide_eq_true_eq]
  intro hcon hcon2
  exact hcon (le_trans (h e.to) hcon2)

theorem countUnused_mono (adj : List (String × List Edge)) (lb : ℚ)
    (s s' : DState) (h : ∀ y, distVal s' y ≤ distVal s y) :
    countUnused adj lb s' ≤ countUnused adj lb s := by
  unfold countUnused
  apply List.sum_le_sum
  intro p _
  exact unusedCount_mono lb s s' p.2 h

theorem countUnused_anti (adj : List (String × List Edge)) (lb d : ℚ)
    (st : DState) (hld : lb ≤ d) :
    countUnused adj d st ≤ countUnused adj lb st := by
  unfold countUnused
  apply List.sum_le_sum
  intro p _
  unfold unusedCount
  apply List.countP_mono_left
  intro e _
  simp only [decide_eq_true_eq]
  intro hcon hcon2
  apply hcon
  refine le_trans hcon2 ?_
  rw [WithTop.coe_le_coe]
  linarith

theorem countP_strict {α : Type} (p p' : α → Bool) :
    ∀ l : List α, (∀ a ∈ l, p' a = true → p a = true) → ∀ e ∈ l,
      p e = true → p' e = false → l.countP p' + 1 ≤ l.countP p := by
  intro l
  induction l with
  | nil =>
    intro _ e he
    exact absurd he (List.not_mem_nil e)
  | cons a l ih =>
    intro hsub e he hpe hp'e
    have hmono : l.countP p' ≤ l.countP p :=
      List.countP_mono_left (fun a2 ha2 => hsub a2 (List.mem_cons_of_mem _ ha2))
    rw [List.countP_cons, List.countP_cons]
    rcases List.mem_cons.mp he with h1 | h1
    · have hx1 : (if p' a = true then 1 else 0) = 0 := by
        rw [← h1, hp'e]
        simp
      have hx2 : (if p a = true then 1 else 0) = 1 := by
        rw [← h1, hpe]
        simp
      rw [hx1, hx2]
      omega
    · have hrec := ih (fun a2 ha2 => hsub a2 (List.mem_cons_of_mem _ ha2)) e h1 hpe hp'e
      have hcase : (if p' a = true then 1 else 0) ≤ (if p a = true then 1 else 0) := by
        by_cases hpa' : p' a = true
        · rw [if_pos hpa', if_pos (hsub a (List.mem_cons_self _ _) hpa')]
        · rw [if_neg hpa']
          exact Nat.zero_le _
      have hg1 : l.countP p' + (if p' a = true then 1 else 0) + 1 =
          (l.countP p' + 1) + (if p' a = true then 1 else 0) := by ring
      rw [hg1]
      exact Nat.add_le_add hrec hcase

theorem countUnused_strict (adj : List (String × List Edge)) (lb : ℚ)
    (s s' : DState) (u : String) (es : List Edge)
    (hes : alookup adj u = some es) (e : Edge) (he : e ∈ es)
    (hmono : ∀ y, distVal s' y ≤ distVal s y)
    (hbefore : ¬ distVal s e.to ≤ ((lb + e.weight : ℚ) : WithTop ℚ))
    (hafter : distVal s' e.to ≤ ((lb + e.weight : ℚ) : WithTop ℚ)) :
    countUnused adj lb s' + 1 ≤ countUnused adj lb s := by
  obtain ⟨l1, l2, hsplit⟩ := List.append_of_mem (mem_of_alookup_eq_some hes)
  unfold countUnused
  rw [hsplit, List.map_append, List.map_cons, List.sum_append, List.sum_cons,
    List.map_append, List.map_cons, List.sum_append, List.sum_cons]
  simp only []
  have h1 : (l1.map (fun p => unusedCount lb s' p.2)).sum ≤
      (l1.map (fun p => unusedCount lb s p.2)).sum :=
    List.sum_le_sum (fun p _ => unusedCount_mono lb s s' p.2 hmono)
  have h2 : (l2.map (fun p => unusedCount lb s' p.2)).sum ≤
      (l2.map (fun p => unusedCount lb s p.2)).sum :=
    List.sum_le_sum (fun p _ => unusedCount_mono lb s s' p.2 hmono)
  have h3 : unusedCount lb s' es + 1 ≤ unusedCount lb s es := by
    unfold unusedCount
    exact countP_strict _ _ es
      (by
        intro a _
        simp only [decide_eq_true_eq]
        intro hcon hcon2
        exact hcon (le_trans (hmono a.to) hcon2))
      e he
      (by
        simp only [decide_eq_true_eq]
        exact hbefore)
      (by
        simp only [decide_eq_false_iff_not, not_not]
        exact hafter)
  omega

/-! Generic association-list facts needed for the shortest-path invariant. -/

theorem alookup_isSome_iff_mem {α : Type} (l : List (String × α)) (x : String) :
    (alookup l x).isSome ↔ x ∈ l.map Prod.fst := by
  constructor
  · intro h
    obtain ⟨v, hv⟩ := Option.isSome_iff_exists.mp h
    have hm := mem_of_alookup_eq_some hv
    have hf := List.mem_map_of_mem Prod.fst hm
    exact hf
  · intro h
    obtain ⟨p, hp, hpx⟩ := List.mem_map.mp h
    have hs := alookup_isSome_of_mem hp
    rw [hpx] at hs
    exact hs

theorem aset_eq_append {α : Type} (l : List (String × α)) (k : String) (v : α)
    (h : k ∉ l.map Prod.fst) : aset l k v = l ++ [(k, v)] := by
  induction l with
  | nil => rfl
  | cons p rest ih =>
    obtain ⟨k0, v0⟩ := p
    have hk : k0 ≠ k := by
      intro hcon
      apply h
      rw [List.map_cons, hcon]
      exact List.mem_cons_self _ _
    have h' : k ∉ rest.map Prod.fst := by
      intro hcon
      exact h (by rw [List.map_cons]; exact List.mem_cons_of_mem _ hcon)
    rw [show aset ((k0, v0) :: rest) k v = (k0, v0) :: aset rest k v by
      simp [aset, hk]]
    rw [ih h', List.cons_append]

theorem aset_map_fst {α : Type} (l : List (String × α)) (k : String) (v : α)
    (h : k ∈ l.map Prod.fst) : (aset l k v).map Prod.fst = l.map Prod.fst := by
  induction l with
  | nil => simp at h
  | cons p rest ih =>
    obtain ⟨k0, v0⟩ := p
    by_cases hk : k0 = k
    · rw [show aset ((k0, v0) :: rest) k v = (k, v) :: rest by simp [aset, hk]]
      rw [List.map_cons, List.map_cons]
      simp [hk]
    · have h' : k ∈ rest.map Prod.fst := by
        rw [List.map_cons] at h
        rcases List.mem_cons.mp h with h1 | h1
        · exact absurd h1.symm hk
        · exact h1
      rw [show aset ((k0, v0) :: rest) k v = (k0, v0) :: aset rest k v by
        simp [aset, hk]]
      rw [List.map_cons, List.map_cons, ih h']

theorem aset_nodup_fst {α : Type} (l : List (String × α)) (k : String) (v : α)
    (h : (l.map Prod.fst).Nodup) : ((aset l k v).map Prod.fst).Nodup := by
  by_cases hmem : k ∈ l.map Prod.fst
  · rw [aset_map_fst l k v hmem]
    exact h
  · rw [aset_eq_append l k v hmem, List.map_append]
    rw [List.nodup_append]
    refine ⟨h, by simp, ?_⟩
    intro a ha hb
    have : a = k := by simpa using hb
    rw [this] at ha
    exact hmem ha

theorem alookup_aset_isSome {α : Type} (l : List (String × α)) (k : String)
    (v : α) (x : String) (h : (alookup l x).isSome) :
    (alookup (aset l k v) x).isSome := by
  by_cases hx : x = k
  · rw [hx, alookup_aset_self]
    rfl
  · rw [alookup_aset_ne _ _ _ _ hx]
    exact h

theorem distVal_update (st : DState) (q2 : List (ℚ × String))
    (pr : List (String × String)) (k : String) (v : WithTop ℚ) (y : String) :
    distVal ⟨q2, aset st.dist k v, pr⟩ y = if y = k then v else distVal st y := by
  by_cases h : y = k
  · rw [if_pos h]
    show (alookup (aset st.dist k v) y).getD ⊤ = v
    rw [h, alookup_aset_self]
    rfl
  · rw [if_neg h]
    show (alookup (aset st.dist k v) y).getD ⊤ = distVal st y
    rw [alookup_aset_ne _ _ _ _ h]
    rfl

/-- The hypotheses on the adjacency list under which `find_path` implements
Dijkstra correctly: every edge target has a bucket (`Built` graphs satisfy
this: `add_edge` inserts buckets for both endpoints), non-negative weights,
and a bucket for the source. -/
structure AdjOk (adj : List (String × List Edge)) (src : String) : Prop where
  closed : ∀ p ∈ adj, ∀ e ∈ p.2, (alookup adj e.to).isSome
  wnn : ∀ p ∈ adj, ∀ e ∈ p.2, 0 ≤ e.weight
  srcb : (alookup adj src).isSome

/-- A node is relaxed ("closed"): no out-edge can improve a tentative
distance. -/
def DClosed (adj : List (String × List Edge)) (st : DState) (x : String) :
    Prop :=
  ∀ e ∈ aget adj x, distVal st e.to ≤ distVal st x + ((e.weight : ℚ) : WithTop ℚ)

/-- The predecessor-map step relation: `prev[a] = b`. -/
def PrevRel (prev : List (String × String)) (a b : String) : Prop :=
  alookup prev a = some b

/-- Along a predecessor chain the tentative distances weakly decrease
(weights are non-negative and every `prev` entry records a relaxation). -/
theorem prevchain_dist (adj : List (String × List Edge)) (st : DState)
    (hw : ∀ p ∈ adj, ∀ e ∈ p.2, 0 ≤ e.weight)
    (hedge : ∀ kv ∈ st.prev, ∃ e ∈ aget adj kv.2, e.to = kv.1 ∧
      distVal st kv.2 + ((e.weight : ℚ) : WithTop ℚ) ≤ distVal st kv.1 ∧
      distVal st kv.1 ≠ ⊤) :
    ∀ a b, Relation.ReflTransGen (PrevRel st.prev) a b →
      distVal st b ≤ distVal st a := by
  intro a b h
  induction h with
  | refl => exact le_refl _
  | tail hab hbc ih =>
    rename_i b' c'
    obtain ⟨e, he, heto, hle, hfin⟩ :=
      hedge (b', c') (mem_of_alookup_eq_some hbc)
    obtain ⟨es, hes, hein⟩ := mem_aget_elim adj c' e he
    have hw0 : (0 : ℚ) ≤ e.weight := hw (c', es) (mem_of_alookup_eq_some hes) e hein
    have hw0' : (0 : WithTop ℚ) ≤ ((e.weight : ℚ) : WithTop ℚ) := by
      exact_mod_cast hw0
    have h1 : distVal st c' ≤ distVal st b' :=
      le_trans (le_add_of_nonneg_right hw0') hle
    exact le_trans h1 ih

/-- Decomposition of chains of the updated predecessor relation: either the
chain avoids the updated key, or it splits at the new edge. -/
theorem transGen_aset_elim (prev : List (String × String)) (t u : String) :
    ∀ a b, Relation.TransGen (PrevRel (aset prev t u)) a b →
      Relation.TransGen (PrevRel prev) a b ∨
        (Relation.ReflTransGen (PrevRel prev) a t ∧
          Relation.ReflTransGen (PrevRel prev) u b) := by
  intro a b h
  induction h with
  | single hab =>
    rename_i b'
    by_cases hat : a = t
    · right
      unfold PrevRel at hab
      rw [hat, alookup_aset_self] at hab
      injection hab with hub
      refine ⟨by rw [hat], ?_⟩
      rw [hub]
    · left
      unfold PrevRel at hab
      rw [alookup_aset_ne _ _ _ _ hat] at hab
      exact Relation.TransGen.single hab
  | tail hab hbc ih =>
    rename_i b' c'
    by_cases hbt : b' = t
    · right
      unfold PrevRel at hbc
      rw [hbt, alookup_aset_self] at hbc
      injection hbc with huc
      refine ⟨?_, by rw [huc]⟩
      rcases ih with h1 | ⟨h1, _⟩
      · rw [← hbt]
        exact h1.to_reflTransGen
      · exact h1
    · have hbc' : PrevRel prev b' c' := by
        unfold PrevRel at hbc ⊢
        rw [alookup_aset_ne _ _ _ _ hbt] at hbc
        exact hbc
      rcases ih with h1 | ⟨h1, h2⟩
      · exact Or.inl (h1.tail hbc')
      · exact Or.inr ⟨h1, h2.tail hbc'⟩

/-- Updating `prev[t] := u` keeps the predecessor relation acyclic provided
`t` is not reachable from `u` through the old relation. -/
theorem prev_acyclic_aset (prev : List (String × String)) (t u : String)
    (hacy : ∀ c, ¬ Relation.TransGen (PrevRel prev) c c)
    (hnoreach : ¬ Relation.ReflTransGen (PrevRel prev) u t) :
    ∀ c, ¬ Relation.TransGen (PrevRel (aset prev t u)) c c := by
  intro c hc
  rcases transGen_aset_elim prev t u c c hc with h1 | ⟨h1, h2⟩
  · exact hacy c h1
  · exact hnoreach (h2.trans h1)

/-- The invariant carried through the relaxation of the bucket of the popped
node `u` at popped distance `d` (`done` is the processed prefix of the
bucket). -/
structure FoldInv (adj : List (String × List Edge)) (src u : String) (d : ℚ)
    (done : List Edge) (st : DState) : Prop where
  dist_keys : st.dist.map Prod.fst = adj.map Prod.fst
  src_zero : distVal st src = (((0 : ℚ) : ℚ) : WithTop ℚ)
  d_nonneg : 0 ≤ d
  queue_ge : ∀ q ∈ st.queue, d ≤ q.1
  queue_dom : ∀ q ∈ st.queue, (alookup adj q.2).isSome
  queue_real : ∀ q ∈ st.queue, distVal st q.2 ≤ ((q.1 : ℚ) : WithTop ℚ)
  queue_parent : ∀ q ∈ st.queue, q.2 = src ∨ (alookup st.prev q.2).isSome
  oc2 : ∀ x, (alookup adj x).isSome → x ≠ u →
    (∃ q ∈ st.queue, q.2 = x ∧ ((q.1 : ℚ) : WithTop ℚ) = distVal st x) ∨
      DClosed adj st x
  u_dist : distVal st u ≤ ((d : ℚ) : WithTop ℚ)
  u_done : ∀ e ∈ done, distVal st e.to ≤ ((d + e.weight : ℚ) : WithTop ℚ)
  u_pre : distVal st u = ((d : ℚ) : WithTop ℚ) ∨ DClosed adj st u
  u_parent : u = src ∨ (alookup st.prev u).isSome
  prev_nodup : (st.prev.map Prod.fst).Nodup
  prev_src : alookup st.prev src = none
  prev_dom : ∀ kv ∈ st.prev, (alookup adj kv.1).isSome
  prev_pdom : ∀ kv ∈ st.prev, (alookup adj kv.2).isSome
  prev_val : ∀ kv ∈ st.prev, kv.2 = src ∨ (alookup st.prev kv.2).isSome
  prev_edge : ∀ kv ∈ st.prev, ∃ e ∈ aget adj kv.2, e.to = kv.1 ∧
    distVal st kv.2 + ((e.weight : ℚ) : WithTop ℚ) ≤ distVal st kv.1 ∧
    distVal st kv.1 ≠ ⊤
  prev_acyclic : ∀ c, ¬ Relation.TransGen (PrevRel st.prev) c c
  fin_prev : ∀ x, x ≠ src → distVal st x ≠ ⊤ → (alookup st.prev x).isSome


/-- One relaxation step preserves the bucket-fold invariant and never
increases the termination measure (queue size plus unused-edge count). -/
theorem foldInv_step (adj : List (String × List Edge)) (src u : String)
    (d : ℚ) (done : List Edge) (st : DState) (es : List Edge) (e : Edge)
    (hok : AdjOk adj src) (hes : alookup adj u = some es) (he : e ∈ es)
    (fi : FoldInv adj src u d done st) :
    FoldInv adj src u d (done ++ [e]) (relaxEdge [] u d st e) ∧
      (relaxEdge [] u d st e).queue.length +
          countUnused adj d (relaxEdge [] u d st e) ≤
        st.queue.length + countUnused adj d st := by
  have humem : (u, es) ∈ adj := mem_of_alookup_eq_some hes
  have hetodom : (alookup adj e.to).isSome := hok.closed (u, es) humem e he
  have hwe : (0 : ℚ) ≤ e.weight := hok.wnn (u, es) humem e he
  have hkey : (alookup st.dist e.to).isSome := by
    rw [alookup_isSome_iff_mem, fi.dist_keys]
    exact (alookup_isSome_iff_mem adj e.to).mp hetodom
  rw [relaxEdge_eq_of_key u d st e hkey]
  by_cases hg : ((d + e.weight : ℚ) : WithTop ℚ) < distVal st e.to
  case neg =>
    rw [if_neg hg]
    refine ⟨?_, le_refl _⟩
    exact { fi with
      u_done := by
        intro f hf
        rcases List.mem_append.mp hf with h1 | h1
        · exact fi.u_done f h1
        · have hfe : f = e := by simpa using h1
          rw [hfe]
          exact not_lt.mp hg }
  case pos =>
    rw [if_pos hg]
    have hup : ∀ y, distVal ⟨st.queue ++ [(d + e.weight, e.to)],
        aset st.dist e.to ((d + e.weight : ℚ) : WithTop ℚ),
        aset st.prev e.to u⟩ y =
        if y = e.to then ((d + e.weight : ℚ) : WithTop ℚ) else distVal st y :=
      fun y => distVal_update st _ _ e.to _ y
    have hmono : ∀ y, distVal ⟨st.queue ++ [(d + e.weight, e.to)],
        aset st.dist e.to ((d + e.weight : ℚ) : WithTop ℚ),
        aset st.prev e.to u⟩ y ≤ distVal st y := by
      intro y
      rw [hup y]
      by_cases hy : y = e.to
      · rw [if_pos hy, hy]
        exact le_of_lt hg
      · rw [if_neg hy]
    have hne_src : e.to ≠ src := by
      intro hcon
      rw [hcon, fi.src_zero] at hg
      have h1 : (d + e.weight : ℚ) < 0 := by exact_mod_cast hg
      have h2 : (0 : ℚ) ≤ d + e.weight := add_nonneg fi.d_nonneg hwe
      linarith
    have hdd : ((d : ℚ) : WithTop ℚ) ≤ ((d + e.weight : ℚ) : WithTop ℚ) := by
      exact_mod_cast (by linarith : d ≤ d + e.weight)
    have hne_u : e.to ≠ u := by
      intro hcon
      rw [hcon] at hg
      exact absurd (lt_of_le_of_lt (le_trans fi.u_dist hdd) hg) (lt_irrefl _)
    have hnoreach : ¬ Relation.ReflTransGen (PrevRel st.prev) u e.to := by
      intro hreach
      have hd := prevchain_dist adj st hok.wnn fi.prev_edge u e.to hreach
      exact absurd (lt_of_le_of_lt (le_trans (le_trans hd fi.u_dist) hdd) hg)
        (lt_irrefl _)
    refine ⟨?_, ?_⟩
    · refine
        { dist_keys := ?_, src_zero := ?_, d_nonneg := fi.d_nonneg,
          queue_ge := ?_, queue_dom := ?_, queue_real := ?_,
          queue_parent := ?_, oc2 := ?_, u_dist := ?_, u_done := ?_,
          u_pre := ?_, u_parent := ?_, prev_nodup := ?_, prev_src := ?_,
          prev_dom := ?_, prev_pdom := ?_, prev_val := ?_, prev_edge := ?_,
          prev_acyclic := ?_, fin_prev := ?_ }
      · show (aset st.dist e.to _).map Prod.fst = adj.map Prod.fst
        rw [aset_map_fst _ _ _ ((alookup_isSome_iff_mem _ _).mp hkey)]
        exact fi.dist_keys
      · rw [hup src, if_neg (Ne.symm hne_src)]
        exact fi.src_zero
      · intro q hq
        rcases List.mem_append.mp hq with h1 | h1
        · exact fi.queue_ge q h1
        · have hq1 : q = (d + e.weight, e.to) := by simpa using h1
          rw [hq1]
          show d ≤ d + e.weight
          linarith
      · intro q hq
        rcases List.mem_append.mp hq with h1 | h1
        · exact fi.queue_dom q h1
        · have hq1 : q = (d + e.weight, e.to) := by simpa using h1
          rw [hq1]
          exact hetodom
      · intro q hq
        rcases List.mem_append.mp hq with h1 | h1
        · refine le_trans (hmono q.2) (fi.queue_real q h1)
        · have hq1 : q = (d + e.weight, e.to) := by simpa using h1
          rw [hq1]
          rw [hup e.to, if_pos rfl]
      · intro q hq
        rcases List.mem_append.mp hq with h1 | h1
        · rcases fi.queue_parent q h1 with h2 | h2
          · exact Or.inl h2
          · exact Or.inr (alookup_aset_isSome _ _ _ _ h2)
        · have hq1 : q = (d + e.weight, e.to) := by simpa using h1
          rw [hq1]
          right
          show (alookup (aset st.prev e.to u) e.to).isSome
          rw [alookup_aset_self]
          rfl
      · intro x hx hxu
        by_cases hxe : x = e.to
        · left
          refine ⟨(d + e.weight, e.to), ?_, ?_, ?_⟩
          · exact List.mem_append.mpr (Or.inr (List.mem_singleton.mpr rfl))
          · exact hxe.symm
          · rw [hup x, if_pos hxe]
        · rcases fi.oc2 x hx hxu with ⟨q, hq, hq2, hq1⟩ | hcl
          · left
            refine ⟨q, List.mem_append.mpr (Or.inl hq), hq2, ?_⟩
            rw [hup x, if_neg hxe]
            exact hq1
          · right
            intro f hf
            rw [hup x, if_neg hxe]
            exact le_trans (hmono f.to) (hcl f hf)
      · rw [hup u, if_neg (Ne.symm hne_u)]
        exact fi.u_dist
      · intro f hf
        rcases List.mem_append.mp hf with h1 | h1
        · exact le_trans (hmono f.to) (fi.u_done f h1)
        · have hfe : f = e := by simpa using h1
          rw [hfe, hup e.to, if_pos rfl]
      · rcases fi.u_pre with h1 | h1
        · left
          rw [hup u, if_neg (Ne.symm hne_u)]
          exact h1
        · right
          intro f hf
          rw [hup u, if_neg (Ne.symm hne_u)]
          exact le_trans (hmono f.to) (h1 f hf)
      · rcases fi.u_parent with h1 | h1
        · exact Or.inl h1
        · exact Or.inr (alookup_aset_isSome _ _ _ _ h1)
      · exact aset_nodup_fst _ _ _ fi.prev_nodup
      · show alookup (aset st.prev e.to u) src = none
        rw [alookup_aset_ne _ _ _ _ (Ne.symm hne_src)]
        exact fi.prev_src
      · intro kv hkv
        rcases mem_aset_elim _ _ _ _ hkv with h1 | h1
        · exact fi.prev_dom kv h1
        · rw [h1]
          exact hetodom
      · intro kv hkv
        rcases mem_aset_elim _ _ _ _ hkv with h1 | h1
        · exact fi.prev_pdom kv h1
        · rw [h1]
          show (alookup adj u).isSome
          rw [hes]
          rfl
      · intro kv hkv
        rcases mem_aset_elim _ _ _ _ hkv with h1 | h1
        · rcases fi.prev_val kv h1 with h2 | h2
          · exact Or.inl h2
          · exact Or.inr (alookup_aset_isSome _ _ _ _ h2)
        · rw [h1]
          rcases fi.u_parent with h2 | h2
          · exact Or.inl h2
          · exact Or.inr (alookup_aset_isSome _ _ _ _ h2)
      · intro kv hkv
        rcases mem_aset_elim_nodup _ _ _ fi.prev_nodup kv hkv with ⟨h1, h1k⟩ | h1
        · obtain ⟨f, hf, hfto, hfle, hffin⟩ := fi.prev_edge kv h1
          refine ⟨f, hf, hfto, ?_, ?_⟩
          · rw [hup kv.1, if_neg h1k]
            refine le_trans ?_ hfle
            exact add_le_add_right (hmono kv.2) _
          · rw [hup kv.1, if_neg h1k]
            exact hffin
        · rw [h1]
          refine ⟨e, ?_, rfl, ?_, ?_⟩
          · rw [aget_of_alookup adj u es hes]
            exact he
          · show distVal _ u + _ ≤ distVal _ e.to
            rw [hup u, if_neg (Ne.symm hne_u), hup e.to, if_pos rfl]
            refine le_trans (add_le_add_right fi.u_dist _) ?_
            rw [← WithTop.coe_add]
          · show distVal _ e.to ≠ ⊤
            rw [hup e.to, if_pos rfl]
            exact WithTop.coe_ne_top
      · exact prev_acyclic_aset st.prev e.to u fi.prev_acyclic hnoreach
      · intro x hxsrc hxfin
        by_cases hxe : x = e.to
        · show (alookup (aset st.prev e.to u) x).isSome
          rw [hxe, alookup_aset_self]
          rfl
        · show (alookup (aset st.prev e.to u) x).isSome
          rw [alookup_aset_ne _ _ _ _ hxe]
          rw [hup x, if_neg hxe] at hxfin
          exact fi.fin_prev x hxsrc hxfin
    · show (st.queue ++ [(d + e.weight, e.to)]).length + _ ≤ _
      rw [List.length_append, List.length_singleton]
      have hcs : countUnused adj d ⟨st.queue ++ [(d + e.weight, e.to)],
          aset st.dist e.to ((d + e.weight : ℚ) : WithTop ℚ),
          aset st.prev e.to u⟩ + 1 ≤ countUnused adj d st := by
        refine countUnused_strict adj d st _ u es hes e he hmono ?_ ?_
        · exact not_le.mpr hg
        · rw [hup e.to, if_pos rfl]
      omega


/-- Folding the relaxation over the whole remaining bucket. -/
theorem foldInv_fold (adj : List (String × List Edge)) (src u : String)
    (d : ℚ) (es : List Edge) (hok : AdjOk adj src)
    (hes : alookup adj u = some es) :
    ∀ (todo done : List Edge) (st : DState), done ++ todo = es →
      FoldInv adj src u d done st →
      FoldInv adj src u d es (todo.foldl (relaxEdge [] u d) st) ∧
        (todo.foldl (relaxEdge [] u d) st).queue.length +
            countUnused adj d (todo.foldl (relaxEdge [] u d) st) ≤
          st.queue.length + countUnused adj d st := by
  intro todo
  induction todo with
  | nil =>
    intro done st hde fi
    rw [List.append_nil] at hde
    rw [List.foldl_nil]
    subst hde
    exact ⟨fi, le_refl _⟩
  | cons f todo ih =>
    intro done st hde fi
    have hf : f ∈ es := by
      rw [← hde]
      exact List.mem_append.mpr (Or.inr (List.mem_cons_self _ _))
    obtain ⟨fi1, hc1⟩ := foldInv_step adj src u d done st es f hok hes hf fi
    rw [List.foldl_cons]
    have hde2 : (done ++ [f]) ++ todo = es := by
      rw [List.append_assoc]
      exact hde
    obtain ⟨fi2, hc2⟩ := ih (done ++ [f]) (relaxEdge [] u d st f) hde2 fi1
    exact ⟨fi2, le_trans hc2 hc1⟩

/-- The outer-loop invariant: `lb` is a lower bound on all pending queue
entries (the last popped distance). -/
structure DijInv (adj : List (String × List Edge)) (src : String) (lb : ℚ)
    (st : DState) : Prop where
  dist_keys : st.dist.map Prod.fst = adj.map Prod.fst
  src_zero : distVal st src = (((0 : ℚ) : ℚ) : WithTop ℚ)
  lb_nonneg : 0 ≤ lb
  queue_ge : ∀ q ∈ st.queue, lb ≤ q.1
  queue_dom : ∀ q ∈ st.queue, (alookup adj q.2).isSome
  queue_real : ∀ q ∈ st.queue, distVal st q.2 ≤ ((q.1 : ℚ) : WithTop ℚ)
  queue_parent : ∀ q ∈ st.queue, q.2 = src ∨ (alookup st.prev q.2).isSome
  oc : ∀ x, (alookup adj x).isSome →
    (∃ q ∈ st.queue, q.2 = x ∧ ((q.1 : ℚ) : WithTop ℚ) = distVal st x) ∨
      DClosed adj st x
  prev_nodup : (st.prev.map Prod.fst).Nodup
  prev_src : alookup st.prev src = none
  prev_dom : ∀ kv ∈ st.prev, (alookup adj kv.1).isSome
  prev_pdom : ∀ kv ∈ st.prev, (alookup adj kv.2).isSome
  prev_val : ∀ kv ∈ st.prev, kv.2 = src ∨ (alookup st.prev kv.2).isSome
  prev_edge : ∀ kv ∈ st.prev, ∃ e ∈ aget adj kv.2, e.to = kv.1 ∧
    distVal st kv.2 + ((e.weight : ℚ) : WithTop ℚ) ≤ distVal st kv.1 ∧
    distVal st kv.1 ≠ ⊤
  prev_acyclic : ∀ c, ¬ Relation.TransGen (PrevRel st.prev) c c
  fin_prev : ∀ x, x ≠ src → distVal st x ≠ ⊤ → (alookup st.prev x).isSome

/-- Popping a non-target node and relaxing its whole bucket restores the
loop invariant at the popped distance and strictly shrinks the measure. -/
theorem dij_step (adj : List (String × List Edge)) (src : String) (lb : ℚ)
    (st : DState) (d : ℚ) (u : String) (rest : List (ℚ × String))
    (es : List Edge) (hok : AdjOk adj src) (hdi : DijInv adj src lb st)
    (hpop : popMin st.queue = some ((d, u), rest))
    (hes : alookup adj u = some es) :
    DijInv adj src d (es.foldl (relaxEdge [] u d) { st with queue := rest }) ∧
      (es.foldl (relaxEdge [] u d) { st with queue := rest }).queue.length +
          countUnused adj d
            (es.foldl (relaxEdge [] u d) { st with queue := rest }) + 1 ≤
        st.queue.length + countUnused adj lb st := by
  have hmem := popMin_mem st.queue (d, u) rest hpop
  have hperm := popMin_perm st.queue (d, u) rest hpop
  have hmin := popMin_min st.queue (d, u) rest hpop
  have hlbd : lb ≤ d := hdi.queue_ge (d, u) hmem.1
  have fi0 : FoldInv adj src u d [] { st with queue := rest } :=
    { dist_keys := hdi.dist_keys
      src_zero := hdi.src_zero
      d_nonneg := le_trans hdi.lb_nonneg hlbd
      queue_ge := fun q hq => hmin q (hmem.2 q hq)
      queue_dom := fun q hq => hdi.queue_dom q (hmem.2 q hq)
      queue_real := fun q hq => hdi.queue_real q (hmem.2 q hq)
      queue_parent := fun q hq => hdi.queue_parent q (hmem.2 q hq)
      oc2 := by
        intro x hx hxu
        rcases hdi.oc x hx with ⟨q, hq, hq2, hq1⟩ | hcl
        · left
          refine ⟨q, ?_, hq2, hq1⟩
          have hq3 := (hperm.mem_iff).mp hq
          rcases List.mem_cons.mp hq3 with h1 | h1
          · exfalso
            apply hxu
            rw [← hq2, h1]
          · exact h1
        · exact Or.inr hcl
      u_dist := hdi.queue_real (d, u) hmem.1
      u_done := by
        intro f hf
        exact absurd hf (List.not_mem_nil f)
      u_pre := by
        rcases hdi.oc u (by rw [hes]; rfl) with ⟨q, hq, hq2, hq1⟩ | hcl
        · left
          have h1 : ((d : ℚ) : WithTop ℚ) ≤ ((q.1 : ℚ) : WithTop ℚ) := by
            exact_mod_cast hmin q hq
          exact le_antisymm (hdi.queue_real (d, u) hmem.1)
            (le_trans h1 (le_of_eq hq1))
        · exact Or.inr hcl
      u_parent := hdi.queue_parent (d, u) hmem.1
      prev_nodup := hdi.prev_nodup
      prev_src := hdi.prev_src
      prev_dom := hdi.prev_dom
      prev_pdom := hdi.prev_pdom
      prev_val := hdi.prev_val
      prev_edge := hdi.prev_edge
      prev_acyclic := hdi.prev_acyclic
      fin_prev := hdi.fin_prev }
  obtain ⟨fiF, hcF⟩ := foldInv_fold adj src u d es hok hes es []
    { st with queue := rest } (List.nil_append es) fi0
  constructor
  · exact
      { dist_keys := fiF.dist_keys
        src_zero := fiF.src_zero
        lb_nonneg := fiF.d_nonneg
        queue_ge := fiF.queue_ge
        queue_dom := fiF.queue_dom
        queue_real := fiF.queue_real
        queue_parent := fiF.queue_parent
        oc := by
          intro x hx
          by_cases hxu : x = u
          · right
            rcases fiF.u_pre with h1 | h1
            · intro f hf
              rw [hxu] at hf ⊢
              rw [aget_of_alookup adj u es hes] at hf
              have h2 := fiF.u_done f hf
              rw [h1, ← WithTop.coe_add]
              exact h2
            · rw [hxu]
              exact h1
          · exact fiF.oc2 x hx hxu
        prev_nodup := fiF.prev_nodup
        prev_src := fiF.prev_src
        prev_dom := fiF.prev_dom
        prev_pdom := fiF.prev_pdom
        prev_val := fiF.prev_val
        prev_edge := fiF.prev_edge
        prev_acyclic := fiF.prev_acyclic
        fin_prev := fiF.fin_prev }
  · have hlen : st.queue.length = rest.length + 1 := by
      rw [hperm.length_eq]
      rfl
    have hcu1 : countUnused adj d { st with queue := rest } =
        countUnused adj d st := rfl
    have hcu2 : countUnused adj d st ≤ countUnused adj lb st :=
      countUnused_anti adj lb d st hlbd
    have hrl : ({ st with queue := rest } : DState).queue.length =
        rest.length := rfl
    rw [hcu1, hrl] at hcF
    omega


/-- At an exit of the main loop every node is either closed or has an
up-to-date queue entry bounded below by `dm`; then every path from `src`
either dominates the stored distance of its endpoint or costs at least
`dm`. -/
theorem final_min (adj : List (String × List Edge)) (src : String)
    (st : DState) (Q : List (ℚ × String)) (dm : ℚ)
    (hw : ∀ p ∈ adj, ∀ e ∈ p.2, 0 ≤ e.weight)
    (hsz : distVal st src = (((0 : ℚ) : ℚ) : WithTop ℚ))
    (hoc : ∀ x, (alookup adj x).isSome →
      (∃ q ∈ Q, q.2 = x ∧ ((q.1 : ℚ) : WithTop ℚ) = distVal st x) ∨
        DClosed adj st x)
    (hQ : ∀ q ∈ Q, dm ≤ q.1) :
    ∀ (P : List Edge) (x : String), IsPath adj src x P →
      distVal st x ≤ ((pathWeight P : ℚ) : WithTop ℚ) ∨ dm ≤ pathWeight P := by
  intro P
  induction P using List.reverseRecOn with
  | nil =>
    intro x hP
    have hsx : src = x := hP
    left
    rw [← hsx, hsz, pathWeight_nil]
  | append_singleton P2 e ih =>
    intro x hP
    obtain ⟨y, hPy, hey, heto⟩ := IsPath_snoc_elim adj P2 src x e hP
    obtain ⟨esb, hesb, heeb⟩ := mem_aget_elim adj y e hey
    have hwe : (0 : ℚ) ≤ e.weight :=
      hw (y, esb) (mem_of_alookup_eq_some hesb) e heeb
    rw [pathWeight_snoc]
    rcases ih y hPy with h1 | h1
    · have hyb : (alookup adj y).isSome := by
        rw [hesb]
        rfl
      rcases hoc y hyb with ⟨q, hqQ, hq2, hq1⟩ | hcl
      · right
        have h3 : ((q.1 : ℚ) : WithTop ℚ) ≤ ((pathWeight P2 : ℚ) : WithTop ℚ) := by
          rw [hq1]
          exact h1
        have h4 : q.1 ≤ pathWeight P2 := by exact_mod_cast h3
        have h5 := hQ q hqQ
        linarith
      · left
        have h6 := hcl e hey
        rw [← heto]
        refine le_trans h6 ?_
        rw [WithTop.coe_add]
        exact add_le_add_right h1 _
    · right
      linarith

/-- What holds of the state the main loop hands to the reconstruction. -/
structure PostInv (adj : List (String × List Edge)) (src tgt : String)
    (st : DState) : Prop where
  src_zero : distVal st src = (((0 : ℚ) : ℚ) : WithTop ℚ)
  prev_nodup : (st.prev.map Prod.fst).Nodup
  prev_src : alookup st.prev src = none
  prev_dom : ∀ kv ∈ st.prev, (alookup adj kv.1).isSome
  prev_pdom : ∀ kv ∈ st.prev, (alookup adj kv.2).isSome
  prev_val : ∀ kv ∈ st.prev, kv.2 = src ∨ (alookup st.prev kv.2).isSome
  prev_edge : ∀ kv ∈ st.prev, ∃ e ∈ aget adj kv.2, e.to = kv.1 ∧
    distVal st kv.2 + ((e.weight : ℚ) : WithTop ℚ) ≤ distVal st kv.1 ∧
    distVal st kv.1 ≠ ⊤
  prev_acyclic : ∀ c, ¬ Relation.TransGen (PrevRel st.prev) c c
  fin_prev : ∀ x, x ≠ src → distVal st x ≠ ⊤ → (alookup st.prev x).isSome
  tmin : ∀ P, IsPath adj src tgt P →
    distVal st tgt ≤ ((pathWeight P : ℚ) : WithTop ℚ)

/-- The main loop, run with fuel exceeding the measure, succeeds and
establishes the post-state invariant, in particular the minimality of the
stored distance of the target. -/
theorem dij_loop (adj : List (String × List Edge)) (src tgt : String)
    (hok : AdjOk adj src) :
    ∀ (fuel : Nat) (lb : ℚ) (st : DState), DijInv adj src lb st →
      st.queue.length + countUnused adj lb st < fuel →
      ∃ st2, dijkstraLoop adj tgt [] fuel st = Except.ok st2 ∧
        PostInv adj src tgt st2 := by
  intro fuel
  induction fuel with
  | zero =>
    intro lb st _ hlt
    exact absurd hlt (Nat.not_lt_zero _)
  | succ f ih =>
    intro lb st hdi hlt
    rw [dijkstraLoop_succ]
    cases hpop : popMin st.queue with
    | none =>
      simp only [hpop]
      refine ⟨st, rfl, ?_⟩
      have hqnil : st.queue = [] := popMin_none st.queue hpop
      refine
        { src_zero := hdi.src_zero, prev_nodup := hdi.prev_nodup,
          prev_src := hdi.prev_src, prev_dom := hdi.prev_dom,
          prev_pdom := hdi.prev_pdom, prev_val := hdi.prev_val,
          prev_edge := hdi.prev_edge, prev_acyclic := hdi.prev_acyclic,
          fin_prev := hdi.fin_prev, tmin := ?_ }
      intro P hP
      have hoc0 : ∀ x, (alookup adj x).isSome →
          (∃ q ∈ ([] : List (ℚ × String)), q.2 = x ∧
            ((q.1 : ℚ) : WithTop ℚ) = distVal st x) ∨ DClosed adj st x := by
        intro x hx
        rcases hdi.oc x hx with ⟨q, hq, _⟩ | hcl
        · rw [hqnil] at hq
          exact absurd hq (List.not_mem_nil q)
        · exact Or.inr hcl
      have hq0 : ∀ q ∈ ([] : List (ℚ × String)), pathWeight P + 1 ≤ q.1 := by
        intro q hq
        exact absurd hq (List.not_mem_nil q)
      rcases final_min adj src st [] (pathWeight P + 1) hok.wnn hdi.src_zero
        hoc0 hq0 P tgt hP with h1 | h1
      · exact h1
      · linarith
    | some dur =>
      obtain ⟨du, rest⟩ := dur
      obtain ⟨d, u⟩ := du
      simp only [hpop]
      have hmem := popMin_mem st.queue (d, u) rest hpop
      have hmin := popMin_min st.queue (d, u) rest hpop
      by_cases hu : u = tgt
      · rw [if_pos hu]
        refine ⟨{ st with queue := rest }, rfl, ?_⟩
        have hdtgt : distVal st tgt ≤ ((d : ℚ) : WithTop ℚ) := by
          have h2 := hdi.queue_real (d, u) hmem.1
          rw [hu] at h2
          exact h2
        refine
          { src_zero := hdi.src_zero, prev_nodup := hdi.prev_nodup,
            prev_src := hdi.prev_src, prev_dom := hdi.prev_dom,
            prev_pdom := hdi.prev_pdom, prev_val := hdi.prev_val,
            prev_edge := hdi.prev_edge, prev_acyclic := hdi.prev_acyclic,
            fin_prev := hdi.fin_prev, tmin := ?_ }
        intro P hP
        rcases final_min adj src st st.queue d hok.wnn hdi.src_zero
          (fun x hx => hdi.oc x hx) (fun q hq => hmin q hq) P tgt hP with h1 | h1
        · exact h1
        · refine le_trans hdtgt ?_
          exact_mod_cast h1
      · rw [if_neg hu, if_neg (List.not_mem_nil u)]
        have hudom := hdi.queue_dom (d, u) hmem.1
        obtain ⟨es, hes⟩ := Option.isSome_iff_exists.mp hudom
        simp only [hes]
        obtain ⟨hdi2, hc2⟩ := dij_step adj src lb st d u rest es hok hdi hpop hes
        exact ih d _ hdi2 (by omega)


theorem nodup_subset_length {l l2 : List String} (hnd : l.Nodup)
    (hsub : ∀ x ∈ l, x ∈ l2) : l.length ≤ l2.length := by
  have h1 : l.toFinset.card = l.length := List.toFinset_card_of_nodup hnd
  have h2 : l.toFinset ⊆ l2.toFinset := by
    intro a ha
    rw [List.mem_toFinset] at ha ⊢
    exact hsub a ha
  have h3 := Finset.card_le_card h2
  have h4 := l2.toFinset_card_le
  omega

/-- In a bucket without parallel records, `find_if` returns exactly the known
record pointing at `c`. -/
theorem find_to_resolve (es : List Edge) (c : String) (e0 : Edge)
    (h0 : e0 ∈ es) (h0c : e0.to = c) (hnd : (es.map Edge.to).Nodup) :
    es.find? (fun e => e.to = c) = some e0 := by
  cases hf : es.find? (fun e => e.to = c) with
  | none =>
    rw [List.find?_eq_none] at hf
    have h2 := hf e0 h0
    simp [h0c] at h2
  | some e1 =>
    have h1mem := List.mem_of_find?_eq_some hf
    have h1c : e1.to = c := by
      have h2 := List.find?_some hf
      simpa using h2
    have h3 : e0 = e1 :=
      List.inj_on_of_nodup_map hnd h0 h1mem (by rw [h0c, h1c])
    rw [h3]

/-- The reconstruction loop, started anywhere on the predecessor chain with
enough fuel, returns a path from `src` whose weight is dominated by the
stored distance of the start (`D` abstracts the tentative-distance reading
of the final loop state). -/
theorem reconstruct_ok (adj : List (String × List Edge)) (src : String)
    (D : String → WithTop ℚ) (prev : List (String × String))
    (hnp : ∀ p ∈ adj, (p.2.map Edge.to).Nodup)
    (hnd : (prev.map Prod.fst).Nodup)
    (hpdom2 : ∀ kv ∈ prev, (alookup adj kv.2).isSome)
    (hval : ∀ kv ∈ prev, kv.2 = src ∨ (alookup prev kv.2).isSome)
    (hedge : ∀ kv ∈ prev, ∃ e ∈ aget adj kv.2, e.to = kv.1 ∧
      D kv.2 + ((e.weight : ℚ) : WithTop ℚ) ≤ D kv.1)
    (hacy : ∀ c, ¬ Relation.TransGen (PrevRel prev) c c) :
    ∀ (fuel : Nat) (seen : List String) (cur : String) (acc : List Edge),
      ((alookup prev cur).isSome ∨ cur = src) →
      seen.Nodup → (∀ s ∈ seen, s ∈ prev.map Prod.fst) → cur ∉ seen →
      (∀ s ∈ seen, Relation.TransGen (PrevRel prev) s cur) →
      prev.length + 1 ≤ fuel + seen.length →
      ∃ P, reconstruct adj src fuel cur prev acc =
          Except.ok (some (P ++ acc.reverse)) ∧
        IsPath adj src cur P ∧
        D src + ((pathWeight P : ℚ) : WithTop ℚ) ≤ D cur := by
  intro fuel
  induction fuel with
  | zero =>
    intro seen cur acc hdom hsnd hssub hcns hreach hfuel
    exfalso
    have h1 := nodup_subset_length hsnd hssub
    rw [List.length_map] at h1
    omega
  | succ f ih =>
    intro seen cur acc hdom hsnd hssub hcns hreach hfuel
    by_cases hcs : cur = src
    · refine ⟨[], ?_, ?_, ?_⟩
      · conv_lhs => rw [reconstruct]
        rw [if_pos hcs, List.nil_append]
      · exact hcs.symm
      · rw [pathWeight_nil, WithTop.coe_zero, add_zero, hcs]
    · rcases hdom with hdom | hdom
      · obtain ⟨par, hpar⟩ := Option.isSome_iff_exists.mp hdom
        have hkvmem : (cur, par) ∈ prev := mem_of_alookup_eq_some hpar
        obtain ⟨e0, he0, he0c, he0le⟩ := hedge (cur, par) hkvmem
        obtain ⟨esp, hesp, he0in⟩ := mem_aget_elim adj par e0 he0
        have hfind : esp.find? (fun e => e.to = cur) = some e0 :=
          find_to_resolve esp cur e0 he0in he0c
            (hnp (par, esp) (mem_of_alookup_eq_some hesp))
        have heq : reconstruct adj src (Nat.succ f) cur prev acc =
            reconstruct adj src f par prev (acc ++ [e0]) := by
          rw [reconstruct_step adj src f cur prev acc hcs]
          rw [findOrInsert_of_some ("" : String) hpar]
          simp only [hesp, hfind]
        have hRcp : PrevRel prev cur par := hpar
        have hdom2 : (alookup prev par).isSome ∨ par = src := by
          rcases hval (cur, par) hkvmem with h1 | h1
          · exact Or.inr h1
          · exact Or.inl h1
        have hsnd2 : (cur :: seen).Nodup := List.nodup_cons.mpr ⟨hcns, hsnd⟩
        have hssub2 : ∀ s ∈ cur :: seen, s ∈ prev.map Prod.fst := by
          intro s hs
          rcases List.mem_cons.mp hs with h1 | h1
          · rw [h1]
            have hf2 := List.mem_map_of_mem Prod.fst hkvmem
            exact hf2
          · exact hssub s h1
        have hpns2 : par ∉ cur :: seen := by
          intro hmem2
          rcases List.mem_cons.mp hmem2 with h1 | h1
          · exact hacy cur (Relation.TransGen.single (h1 ▸ hRcp))
          · exact hacy par ((hreach par h1).tail hRcp)
        have hreach2 : ∀ s ∈ cur :: seen,
            Relation.TransGen (PrevRel prev) s par := by
          intro s hs
          rcases List.mem_cons.mp hs with h1 | h1
          · rw [h1]
            exact Relation.TransGen.single hRcp
          · exact (hreach s h1).tail hRcp
        have hfuel2 : prev.length + 1 ≤ f + (cur :: seen).length := by
          rw [List.length_cons]
          omega
        obtain ⟨P2, hPeq, hPpath, hPle⟩ :=
          ih (cur :: seen) par (acc ++ [e0]) hdom2 hsnd2 hssub2 hpns2
            hreach2 hfuel2
        refine ⟨P2 ++ [e0], ?_, ?_, ?_⟩
        · rw [heq, hPeq, List.reverse_append, List.reverse_singleton,
            List.append_assoc]
        · have hsp := IsPath_snoc_mk adj P2 src par hPpath e0 he0
          rw [he0c] at hsp
          exact hsp
        · rw [pathWeight_snoc, WithTop.coe_add, ← add_assoc]
          exact le_trans (add_le_add_right hPle _) he0le
      · exact absurd hdom hcs


theorem prevRel_nil (a b : String) : ¬ PrevRel [] a b :=
  fun h => Option.noConfusion h

theorem transGen_nil_false (a b : String)
    (h : Relation.TransGen (PrevRel []) a b) : False := by
  induction h with
  | single h1 => exact prevRel_nil _ _ h1
  | tail h2 h1 ih => exact prevRel_nil _ _ h1

theorem map_fst_top (adj : List (String × List Edge)) :
    (adj.map (fun p => (p.1, (⊤ : WithTop ℚ)))).map Prod.fst =
      adj.map Prod.fst := by
  induction adj with
  | nil => rfl
  | cons p rest ih => simp [ih]

theorem getD_map_top (adj : List (String × List Edge)) (x : String) :
    (alookup (adj.map (fun p => (p.1, (⊤ : WithTop ℚ)))) x).getD ⊤ = ⊤ := by
  induction adj with
  | nil => rfl
  | cons p rest ih =>
    obtain ⟨k0, v0⟩ := p
    by_cases h : k0 = x
    · simp [alookup, h]
    · simp only [List.map_cons, alookup, h, if_false]
      exact ih

theorem countP_le_len {α : Type} (p : α → Bool) (l : List α) :
    l.countP p ≤ l.length := by
  induction l with
  | nil => simp
  | cons a l ih =>
    rw [List.countP_cons, List.length_cons]
    by_cases h : p a = true
    · rw [if_pos h]
      omega
    · rw [if_neg h]
      omega

theorem countUnused_le_total (adj : List (String × List Edge)) (lb : ℚ)
    (st : DState) : countUnused adj lb st ≤ totalEdgeCount adj := by
  unfold countUnused totalEdgeCount
  apply List.sum_le_sum
  intro p _
  unfold unusedCount
  exact countP_le_len _ _

/-- The seeded state of `find_path` satisfies the loop invariant at lower
bound `0`. -/
theorem dijInv_init (adj : List (String × List Edge)) (src : String)
    (hok : AdjOk adj src) :
    DijInv adj src 0
      ⟨[((0 : ℚ), src)],
        aset (adj.map (fun p => (p.1, (⊤ : WithTop ℚ)))) src
          ((0 : ℚ) : WithTop ℚ), []⟩ := by
  have hsrck : src ∈ (adj.map (fun p => (p.1, (⊤ : WithTop ℚ)))).map Prod.fst := by
    rw [map_fst_top]
    exact (alookup_isSome_iff_mem adj src).mp hok.srcb
  have hs0 : distVal ⟨[((0 : ℚ), src)],
      aset (adj.map (fun p => (p.1, (⊤ : WithTop ℚ)))) src
        ((0 : ℚ) : WithTop ℚ), []⟩ src = ((0 : ℚ) : WithTop ℚ) := by
    show (alookup (aset _ src _) src).getD ⊤ = _
    rw [alookup_aset_self]
    rfl
  have hother : ∀ y, y ≠ src → distVal ⟨[((0 : ℚ), src)],
      aset (adj.map (fun p => (p.1, (⊤ : WithTop ℚ)))) src
        ((0 : ℚ) : WithTop ℚ), []⟩ y = ⊤ := by
    intro y hy
    show (alookup (aset _ src _) y).getD ⊤ = ⊤
    rw [alookup_aset_ne _ _ _ _ hy]
    exact getD_map_top adj y
  refine
    { dist_keys := ?_, src_zero := hs0, lb_nonneg := le_refl 0,
      queue_ge := ?_, queue_dom := ?_, queue_real := ?_, queue_parent := ?_,
      oc := ?_, prev_nodup := List.nodup_nil, prev_src := rfl,
      prev_dom := ?_, prev_pdom := ?_, prev_val := ?_, prev_edge := ?_,
      prev_acyclic := ?_, fin_prev := ?_ }
  · show (aset _ src _).map Prod.fst = adj.map Prod.fst
    rw [aset_map_fst _ _ _ hsrck, map_fst_top]
  · intro q hq
    have hq1 : q = ((0 : ℚ), src) := by simpa using hq
    rw [hq1]
  · intro q hq
    have hq1 : q = ((0 : ℚ), src) := by simpa using hq
    rw [hq1]
    exact hok.srcb
  · intro q hq
    have hq1 : q = ((0 : ℚ), src) := by simpa using hq
    rw [hq1]
    show distVal _ src ≤ _
    rw [hs0]
  · intro q hq
    have hq1 : q = ((0 : ℚ), src) := by simpa using hq
    rw [hq1]
    exact Or.inl rfl
  · intro x hx
    by_cases hxs : x = src
    · left
      refine ⟨((0 : ℚ), src), List.mem_singleton.mpr rfl, hxs.symm, ?_⟩
      rw [hxs, hs0]
    · right
      intro e he
      rw [hother x hxs, WithTop.top_add]
      exact le_top
  · intro kv hkv
    exact absurd hkv (List.not_mem_nil kv)
  · intro kv hkv
    exact absurd hkv (List.not_mem_nil kv)
  · intro kv hkv
    exact absurd hkv (List.not_mem_nil kv)
  · intro kv hkv
    exact absurd hkv (List.not_mem_nil kv)
  · intro c hc
    exact transGen_nil_false c c hc
  · intro x hx hfin
    exact absurd (hother x hx) hfin

/-- `find_path` with an empty blacklist computes a minimum-weight path: on a
graph whose buckets are closed under edge targets, with non-negative
weights, a source bucket, no parallel records inside a bucket, and a
reachable target distinct from the source, it returns a path from the
current node to the target of minimal total weight. -/
theorem find_path_min (g : Navigation) (src tgt : String)
    (hcur : g.current_node = some src)
    (hok : AdjOk g.adjacency_list src)
    (hnp : ∀ p ∈ g.adjacency_list, (p.2.map Edge.to).Nodup)
    (hne : tgt ≠ src)
    (hreach : ∃ P0, IsPath g.adjacency_list src tgt P0) :
    ∃ path, g.find_path tgt [] = Except.ok (some path) ∧
      IsPath g.adjacency_list src tgt path ∧
      ∀ Q, IsPath g.adjacency_list src tgt Q →
        pathWeight path ≤ pathWeight Q := by
  obtain ⟨adj, types, cur⟩ := g
  have hc : cur = some src := hcur
  subst hc
  have hfuel : (⟨[((0 : ℚ), src)],
      aset (adj.map (fun p => (p.1, (⊤ : WithTop ℚ)))) src
        ((0 : ℚ) : WithTop ℚ), []⟩ : DState).queue.length + countUnused adj 0
      ⟨[((0 : ℚ), src)],
        aset (adj.map (fun p => (p.1, (⊤ : WithTop ℚ)))) src
          ((0 : ℚ) : WithTop ℚ), []⟩ <
      totalEdgeCount adj + adj.length + 2 := by
    have h1 := countUnused_le_total adj 0
      ⟨[((0 : ℚ), src)],
        aset (adj.map (fun p => (p.1, (⊤ : WithTop ℚ)))) src
          ((0 : ℚ) : WithTop ℚ), []⟩
    have h2 : (⟨[((0 : ℚ), src)],
        aset (adj.map (fun p => (p.1, (⊤ : WithTop ℚ)))) src
          ((0 : ℚ) : WithTop ℚ), []⟩ : DState).queue.length = 1 := rfl
    omega
  obtain ⟨st2, hloop, hpost⟩ := dij_loop adj src tgt hok
    (totalEdgeCount adj + adj.length + 2) 0
    ⟨[((0 : ℚ), src)],
      aset (adj.map (fun p => (p.1, (⊤ : WithTop ℚ)))) src
        ((0 : ℚ) : WithTop ℚ), []⟩
    (dijInv_init adj src hok) hfuel
  obtain ⟨P0, hP0⟩ := hreach
  have htle := hpost.tmin P0 hP0
  have hfin : distVal st2 tgt ≠ ⊤ := by
    intro hcon
    rw [hcon, top_le_iff] at htle
    exact WithTop.coe_ne_top htle
  have hprevtgt := hpost.fin_prev tgt hne hfin
  obtain ⟨par0, hpar0⟩ := Option.isSome_iff_exists.mp hprevtgt
  have hedge2 : ∀ kv ∈ st2.prev, ∃ e ∈ aget adj kv.2, e.to = kv.1 ∧
      distVal st2 kv.2 + ((e.weight : ℚ) : WithTop ℚ) ≤ distVal st2 kv.1 := by
    intro kv hkv
    obtain ⟨e, he, h1, h2, _⟩ := hpost.prev_edge kv hkv
    exact ⟨e, he, h1, h2⟩
  obtain ⟨P, hPeq, hPpath, hPle⟩ := reconstruct_ok adj src (distVal st2)
    st2.prev hnp hpost.prev_nodup hpost.prev_pdom hpost.prev_val hedge2
    hpost.prev_acyclic (st2.prev.length + 1) [] tgt [] (Or.inl hprevtgt)
    List.nodup_nil (fun s hs => absurd hs (List.not_mem_nil s))
    (List.not_mem_nil tgt) (fun s hs => absurd hs (List.not_mem_nil s))
    (by simp)
  refine ⟨P, ?_, hPpath, ?_⟩
  · have hun : Navigation.find_path ⟨adj, types, some src⟩ tgt [] =
        (match dijkstraLoop adj tgt [] (totalEdgeCount adj + adj.length + 2)
            ⟨[((0 : ℚ), src)],
              aset (adj.map (fun p => (p.1, (⊤ : WithTop ℚ)))) src
                ((0 : ℚ) : WithTop ℚ), []⟩ with
        | Except.error _ => Except.error ()
        | Except.ok st =>
          match alookup st.prev tgt with
          | none => Except.ok none
          | some _ =>
            reconstruct adj src (st.prev.length + 1) tgt st.prev []) := rfl
    rw [hun]
    simp only [hloop, hpar0]
    rw [hPeq, List.reverse_nil, List.append_nil]
  · intro Q hQ
    have h1 : ((pathWeight P : ℚ) : WithTop ℚ) ≤ distVal st2 tgt := by
      have h2 := hPle
      rw [hpost.src_zero, WithTop.coe_zero, zero_add] at h2
      exact h2
    have h4 : ((pathWeight P : ℚ) : WithTop ℚ) ≤
        ((pathWeight Q : ℚ) : WithTop ℚ) := le_trans h1 (hpost.tmin Q hQ)
    exact_mod_cast h4


/-- C1 (amended): `find_path` with an empty blacklist returns a
minimum-total-weight path from the current node to the target, on every
graph whose adjacency buckets cover all edge targets and the source (as the
construction API guarantees), with non-negative edge weights, without
parallel records between the same ordered node pair, and with a reachable
target distinct from the source; in particular, on the spec example graph
(A→B 1, B→D 5, A→C 1, C→D 1, current node A) `find_path(D)` returns the
two-edge sequence [A→C, C→D] of total weight 2. (The original claim, without
the no-parallel-edge proviso, is refuted by `claim_C1_counterexample`: the
reconstruction returns the first record between a node pair, not the
cheapest.) -/
theorem claim_C1 :
    (∀ (g : Navigation) (src tgt : String),
      g.current_node = some src →
      (∀ p ∈ g.adjacency_list, ∀ e ∈ p.2,
        (alookup g.adjacency_list e.to).isSome) →
      (∀ p ∈ g.adjacency_list, ∀ e ∈ p.2, 0 ≤ e.weight) →
      (∀ p ∈ g.adjacency_list, (p.2.map Edge.to).Nodup) →
      (alookup g.adjacency_list src).isSome →
      tgt ≠ src →
      (∃ P0, IsPath g.adjacency_list src tgt P0) →
      ∃ path, g.find_path tgt [] = Except.ok (some path) ∧
        IsPath g.adjacency_list src tgt path ∧
        ∀ Q, IsPath g.adjacency_list src tgt Q →
          pathWeight path ≤ pathWeight Q) ∧
    exampleGraph.find_path "D" [] = Except.ok (some
      [⟨"C", 1, Direction.NORTH, true, false, false, false⟩,
        ⟨"D", 1, Direction.EAST, false, false, false, false⟩]) ∧
    pathWeight [(⟨"C", 1, Direction.NORTH, true, false, false, false⟩ : Edge),
      ⟨"D", 1, Direction.EAST, false, false, false, false⟩] = 2 := by
  refine ⟨?_, ?_, ?_⟩
  · intro g src tgt hcur hclosed hw hnp hsb hne hreach
    exact find_path_min g src tgt hcur ⟨hclosed, hw, hsb⟩ hnp hne hreach
  · with_unfolding_all decide
  · with_unfolding_all decide

theorem claim_C1_witness :
    ∃ path, exampleGraph.find_path "D" [] = Except.ok (some path) ∧
      IsPath exampleGraph.adjacency_list "A" "D" path ∧
      ∀ Q, IsPath exampleGraph.adjacency_list "A" "D" Q →
        pathWeight path ≤ pathWeight Q :=
  claim_C1.1 exampleGraph "A" "D"
    (by with_unfolding_all decide)
    (by with_unfolding_all decide)
    (by with_unfolding_all decide)
    (by with_unfolding_all decide)
    (by with_unfolding_all decide)
    (by with_unfolding_all decide)
    ⟨[⟨"C", 1, Direction.NORTH, true, false, false, false⟩,
      ⟨"D", 1, Direction.EAST, false, false, false, false⟩],
      by with_unfolding_all decide⟩


end Choros
